import Mathlib

/-!
# Huffman codec of `internal/encoding/huffman.go`

A shallow embedding of the codec engine (`HuffmanCode.Encode`, `HuffmanCode.Decode` and
their helpers) and the properties of it that the specification states.

Conventions of the embedding.
* A Go `string` or `[]byte` is the list of its bytes (`Bytes`), each byte a natural number.
  The characters `'0'` and `'1'` of the bit strings are the bytes 48 and 49.
* The input of `Encode` is a valid UTF-8 string; it is given by its runes (`List Char`),
  which is what `[]rune(s)` and `range s` yield for such a string.
* A Go `map` is an association list with pairwise different keys (`mapGet`, `mapSet`).
* `*HuffmanTreeNode` is `NodePtr`, with `NodePtr.nil` the nil pointer.
* Package `internal/heap` and the standard library's `encoding/gob` are not part of the
  sources; they are parameters (`MinHeap`, `Gob`) constrained by the laws the specification
  gives for them.
-/

namespace Compress

/-- The bytes of a Go `string` or `[]byte`. -/
abbrev Bytes := List Nat

/-- Outcome of a Go call returning `(value, error)`: the value with a nil error, a non-nil
error, a run-time panic, or (for the fuel-bounded loops of the embedding) no outcome. -/
inductive GoResult (α : Type) where
  | ok (v : α)
  | err
  | panic
  | diverged
  deriving DecidableEq, Repr

/-- Sequencing of Go statements: everything but a normal outcome is propagated. -/
def GoResult.andThen {α β : Type} (r : GoResult α) (f : α → GoResult β) : GoResult β :=
  match r with
  | .ok v => f v
  | .err => .err
  | .panic => .panic
  | .diverged => .diverged

/-! ## Go maps -/

/-- Map lookup `m[k]` in its comma-ok form. -/
def mapGet {κ ν : Type} [DecidableEq κ] : List (κ × ν) → κ → Option ν
  | [], _ => none
  | (k', v) :: t, k => if k' = k then some v else mapGet t k

/-- Map assignment `m[k] = v`. -/
def mapSet {κ ν : Type} [DecidableEq κ] : List (κ × ν) → κ → ν → List (κ × ν)
  | [], k, v => [(k, v)]
  | (k', v') :: t, k, v => if k' = k then (k, v) :: t else (k', v') :: mapSet t k v

/-- The loop `for k, v := range src { dst[k] = v }`. -/
def mapCopy {κ ν : Type} [DecidableEq κ] (dst src : List (κ × ν)) : List (κ × ν) :=
  src.foldl (fun m e => mapSet m e.1 e.2) dst

/-! ## Strings and integers -/

/-- The conversion `string(r)` of a rune: its UTF-8 encoding. -/
def runeToString (c : Char) : Bytes :=
  let r := c.toNat
  if r < 0x80 then [r]
  else if r < 0x800 then [0xC0 + r / 64, 0x80 + r % 64]
  else if r < 0x10000 then [0xE0 + r / 4096, 0x80 + r / 64 % 64, 0x80 + r % 64]
  else [0xF0 + r / 262144, 0x80 + r / 4096 % 64, 0x80 + r / 64 % 64, 0x80 + r % 64]

/-- The conversion of a rune sequence to a string and then to `[]byte`. -/
def utf8 (s : List Char) : Bytes := s.flatMap runeToString

/-- The `k` low bytes of `n`, least significant first. -/
def leBytes : Nat → Nat → Bytes
  | 0, _ => []
  | k + 1, n => n % 256 :: leBytes k (n / 256)

/-- `binary.Write(buf, binary.LittleEndian, uint64(n))`: the 8 bytes written. -/
def uint64LE (n : Nat) : Bytes := leBytes 8 n

/-- The number whose little-endian bytes are given. -/
def leValue : Bytes → Nat
  | [] => 0
  | b :: t => b % 256 + 256 * leValue t

/-- `binary.LittleEndian.Uint64(b)` for a slice `b` of 8 bytes. -/
def leUint64 (b : Bytes) : Nat := leValue (b.take 8)

/-- The conversion `int(u)` of a `uint64` on a 64-bit platform. -/
def toInt (u : Nat) : Int := if u % 2 ^ 64 < 2 ^ 63 then (u % 2 ^ 64 : Nat) else (u % 2 ^ 64 : Nat) - 2 ^ 64

/-- `strconv.ParseUint(s, 2, 8)`: `none` is a non-nil error. -/
def parseUint2 (s : Bytes) : Option Nat :=
  if s = [] then none
  else
    match s.foldl (fun acc d =>
        match acc with
        | none => none
        | some n => if d = 48 then some (2 * n) else if d = 49 then some (2 * n + 1) else none)
        (some 0) with
    | none => none
    | some n => if n < 2 ^ 8 then some n else none

/-- `fmt.Sprintf("%08b", uint64(b))` for a byte `b`. -/
def binaryRepr (b : Nat) : Bytes :=
  [7, 6, 5, 4, 3, 2, 1, 0].map (fun k => 48 + b / 2 ^ k % 2)

/-! ## The tree -/

/-- A `*HuffmanTreeNode`: nil, or the address of a node with its four fields. -/
inductive NodePtr where
  | nil
  | addr (id : Bytes) (weight : Nat) (left right : NodePtr)
  deriving DecidableEq, Repr

/-- The struct `HuffmanTreeNode`. The weights are counts of runes of one string, so that
`int` arithmetic on them does not overflow; they are natural numbers here. -/
structure HuffmanTreeNode where
  id : Bytes
  weight : Nat
  left : NodePtr
  right : NodePtr
  deriving DecidableEq, Repr

/-- The expression `&n`. -/
def HuffmanTreeNode.addrOf (n : HuffmanTreeNode) : NodePtr :=
  .addr n.id n.weight n.left n.right

/-- Method `Val`. -/
def HuffmanTreeNode.Val (h : HuffmanTreeNode) : Nat := h.weight

/-! ## Parameters: the heap and the serialisation -/

/-- Modelled from the spec: package `internal/heap` (`NewMinHeap`, `Insert`, `Extract`,
`Size`) is missing from the sources. The heap is its internal array; `Size` is the length of
the array, `NewMinHeap` the empty array, and `Extract` fails on the empty queue. -/
structure MinHeap where
  insert : List HuffmanTreeNode → HuffmanTreeNode → List HuffmanTreeNode
  extract : List HuffmanTreeNode → Option (HuffmanTreeNode × List HuffmanTreeNode)

/-- Modelled from the spec: the contract of the priority queue. `Insert` adds its argument to
the stored elements, `Extract` fails exactly on the empty queue and otherwise removes and
returns a stored element of minimum weight. -/
structure MinHeap.Lawful (hp : MinHeap) : Prop where
  insert_perm : ∀ h x, (hp.insert h x).Perm (x :: h)
  extract_nil : hp.extract [] = none
  extract_perm : ∀ h, h ≠ [] → ∃ x h', hp.extract h = some (x, h') ∧ (x :: h').Perm h
  extract_min : ∀ h x h', hp.extract h = some (x, h') → ∀ y ∈ h, x.weight ≤ y.weight

/-- The metadata serialisation (`encoding/gob` on a `[]map[string]string`); `none` is a
non-nil error. A decoded map is given by its entries in the order in which `range` visits
them. -/
structure Gob where
  encode : List (List (Bytes × Bytes)) → Option Bytes
  decode : Bytes → Option (List (List (Bytes × Bytes)))

/-- The serialisation round-trips every list of one-entry maps. -/
def Gob.Lawful (gob : Gob) : Prop :=
  ∀ l : List (List (Bytes × Bytes)), (∀ m ∈ l, m.length = 1) →
    ∃ b, gob.encode l = some b ∧ gob.decode b = some l

/-! ## The helpers of the codec -/

/-- Function `getFrequencyTable`. -/
def getFrequencyTable (s : List Char) : List (Char × Nat) :=
  s.foldl (fun frequencyTable c =>
    let m1 := match mapGet frequencyTable c with
      | some _ => frequencyTable
      | none => mapSet frequencyTable c 0
    mapSet m1 c ((mapGet m1 c).getD 0 + 1)) []

/-- Function `getHuffmanCodePoints`. -/
def getHuffmanCodePoints : NodePtr → Bytes → List (Bytes × Bytes)
  | .nil, _ => []
  | .addr id _ l r, codePfx =>
    match l, r with
    | .nil, .nil => [(id, codePfx)]
    | l, r =>
      mapCopy (mapCopy [] (getHuffmanCodePoints l (codePfx ++ [48])))
        (getHuffmanCodePoints r (codePfx ++ [49]))

/-- Function `encodeText`. The goroutines send one result per rune, tagged with its index;
the results are sorted by index before they are concatenated, which is the concatenation in
source order. A key missing from the map yields the empty string. -/
def encodeText (codeMap : List (Bytes × Bytes)) (source : List Char) : Bytes :=
  source.flatMap (fun i => (mapGet codeMap (runeToString i)).getD [])

/-- Function `padEncodedText`. -/
def padEncodedText (s : Bytes) : Bytes :=
  let pad := 8 - s.length % 8
  s ++ List.replicate pad 48

/-- The loop of `transformEncodedTextToBytes`; `s` is the suffix `s[i:]` not yet read and
`c` the bytes appended so far. -/
def transformLoop : Nat → Bytes → Bytes → GoResult Bytes
  | 0, s, c => if 0 < s.length then .diverged else .ok c
  | fuel + 1, s, c =>
    if 0 < s.length then
      if s.length < 8 then .panic
      else
        match parseUint2 (s.take 8) with
        | none => .err
        | some x => transformLoop fuel (s.drop 8) (c ++ [x % 256])
    else .ok c

/-- Function `transformEncodedTextToBytes`. -/
def transformEncodedTextToBytes (s : Bytes) : GoResult Bytes :=
  transformLoop s.length s []

/-- The comparison function given to `sort.Slice` in `getSortedFrequencyMap`. -/
def freqLess (a b : Char × Nat) : Prop :=
  if a.2 ≠ b.2 then a.2 < b.2 else a.1 < b.1

instance : DecidableRel freqLess := fun a b => by
  unfold freqLess
  exact inferInstance

/-- Function `getSortedFrequencyMap`: the entries of the map, sorted by `freqLess` (no entry
is less than one before it). -/
def getSortedFrequencyMap (m : List (Char × Nat)) : List (Char × Nat) :=
  m.insertionSort (fun a b => ¬ freqLess b a)

/-! ## Encode -/

/-- The loop `for mHeap.Size() > 1` of `Encode`. -/
def mergeLoop (hp : MinHeap) : Nat → List HuffmanTreeNode → GoResult (List HuffmanTreeNode)
  | 0, mHeap => if 1 < mHeap.length then .diverged else .ok mHeap
  | fuel + 1, mHeap =>
    if 1 < mHeap.length then
      match hp.extract mHeap with
      | none => .panic
      | some (a, h1) =>
        match hp.extract h1 with
        | none => .panic
        | some (b, h2) =>
          mergeLoop hp fuel
            (hp.insert h2 { id := [], weight := a.Val + b.Val, left := a.addrOf, right := b.addrOf })
    else .ok mHeap

/-- Lines 166 to 188 of `Encode`: the heap is seeded with one leaf per entry of the sorted
frequency list, merged down to one node, and that node is extracted. -/
def buildTree (hp : MinHeap) (freqList : List (Char × Nat)) : GoResult HuffmanTreeNode :=
  let mHeap := freqList.foldl
    (fun h i => hp.insert h { id := runeToString i.1, weight := i.2, left := .nil, right := .nil }) []
  (mergeLoop hp mHeap.length mHeap).andThen fun mHeap =>
    match hp.extract mHeap with
    | none => .panic
    | some (rootNode, _) => .ok rootNode

/-- The list `codesInList` of `Encode`. -/
def codesInList (codeMap : List (Bytes × Bytes)) (freqList : List (Char × Nat)) :
    List (List (Bytes × Bytes)) :=
  freqList.map (fun v => [(runeToString v.1, (mapGet codeMap (runeToString v.1)).getD [])])

/-- Method `HuffmanCode.Encode`. -/
def Encode (hp : MinHeap) (gob : Gob) (s : List Char) : GoResult Bytes :=
  let m := getFrequencyTable s
  if m.length = 0 then .ok []
  else
    let freqList := getSortedFrequencyMap m
    (buildTree hp freqList).andThen fun rootNodeT =>
      let codeMap := getHuffmanCodePoints rootNodeT.addrOf []
      let encodedText := encodeText codeMap s
      let paddedEncodedText := padEncodedText encodedText
      (transformEncodedTextToBytes paddedEncodedText).andThen fun encodedData =>
        match gob.encode (codesInList codeMap freqList) with
        | none => .err
        | some metadata =>
          .ok ((uint64LE metadata.length ++ metadata) ++ (uint64LE encodedText.length ++ encodedData))

/-! ## Decode -/

/-- The map `decodeMap` of `Decode`. -/
def buildDecodeMap (metadata : List (List (Bytes × Bytes))) : List (Bytes × Bytes) :=
  metadata.foldl (fun dm i => i.foldl (fun dm e => mapSet dm e.2 e.1) dm) []

/-- The state of the bit loop of `Decode`. -/
structure DecodeState where
  dataMarkerCount : Nat
  partialString : Bytes
  result : Bytes
  deriving DecidableEq, Repr

/-- The nested loops of `Decode` over the characters of the `%08b` form of each byte, given
as one list of characters; `break outerLoop` ends both. -/
def decodeLoop (decodeMap : List (Bytes × Bytes)) (dataMarker : Int) :
    Bytes → DecodeState → DecodeState
  | [], st => st
  | bit :: rest, st =>
    let cnt := st.dataMarkerCount + 1
    let ps := st.partialString ++ [bit]
    let st1 : DecodeState :=
      match mapGet decodeMap ps with
      | some decodedValue => { dataMarkerCount := cnt, partialString := [], result := st.result ++ decodedValue }
      | none => { dataMarkerCount := cnt, partialString := ps, result := st.result }
    if (cnt : Int) = dataMarker then st1 else decodeLoop decodeMap dataMarker rest st1

/-- Method `HuffmanCode.Decode`. The byte slice `[]byte(encodedText)` has the length of the
string and a capacity of `slack` more bytes, as the allocator decides. A slice expression
`b[:n]` panics when `n` exceeds the capacity of `b`, and `b[n:]` when `n` exceeds its
length. Where fewer than 8 bytes are left for the data marker and line 254 does not panic,
the value read there is not used: line 256 returns the error. -/
def Decode (gob : Gob) (slack : Nat) (encodedText : Bytes) : GoResult Bytes :=
  let encodedBytes := encodedText
  if encodedBytes.length = 0 then .ok []
  else if encodedBytes.length < 8 then .err
  else
    let metadataMarker := leUint64 (encodedBytes.take 8)
    let encodedBytes := encodedBytes.drop 8
    if (encodedBytes.length : Int) < toInt metadataMarker then .err
    else if encodedBytes.length + slack < metadataMarker then .panic
    else if encodedBytes.length < metadataMarker then .panic
    else
      let encodedMetadata := encodedBytes.take metadataMarker
      let encodedBytes := encodedBytes.drop metadataMarker
      match gob.decode encodedMetadata with
      | none => .err
      | some metadata =>
        let decodeMap := buildDecodeMap metadata
        if encodedBytes.length + slack < 8 then .panic
        else
          let dataMarker := leUint64 (encodedBytes.take 8)
          if encodedBytes.length < 8 then .err
          else
            let encodedBytes := encodedBytes.drop 8
            let st := decodeLoop decodeMap (toInt dataMarker) (encodedBytes.flatMap binaryRepr)
              { dataMarkerCount := 0, partialString := [], result := [] }
            if (st.dataMarkerCount : Int) ≠ toInt dataMarker then .err
            else .ok st.result

/-! ## A reference heap and a reference serialisation -/

/-- Modelled from the spec: `Extract` of a priority queue kept as an unordered array; the
first element of minimum weight is removed. -/
def refExtract : List HuffmanTreeNode → Option (HuffmanTreeNode × List HuffmanTreeNode)
  | [] => none
  | x :: t =>
    match refExtract t with
    | none => some (x, [])
    | some (y, t') => if x.weight ≤ y.weight then some (x, t) else some (y, x :: t')

/-- Modelled from the spec: a priority queue that appends on `Insert` and removes the first
minimum on `Extract`. -/
def refHeap : MinHeap where
  insert := fun h x => h ++ [x]
  extract := refExtract

/-- A length as bytes: as many bytes 255 as fit, then the remainder. -/
def encLen (n : Nat) : Bytes := List.replicate (n / 255) 255 ++ [n % 255]

/-- Reads a length written by `encLen`; returns it with the rest of the input. -/
def decLen : Bytes → Option (Nat × Bytes)
  | [] => none
  | b :: t =>
    if b = 255 then
      match decLen t with
      | none => none
      | some (n, r) => some (n + 255, r)
    else some (b, t)

/-- A string as bytes: its length, then its bytes. -/
def encStr (b : Bytes) : Bytes := encLen b.length ++ b

/-- Reads a string written by `encStr`. -/
def decStr (b : Bytes) : Option (Bytes × Bytes) :=
  match decLen b with
  | none => none
  | some (n, r) => if r.length < n then none else some (r.take n, r.drop n)

/-- The entries of one map as bytes. -/
def encEntries (m : List (Bytes × Bytes)) : Bytes :=
  m.flatMap (fun e => encStr e.1 ++ encStr e.2)

/-- Reads `n` map entries. -/
def decEntries : Nat → Bytes → Option (List (Bytes × Bytes) × Bytes)
  | 0, b => some ([], b)
  | n + 1, b =>
    match decStr b with
    | none => none
    | some (k, r1) =>
      match decStr r1 with
      | none => none
      | some (v, r2) =>
        match decEntries n r2 with
        | none => none
        | some (m, r3) => some ((k, v) :: m, r3)

/-- A list of maps as bytes: each map is its number of entries, then its entries. -/
def encMaps (l : List (List (Bytes × Bytes))) : Bytes :=
  l.flatMap (fun m => encLen m.length ++ encEntries m)

/-- Reads `n` maps. -/
def decMaps : Nat → Bytes → Option (List (List (Bytes × Bytes)) × Bytes)
  | 0, b => some ([], b)
  | n + 1, b =>
    match decLen b with
    | none => none
    | some (k, r1) =>
      match decEntries k r1 with
      | none => none
      | some (m, r2) =>
        match decMaps n r2 with
        | none => none
        | some (l, r3) => some (m :: l, r3)

/-- A self-describing serialisation of a list of maps, standing for `encoding/gob`: the
number of maps, then the maps. -/
def refGob : Gob where
  encode := fun l => some (encLen l.length ++ encMaps l)
  decode := fun b =>
    match decLen b with
    | none => none
    | some (n, r) =>
      match decMaps n r with
      | some (l, []) => some l
      | _ => none


/-! ## Definitions used to state the properties -/

/-- The keys of a map. -/
def mapKeys {κ ν : Type} (m : List (κ × ν)) : List κ := m.map Prod.fst

/-- The identifiers of the leaves below a pointer, left to right, as `getHuffmanCodePoints`
visits them. -/
def leafIds : NodePtr → List Bytes
  | .nil => []
  | .addr id _ l r =>
    match l, r with
    | .nil, .nil => [id]
    | l, r => leafIds l ++ leafIds r

/-- The code of identifier `k` in the tree at `t`: the path from `t` to the leaf that holds
`k`, appended to `p`, with 48 for a step to the left and 49 for a step to the right; the
right subtree is written last and wins. -/
def codeOf : NodePtr → Bytes → Bytes → Option Bytes
  | .nil, _, _ => none
  | .addr id _ l r, p, k =>
    match l, r with
    | .nil, .nil => if id = k then some p else none
    | l, r => (codeOf r (p ++ [49]) k).orElse (fun _ => codeOf l (p ++ [48]) k)

/-- The leaf that `Encode` inserts into the heap for an entry of the frequency list. -/
def leafOf (i : Char × Nat) : HuffmanTreeNode :=
  { id := runeToString i.1, weight := i.2, left := .nil, right := .nil }

/-- The node that the merge loop of `Encode` builds from two extracted nodes. -/
def mergeNodes (a b : HuffmanTreeNode) : HuffmanTreeNode :=
  { id := [], weight := a.Val + b.Val, left := a.addrOf, right := b.addrOf }

/-- `b[:len(b)-3]`: a buffer without its last 3 bytes. -/
def dropLast3 (b : Bytes) : Bytes := b.take (b.length - 3)

/-- The code of a rune in a code table: `codeMap[string(i)]`, the empty string when the key
is missing. -/
def symbolCode (codeMap : List (Bytes × Bytes)) (i : Char) : Bytes :=
  (mapGet codeMap (runeToString i)).getD []

/-- The code table that `Encode` derives for a tree root. -/
def codeTable (root : HuffmanTreeNode) : List (Bytes × Bytes) :=
  getHuffmanCodePoints root.addrOf []

/-- The frequency list that `Encode` computes for its input. -/
def freqListOf (s : List Char) : List (Char × Nat) :=
  getSortedFrequencyMap (getFrequencyTable s)

/-- The value of a string of characters 48 and 49 read as a binary number, the first
character being the most significant bit. -/
def binValue (g : Bytes) : Nat := g.foldl (fun n d => 2 * n + (d - 48)) 0

/-- The values of the first `n` groups of 8 characters of a string. -/
def groupValues (n : Nat) (s : Bytes) : List Nat :=
  (List.range n).map (fun k => binValue ((s.drop (8 * k)).take 8))

/-- The results that the goroutines of `encodeText` send to the channel, listed by rune:
the index of a result is the byte index of its rune in the source string (`idx` here is the
byte index of the first rune of the list). -/
def encodeResults (codeMap : List (Bytes × Bytes)) : Nat → List Char → List (Nat × Bytes)
  | _, [] => []
  | idx, i :: rest =>
    (idx, (mapGet codeMap (runeToString i)).getD []) ::
      encodeResults codeMap (idx + (runeToString i).length) rest

/-- The end of `encodeText`: the results in the order in which they were received from the
channel are sorted by index with `sort.Slice`, and their strings are concatenated. -/
def collectResults (received : List (Nat × Bytes)) : Bytes :=
  (received.insertionSort (fun a b => ¬ b.1 < a.1)).flatMap Prod.snd

/-- Method `HuffmanCode.Encode` with its two sources of non-determinism made explicit:
`iterate` is the order in which `range` visits the entries of the frequency map in
`getSortedFrequencyMap`, and `deliver` is the order in which the goroutines of
`encodeText` deliver their results to the channel. -/
def EncodeSched (hp : MinHeap) (gob : Gob)
    (iterate : List (Char × Nat) → List (Char × Nat))
    (deliver : List (Nat × Bytes) → List (Nat × Bytes)) (s : List Char) : GoResult Bytes :=
  let m := getFrequencyTable s
  if m.length = 0 then .ok []
  else
    let freqList := getSortedFrequencyMap (iterate m)
    (buildTree hp freqList).andThen fun rootNodeT =>
      let codeMap := getHuffmanCodePoints rootNodeT.addrOf []
      let encodedText := collectResults (deliver (encodeResults codeMap 0 s))
      let paddedEncodedText := padEncodedText encodedText
      (transformEncodedTextToBytes paddedEncodedText).andThen fun encodedData =>
        match gob.encode (codesInList codeMap freqList) with
        | none => .err
        | some metadata =>
          .ok ((uint64LE metadata.length ++ metadata) ++ (uint64LE encodedText.length ++ encodedData))

/-- The weight stored in the node at a pointer, 0 for the nil pointer. -/
def weightOf : NodePtr → Nat
  | .nil => 0
  | .addr _ w _ _ => w

/-- The leaves below a pointer, left to right, each with its identifier and weight. -/
def leaves : NodePtr → List (Bytes × Nat)
  | .nil => []
  | .addr id w l r =>
    match l, r with
    | .nil, .nil => [(id, w)]
    | l, r => leaves l ++ leaves r

/-- Every node below the pointer is a leaf or has two children, both well formed, and the
sum of their weights as its weight. -/
def wellFormed : NodePtr → Bool
  | .nil => false
  | .addr _ w l r =>
    match l, r with
    | .nil, .nil => true
    | l, r => wellFormed l && wellFormed r && decide (w = weightOf l + weightOf r)

/-- The leaf entry of an entry of the frequency list: the UTF-8 form of the symbol and its
count. -/
def leafPair (i : Char × Nat) : Bytes × Nat := (runeToString i.1, i.2)

/-- The weight of the node reached from a pointer along a path, a string of characters 48
(to the left child) and 49 (to the right child), as the codes are. -/
def weightAt : NodePtr → Bytes → Option Nat
  | .nil, _ => none
  | .addr _ w _ _, [] => some w
  | .addr _ _ l r, b :: q =>
    if b = 48 then weightAt l q else if b = 49 then weightAt r q else none

/-- One record per inner node below a pointer: the weights of its left child, of its right
child, and of the node. -/
def records : NodePtr → List (Nat × Nat × Nat)
  | .nil => []
  | .addr _ w l r =>
    match l, r with
    | .nil, .nil => []
    | l, r => (weightOf l, weightOf r, w) :: (records l ++ records r)

/-- The record of the inner node reached along a path. -/
def recordAt : NodePtr → Bytes → Option (Nat × Nat × Nat)
  | .nil, _ => none
  | .addr _ w l r, [] =>
    match l, r with
    | .nil, .nil => none
    | l, r => some (weightOf l, weightOf r, w)
  | .addr _ _ l r, b :: q =>
    if b = 48 then recordAt l q else if b = 49 then recordAt r q else none

/-- When a child of the first inner node is lighter than a child of the second, the first
node is lighter than the second. -/
def lighterFirst (r1 r2 : Nat × Nat × Nat) : Prop :=
  ∀ u, (u = r1.1 ∨ u = r1.2.1) → ∀ v, (v = r2.1 ∨ v = r2.2.1) → u < v → r1.2.2 < r2.2.2

/-- The bit unpacker as section 4.6 of the specification words it: the bits are scanned
one at a time and appended to the accumulated bitstring; whenever the accumulated
bitstring is an entry of the table, the mapped symbol is emitted and the accumulator is
reset. Returns the bitstring left accumulated and the symbols emitted. -/
def specUnpack (decodeMap : List (Bytes × Bytes)) : Bytes → Bytes → Bytes → Bytes × Bytes
  | [], acc, out => (acc, out)
  | bit :: rest, acc, out =>
    match mapGet decodeMap (acc ++ [bit]) with
    | some symbol => specUnpack decodeMap rest [] (out ++ symbol)
    | none => specUnpack decodeMap rest (acc ++ [bit]) out

/-! ## Go maps: lookup after assignment -/

theorem mapGet_mapSet {κ ν : Type} [DecidableEq κ] (m : List (κ × ν)) (k k' : κ) (v : ν) :
    mapGet (mapSet m k v) k' = if k = k' then some v else mapGet m k' := by
  induction m with
  | nil => simp [mapSet, mapGet]
  | cons e t ih =>
    obtain ⟨a, b⟩ := e
    by_cases h : a = k
    · subst h
      by_cases h2 : a = k' <;> simp [mapSet, mapGet, h2]
    · by_cases h2 : a = k'
      · subst h2
        have h3 : ¬ k = a := fun e => h e.symm
        simp [mapSet, mapGet, h, h3]
      · simp [mapSet, mapGet, h, h2, ih]

theorem mapKeys_mapSet_mem {κ ν : Type} [DecidableEq κ] (m : List (κ × ν)) (k k' : κ) (v : ν) :
    k' ∈ mapKeys (mapSet m k v) ↔ k' = k ∨ k' ∈ mapKeys m := by
  induction m with
  | nil => simp [mapSet, mapKeys]
  | cons e t ih =>
    obtain ⟨a, b⟩ := e
    by_cases h : a = k
    · subst h
      simp [mapSet, mapKeys]
    · simp only [mapSet, h, if_false]
      simp only [mapKeys, List.map_cons, List.mem_cons] at ih ⊢
      rw [ih]
      tauto

theorem mapKeys_mapSet_nodup {κ ν : Type} [DecidableEq κ] (m : List (κ × ν)) (k : κ) (v : ν)
    (h : (mapKeys m).Nodup) : (mapKeys (mapSet m k v)).Nodup := by
  induction m with
  | nil => simp [mapSet, mapKeys]
  | cons e t ih =>
    obtain ⟨a, b⟩ := e
    by_cases h1 : a = k
    · subst h1
      simpa [mapSet, mapKeys] using h
    · simp only [mapSet, h1, if_false]
      have h2 : a ∉ mapKeys t ∧ (mapKeys t).Nodup := by simpa [mapKeys] using h
      have h3 : (mapKeys (mapSet t k v)).Nodup := ih h2.2
      have h4 : a ∉ mapKeys (mapSet t k v) := by
        rw [mapKeys_mapSet_mem]
        intro hc
        rcases hc with hc | hc
        · exact h1 hc
        · exact h2.1 hc
      show (a :: mapKeys (mapSet t k v)).Nodup
      exact List.nodup_cons.mpr ⟨h4, h3⟩

theorem mapGet_eq_none_iff {κ ν : Type} [DecidableEq κ] (m : List (κ × ν)) (k : κ) :
    mapGet m k = none ↔ k ∉ mapKeys m := by
  induction m with
  | nil => simp [mapGet, mapKeys]
  | cons e t ih =>
    obtain ⟨a, b⟩ := e
    by_cases h : a = k
    · subst h
      simp [mapGet, mapKeys]
    · have h2 : ¬ k = a := fun e => h e.symm
      simp only [mapGet, h, if_false, ih]
      simp [mapKeys, h2]

theorem mapGet_some_mem {κ ν : Type} [DecidableEq κ] (m : List (κ × ν)) (k : κ) (v : ν)
    (h : mapGet m k = some v) : (k, v) ∈ m := by
  induction m with
  | nil => simp [mapGet] at h
  | cons e t ih =>
    obtain ⟨a, b⟩ := e
    by_cases h1 : a = k
    · subst h1
      simp [mapGet] at h
      simp [h]
    · simp only [mapGet, h1, if_false] at h
      exact List.mem_cons_of_mem _ (ih h)

theorem mapGet_of_mem {κ ν : Type} [DecidableEq κ] (m : List (κ × ν)) (k : κ) (v : ν)
    (hn : (mapKeys m).Nodup) (h : (k, v) ∈ m) : mapGet m k = some v := by
  induction m with
  | nil => simp at h
  | cons e t ih =>
    obtain ⟨a, b⟩ := e
    have h2 : a ∉ mapKeys t ∧ (mapKeys t).Nodup := by simpa [mapKeys] using hn
    rcases List.mem_cons.mp h with h1 | h1
    · cases h1
      simp [mapGet]
    · have h3 : k ∈ mapKeys t := List.mem_map.mpr ⟨(k, v), h1, rfl⟩
      have h4 : ¬ a = k := fun e => h2.1 (e ▸ h3)
      simp only [mapGet, h4, if_false]
      exact ih h2.2 h1

theorem mapKeys_mapCopy_nodup {κ ν : Type} [DecidableEq κ] (src dst : List (κ × ν))
    (h : (mapKeys dst).Nodup) : (mapKeys (mapCopy dst src)).Nodup := by
  induction src generalizing dst with
  | nil => simpa [mapCopy] using h
  | cons e t ih =>
    simp only [mapCopy, List.foldl_cons]
    exact ih _ (mapKeys_mapSet_nodup dst e.1 e.2 h)

theorem mapGet_mapCopy {κ ν : Type} [DecidableEq κ] (src dst : List (κ × ν)) (k : κ)
    (h : (mapKeys src).Nodup) :
    mapGet (mapCopy dst src) k = (mapGet src k).orElse (fun _ => mapGet dst k) := by
  induction src generalizing dst with
  | nil => simp [mapCopy, mapGet]
  | cons e t ih =>
    obtain ⟨a, b⟩ := e
    have h2 : a ∉ mapKeys t ∧ (mapKeys t).Nodup := by simpa [mapKeys] using h
    have ih2 := ih (mapSet dst a b) h2.2
    simp only [mapCopy, List.foldl_cons] at ih2 ⊢
    rw [ih2, mapGet_mapSet]
    by_cases h3 : a = k
    · subst h3
      have h4 : mapGet t a = none := (mapGet_eq_none_iff t a).mpr h2.1
      simp [mapGet, h4]
    · simp [mapGet, h3]

/-! ## Runes and their UTF-8 form -/

theorem char_toNat_lt (c : Char) : c.toNat < 0x110000 := by
  have h := c.valid
  simp only [UInt32.isValidChar, Nat.isValidChar] at h
  show c.val.toNat < 0x110000
  omega

theorem runeToString_injective (c d : Char) (h : runeToString c = runeToString d) : c = d := by
  have hc := char_toNat_lt c
  have hd := char_toNat_lt d
  have key : c.toNat = d.toNat := by
    unfold runeToString at h
    simp only at h
    split_ifs at h <;> simp only [List.cons.injEq, and_true, List.cons_ne_nil, List.nil_eq,
      List.cons_ne_self, and_false, reduceCtorEq] at h <;> omega
  apply Char.eq_of_val_eq
  apply UInt32.eq_of_val_eq
  apply Fin.eq_of_val_eq
  exact key

theorem runeToString_ne_nil (c : Char) : runeToString c ≠ [] := by
  unfold runeToString
  simp only
  split_ifs <;> simp

/-! ## The frequency table -/

theorem getFrequencyTable_snoc (s : List Char) (c : Char) :
    getFrequencyTable (s ++ [c]) =
      mapSet (match mapGet (getFrequencyTable s) c with
        | some _ => getFrequencyTable s
        | none => mapSet (getFrequencyTable s) c 0) c
        ((mapGet (match mapGet (getFrequencyTable s) c with
          | some _ => getFrequencyTable s
          | none => mapSet (getFrequencyTable s) c 0) c).getD 0 + 1) := by
  simp [getFrequencyTable, List.foldl_append]

theorem getFrequencyTable_nodup (s : List Char) : (mapKeys (getFrequencyTable s)).Nodup := by
  induction s using List.reverseRecOn with
  | nil => simp [getFrequencyTable, mapKeys]
  | append_singleton s c ih =>
    rw [getFrequencyTable_snoc]
    apply mapKeys_mapSet_nodup
    split
    · exact ih
    · exact mapKeys_mapSet_nodup _ _ _ ih

theorem mapGet_getFrequencyTable (s : List Char) (c : Char) :
    mapGet (getFrequencyTable s) c = if c ∈ s then some (s.count c) else none := by
  induction s using List.reverseRecOn with
  | nil => simp [getFrequencyTable, mapGet]
  | append_singleton s d ih =>
    rw [getFrequencyTable_snoc, mapGet_mapSet]
    by_cases hdc : d = c
    · subst hdc
      have hd := ih
      by_cases hmem : d ∈ s
      · simp only [hmem, if_true] at hd
        simp [hd]
      · simp only [hmem, if_false] at hd
        have hcount : List.count d s = 0 := List.count_eq_zero_of_not_mem hmem
        simp [hd, mapGet_mapSet, hcount]
    · have hcd : ¬ c = d := fun e => hdc e.symm
      have h1 : mapGet (match mapGet (getFrequencyTable s) d with
          | some _ => getFrequencyTable s
          | none => mapSet (getFrequencyTable s) d 0) c = mapGet (getFrequencyTable s) c := by
        split
        · rfl
        · rw [mapGet_mapSet]
          simp [hdc]
      simp only [hdc, if_false, h1, ih]
      simp [hcd, List.count_append, List.count_singleton, hdc]

theorem mem_mapKeys_getFrequencyTable (s : List Char) (c : Char) :
    c ∈ mapKeys (getFrequencyTable s) ↔ c ∈ s := by
  have h := mapGet_eq_none_iff (getFrequencyTable s) c
  rw [mapGet_getFrequencyTable] at h
  by_cases hc : c ∈ s
  · simp only [hc, if_true, reduceCtorEq, false_iff, not_not] at h
    simp [h, hc]
  · simp only [hc, if_false, true_iff] at h
    simp [h, hc]

theorem getSortedFrequencyMap_perm (m : List (Char × Nat)) :
    (getSortedFrequencyMap m).Perm m :=
  List.perm_insertionSort _ m

/-! ## The code table of a tree -/

theorem leafIds_leaf (id : Bytes) (w : Nat) : leafIds (.addr id w .nil .nil) = [id] := by
  simp [leafIds]

theorem leafIds_inner (id : Bytes) (w : Nat) (l r : NodePtr) (h : ¬ (l = .nil ∧ r = .nil)) :
    leafIds (.addr id w l r) = leafIds l ++ leafIds r := by
  cases l <;> cases r <;> simp_all [leafIds]

theorem codeOf_leaf (id : Bytes) (w : Nat) (p k : Bytes) :
    codeOf (.addr id w .nil .nil) p k = if id = k then some p else none := by
  simp [codeOf]

theorem codeOf_inner (id : Bytes) (w : Nat) (l r : NodePtr) (p k : Bytes)
    (h : ¬ (l = .nil ∧ r = .nil)) :
    codeOf (.addr id w l r) p k =
      (codeOf r (p ++ [49]) k).orElse (fun _ => codeOf l (p ++ [48]) k) := by
  cases l <;> cases r <;> simp_all [codeOf]

theorem getHuffmanCodePoints_leaf (id : Bytes) (w : Nat) (p : Bytes) :
    getHuffmanCodePoints (.addr id w .nil .nil) p = [(id, p)] := by
  simp [getHuffmanCodePoints]

theorem getHuffmanCodePoints_inner (id : Bytes) (w : Nat) (l r : NodePtr) (p : Bytes)
    (h : ¬ (l = .nil ∧ r = .nil)) :
    getHuffmanCodePoints (.addr id w l r) p =
      mapCopy (mapCopy [] (getHuffmanCodePoints l (p ++ [48])))
        (getHuffmanCodePoints r (p ++ [49])) := by
  cases l <;> cases r <;> simp_all [getHuffmanCodePoints]

theorem getHuffmanCodePoints_nodup (t : NodePtr) (p : Bytes) :
    (mapKeys (getHuffmanCodePoints t p)).Nodup := by
  cases t with
  | nil => simp [getHuffmanCodePoints, mapKeys]
  | addr id w l r =>
    by_cases h : l = .nil ∧ r = .nil
    · obtain ⟨hl, hr⟩ := h
      subst hl hr
      simp [getHuffmanCodePoints_leaf, mapKeys]
    · rw [getHuffmanCodePoints_inner id w l r p h]
      apply mapKeys_mapCopy_nodup
      apply mapKeys_mapCopy_nodup
      simp [mapKeys]

theorem mapGet_getHuffmanCodePoints (t : NodePtr) (p k : Bytes) :
    mapGet (getHuffmanCodePoints t p) k = codeOf t p k := by
  induction t generalizing p with
  | nil => simp [getHuffmanCodePoints, codeOf, mapGet]
  | addr id w l r ihl ihr =>
    by_cases h : l = .nil ∧ r = .nil
    · obtain ⟨hl, hr⟩ := h
      subst hl hr
      simp [getHuffmanCodePoints_leaf, codeOf_leaf, mapGet]
    · rw [getHuffmanCodePoints_inner id w l r p h, codeOf_inner id w l r p k h,
        mapGet_mapCopy _ _ _ (getHuffmanCodePoints_nodup r _),
        mapGet_mapCopy _ _ _ (getHuffmanCodePoints_nodup l _), ihl, ihr]
      cases codeOf r (p ++ [49]) k <;> cases codeOf l (p ++ [48]) k <;> simp [mapGet]

theorem codeOf_mem (t : NodePtr) (p k c : Bytes) (h : codeOf t p k = some c) :
    k ∈ leafIds t := by
  induction t generalizing p c with
  | nil => simp [codeOf] at h
  | addr id w l r ihl ihr =>
    by_cases hleaf : l = .nil ∧ r = .nil
    · obtain ⟨hl, hr⟩ := hleaf
      subst hl hr
      rw [codeOf_leaf] at h
      rw [leafIds_leaf]
      split_ifs at h with hk
      simp [hk]
    · rw [codeOf_inner id w l r p k hleaf] at h
      rw [leafIds_inner id w l r hleaf]
      cases hr : codeOf r (p ++ [49]) k with
      | some c2 => exact List.mem_append_right _ (ihr _ _ hr)
      | none =>
        rw [hr] at h
        simp only [Option.orElse] at h
        exact List.mem_append_left _ (ihl _ _ h)

theorem codeOf_of_mem (t : NodePtr) (p k : Bytes) (h : k ∈ leafIds t) :
    ∃ c, codeOf t p k = some c := by
  induction t generalizing p with
  | nil => simp [leafIds] at h
  | addr id w l r ihl ihr =>
    by_cases hleaf : l = .nil ∧ r = .nil
    · obtain ⟨hl, hr⟩ := hleaf
      subst hl hr
      rw [leafIds_leaf] at h
      rw [codeOf_leaf]
      have hk : id = k := by
        simp only [List.mem_singleton] at h
        exact h.symm
      simp [hk]
    · rw [codeOf_inner id w l r p k hleaf]
      rw [leafIds_inner id w l r hleaf] at h
      cases hr : codeOf r (p ++ [49]) k with
      | some c2 => exact ⟨c2, by simp [Option.orElse]⟩
      | none =>
        simp only [Option.orElse]
        rcases List.mem_append.mp h with h1 | h1
        · exact ihl _ h1
        · obtain ⟨c, hc⟩ := ihr (p ++ [49]) h1
          rw [hr] at hc
          cases hc

/-- A code extends the path of the subtree it is read from by characters 48 and 49; it adds
nothing only when the subtree is a single leaf. -/
theorem codeOf_shape (t : NodePtr) (p k c : Bytes) (h : codeOf t p k = some c) :
    ∃ q, c = p ++ q ∧ (∀ b ∈ q, b = 48 ∨ b = 49) ∧ (q = [] → leafIds t = [k]) := by
  induction t generalizing p c with
  | nil => simp [codeOf] at h
  | addr id w l r ihl ihr =>
    by_cases hleaf : l = .nil ∧ r = .nil
    · obtain ⟨hl, hr⟩ := hleaf
      subst hl hr
      rw [codeOf_leaf] at h
      split_ifs at h with hk
      cases h
      exact ⟨[], by simp, by simp, fun _ => by rw [leafIds_leaf, hk]⟩
    · rw [codeOf_inner id w l r p k hleaf] at h
      cases hr : codeOf r (p ++ [49]) k with
      | some c2 =>
        rw [hr] at h
        simp only [Option.orElse, Option.some.injEq] at h
        subst h
        obtain ⟨q, hq, hb, _⟩ := ihr _ _ hr
        refine ⟨49 :: q, by simp [hq], ?_, by simp⟩
        intro b hbm
        rcases List.mem_cons.mp hbm with h1 | h1
        · exact Or.inr h1
        · exact hb b h1
      | none =>
        rw [hr] at h
        simp only [Option.orElse] at h
        obtain ⟨q, hq, hb, _⟩ := ihl _ _ h
        refine ⟨48 :: q, by simp [hq], ?_, by simp⟩
        intro b hbm
        rcases List.mem_cons.mp hbm with h1 | h1
        · exact Or.inl h1
        · exact hb b h1

theorem codeOf_prefix_free (t : NodePtr) (p k1 k2 c1 c2 : Bytes) (hn : (leafIds t).Nodup)
    (hne : k1 ≠ k2) (h1 : codeOf t p k1 = some c1) (h2 : codeOf t p k2 = some c2) :
    ¬ c1 <+: c2 := by
  induction t generalizing p c1 c2 with
  | nil => simp [codeOf] at h1
  | addr id w l r ihl ihr =>
    by_cases hleaf : l = .nil ∧ r = .nil
    · obtain ⟨hl, hr⟩ := hleaf
      subst hl hr
      rw [codeOf_leaf] at h1 h2
      split_ifs at h1 with hk1
      split_ifs at h2 with hk2
      exact absurd (hk1.symm.trans hk2) hne
    · rw [codeOf_inner id w l r p _ hleaf] at h1 h2
      rw [leafIds_inner id w l r hleaf] at hn
      have hnl : (leafIds l).Nodup := (List.nodup_append.mp hn).1
      have hnr : (leafIds r).Nodup := (List.nodup_append.mp hn).2.1
      have clash : ∀ qa qb : Bytes, ¬ (p ++ [48] ++ qa <+: p ++ [49] ++ qb) ∧
          ¬ (p ++ [49] ++ qa <+: p ++ [48] ++ qb) := by
        intro qa qb
        constructor
        · rintro ⟨z, hz⟩
          simp only [List.append_assoc, List.append_cancel_left_eq, List.singleton_append,
            List.cons_append, List.cons.injEq] at hz
          omega
        · rintro ⟨z, hz⟩
          simp only [List.append_assoc, List.append_cancel_left_eq, List.singleton_append,
            List.cons_append, List.cons.injEq] at hz
          omega
      cases hr1 : codeOf r (p ++ [49]) k1 with
      | some d1 =>
        rw [hr1] at h1
        simp only [Option.orElse, Option.some.injEq] at h1
        subst h1
        cases hr2 : codeOf r (p ++ [49]) k2 with
        | some d2 =>
          rw [hr2] at h2
          simp only [Option.orElse, Option.some.injEq] at h2
          subst h2
          exact ihr _ _ _ hnr hr1 hr2
        | none =>
          rw [hr2] at h2
          simp only [Option.orElse] at h2
          obtain ⟨qa, hqa, _, _⟩ := codeOf_shape _ _ _ _ hr1
          obtain ⟨qb, hqb, _, _⟩ := codeOf_shape _ _ _ _ h2
          rw [hqa, hqb]
          exact (clash qa qb).2
      | none =>
        rw [hr1] at h1
        simp only [Option.orElse] at h1
        cases hr2 : codeOf r (p ++ [49]) k2 with
        | some d2 =>
          rw [hr2] at h2
          simp only [Option.orElse, Option.some.injEq] at h2
          subst h2
          obtain ⟨qa, hqa, _, _⟩ := codeOf_shape _ _ _ _ h1
          obtain ⟨qb, hqb, _, _⟩ := codeOf_shape _ _ _ _ hr2
          rw [hqa, hqb]
          exact (clash qa qb).1
        | none =>
          rw [hr2] at h2
          simp only [Option.orElse] at h2
          exact ihl _ _ _ hnl h1 h2

/-! ## The heap and the merge loop -/

theorem refExtract_spec (h : List HuffmanTreeNode) (hne : h ≠ []) :
    ∃ x h', refExtract h = some (x, h') ∧ (x :: h').Perm h ∧ ∀ y ∈ h, x.weight ≤ y.weight := by
  induction h with
  | nil => exact absurd rfl hne
  | cons a t ih =>
    cases t with
    | nil => exact ⟨a, [], by simp [refExtract], List.Perm.refl _, by simp⟩
    | cons b t2 =>
      obtain ⟨y, t', hy, hp, hmin⟩ := ih (by simp)
      by_cases hle : a.weight ≤ y.weight
      · refine ⟨a, b :: t2, ?_, List.Perm.refl _, ?_⟩
        · rw [refExtract, hy]
          simp [hle]
        · intro z hz
          rcases List.mem_cons.mp hz with h1 | h1
          · rw [h1]
          · exact Nat.le_trans hle (hmin z h1)
      · refine ⟨y, a :: t', ?_, ?_, ?_⟩
        · rw [refExtract, hy]
          simp [hle]
        · exact (List.Perm.swap a y t').trans (List.Perm.cons a hp)
        · intro z hz
          rcases List.mem_cons.mp hz with h1 | h1
          · rw [h1]
            omega
          · exact hmin z h1

theorem refHeap_lawful : refHeap.Lawful where
  insert_perm := fun h x => List.perm_append_singleton x h
  extract_nil := rfl
  extract_perm := fun h hne => by
    obtain ⟨x, h', h1, h2, _⟩ := refExtract_spec h hne
    exact ⟨x, h', h1, h2⟩
  extract_min := fun h x h' hx y hy => by
    have hne : h ≠ [] := List.ne_nil_of_mem hy
    obtain ⟨x2, h2, h1, _, h3⟩ := refExtract_spec h hne
    have he : refExtract h = some (x, h') := hx
    rw [h1] at he
    cases he
    exact h3 y hy

theorem seed_perm (hp : MinHeap) (hl : hp.Lawful) (freqList : List (Char × Nat))
    (h0 : List HuffmanTreeNode) :
    (freqList.foldl (fun h i => hp.insert h (leafOf i)) h0).Perm
      (h0 ++ freqList.map leafOf) := by
  induction freqList generalizing h0 with
  | nil => simp
  | cons i t ih =>
    simp only [List.foldl_cons, List.map_cons]
    refine (ih _).trans ?_
    have h1 : (hp.insert h0 (leafOf i)).Perm (h0 ++ [leafOf i]) :=
      (hl.insert_perm h0 (leafOf i)).trans (List.perm_append_singleton _ _).symm
    have h2 := List.Perm.append_right (List.map leafOf t) h1
    simpa using h2

/-- Induction over the merge loop: a property of the heap content that is insensitive to
the order of the array and is kept when the two extracted minima are replaced by their
merge holds for the heap the loop ends with, which has a single node. -/
theorem mergeLoop_inv (hp : MinHeap) (hl : hp.Lawful) (P : List HuffmanTreeNode → Prop)
    (hperm : ∀ h h', h.Perm h' → P h → P h')
    (hmerge : ∀ a b h, (∀ y ∈ b :: h, a.weight ≤ y.weight) → (∀ y ∈ h, b.weight ≤ y.weight) →
      P (a :: b :: h) → P (mergeNodes a b :: h))
    (fuel : Nat) (h : List HuffmanTreeNode) (hlen : h.length ≤ fuel + 1) (hP : P h) :
    ∃ h', mergeLoop hp fuel h = .ok h' ∧ P h' ∧ h'.length ≤ 1 ∧ (h ≠ [] → h' ≠ []) := by
  induction fuel generalizing h with
  | zero =>
    have h1 : ¬ 1 < h.length := by omega
    exact ⟨h, by simp [mergeLoop, h1], hP, by omega, fun x => x⟩
  | succ n ih =>
    by_cases h1 : 1 < h.length
    · have hne : h ≠ [] := by
        intro e
        rw [e] at h1
        simp at h1
      obtain ⟨a, t1, ha, hpa⟩ := hl.extract_perm h hne
      have hlen1 : t1.length + 1 = h.length := by simpa using hpa.length_eq
      have hne1 : t1 ≠ [] := by
        intro e
        rw [e] at hlen1
        simp at hlen1
        omega
      obtain ⟨b, t2, hb, hpb⟩ := hl.extract_perm t1 hne1
      have hlen2 : t2.length + 1 = t1.length := by simpa using hpb.length_eq
      have hmina := hl.extract_min h a t1 ha
      have hminb := hl.extract_min t1 b t2 hb
      have hperm2 : (a :: b :: t2).Perm h := (List.Perm.cons a hpb).trans hpa
      have hP2 : P (a :: b :: t2) := hperm _ _ hperm2.symm hP
      have hP3 : P (mergeNodes a b :: t2) := by
        apply hmerge a b t2 _ _ hP2
        · intro y hy
          exact hmina y (hpa.subset (List.mem_cons_of_mem a (hpb.subset hy)))
        · intro y hy
          exact hminb y (hpb.subset (List.mem_cons_of_mem b hy))
      have hins := hl.insert_perm t2 (mergeNodes a b)
      have hP4 : P (hp.insert t2 (mergeNodes a b)) := hperm _ _ hins.symm hP3
      have hlen4 : (hp.insert t2 (mergeNodes a b)).length ≤ n + 1 := by
        rw [hins.length_eq]
        simp only [List.length_cons]
        omega
      obtain ⟨h', e1, e2, e3, e4⟩ := ih _ hlen4 hP4
      refine ⟨h', ?_, e2, e3, fun _ => e4 ?_⟩
      · rw [mergeLoop]
        simp only [h1, if_true, ha, hb]
        exact e1
      · intro e
        rw [e] at hins
        simpa using hins.length_eq
    · exact ⟨h, by simp [mergeLoop, h1], hP, by omega, fun x => x⟩

/-- The tree builder returns a node, and every property kept by the merge loop that holds
of the leaves holds of the one-node heap made of that node. -/
theorem buildTree_inv (hp : MinHeap) (hl : hp.Lawful) (P : List HuffmanTreeNode → Prop)
    (hperm : ∀ h h', h.Perm h' → P h → P h')
    (hmerge : ∀ a b h, (∀ y ∈ b :: h, a.weight ≤ y.weight) → (∀ y ∈ h, b.weight ≤ y.weight) →
      P (a :: b :: h) → P (mergeNodes a b :: h))
    (freqList : List (Char × Nat)) (hne : freqList ≠ []) (h0 : P (freqList.map leafOf)) :
    ∃ root, buildTree hp freqList = .ok root ∧ P [root] := by
  have hseed := seed_perm hp hl freqList []
  simp only [List.nil_append] at hseed
  have hP : P (freqList.foldl (fun h i => hp.insert h (leafOf i)) []) :=
    hperm _ _ hseed.symm h0
  have hne2 : freqList.foldl (fun h i => hp.insert h (leafOf i)) [] ≠ [] := by
    intro e
    rw [e] at hseed
    have := hseed.length_eq
    simp only [List.length_nil, List.length_map] at this
    exact hne (List.length_eq_zero.mp this.symm)
  obtain ⟨h', e1, e2, e3, e4⟩ := mergeLoop_inv hp hl P hperm hmerge _ _ (Nat.le_succ _) hP
  have hlen : h'.length = 1 := by
    have : h'.length ≠ 0 := fun e => e4 hne2 (List.length_eq_zero.mp e)
    omega
  obtain ⟨x, hx⟩ := List.length_eq_one.mp hlen
  subst hx
  obtain ⟨y, t, hy, hpy⟩ := hl.extract_perm [x] (by simp)
  have hyt : y = x ∧ t = [] := by
    have := List.perm_singleton.mp hpy
    simpa using this
  obtain ⟨hy1, hy2⟩ := hyt
  subst hy1 hy2
  refine ⟨y, ?_, e2⟩
  unfold buildTree
  simp only
  have e1' : mergeLoop hp
      (List.foldl (fun h i => hp.insert h
        { id := runeToString i.1, weight := i.2, left := NodePtr.nil, right := NodePtr.nil }) []
        freqList).length
      (List.foldl (fun h i => hp.insert h
        { id := runeToString i.1, weight := i.2, left := NodePtr.nil, right := NodePtr.nil }) []
        freqList) = GoResult.ok [y] := e1
  rw [e1']
  simp [GoResult.andThen, hy]

/-! ## The tree that Encode builds -/

theorem leafIds_addrOf_leafOf (i : Char × Nat) :
    leafIds (leafOf i).addrOf = [runeToString i.1] := by
  simp [leafOf, HuffmanTreeNode.addrOf, leafIds]

theorem leafIds_addrOf_mergeNodes (a b : HuffmanTreeNode) :
    leafIds (mergeNodes a b).addrOf = leafIds a.addrOf ++ leafIds b.addrOf := by
  simp only [mergeNodes, HuffmanTreeNode.addrOf]
  rw [leafIds_inner]
  simp

theorem flatMap_leafIds_leaves (freqList : List (Char × Nat)) :
    (freqList.map leafOf).flatMap (fun n => leafIds n.addrOf) =
      freqList.map (fun i => runeToString i.1) := by
  induction freqList with
  | nil => rfl
  | cons i t ih =>
    simp only [List.map_cons, List.flatMap_cons, ih, leafIds_addrOf_leafOf]
    rfl

/-- The tree builder returns a node whose leaves are, up to order, the entries of the
frequency list. -/
theorem buildTree_leafIds (hp : MinHeap) (hl : hp.Lawful) (freqList : List (Char × Nat))
    (hne : freqList ≠ []) :
    ∃ root, buildTree hp freqList = .ok root ∧
      (leafIds root.addrOf).Perm (freqList.map (fun i => runeToString i.1)) := by
  obtain ⟨root, h1, h2⟩ := buildTree_inv hp hl
    (fun h => (h.flatMap (fun n => leafIds n.addrOf)).Perm
      (freqList.map (fun i : Char × Nat => runeToString i.1)))
    (fun h h' hperm hP => by
      have hP2 : (h.flatMap (fun n => leafIds n.addrOf)).Perm
          (freqList.map (fun i : Char × Nat => runeToString i.1)) := hP
      exact (List.Perm.flatMap_right _ hperm.symm).trans hP2)
    (fun a b h _ _ hP => by
      have hP2 : ((a :: b :: h).flatMap (fun n => leafIds n.addrOf)).Perm
          (freqList.map (fun i : Char × Nat => runeToString i.1)) := hP
      show ((mergeNodes a b :: h).flatMap (fun n => leafIds n.addrOf)).Perm
          (freqList.map (fun i : Char × Nat => runeToString i.1))
      simp only [List.flatMap_cons, leafIds_addrOf_mergeNodes, List.append_assoc] at hP2 ⊢
      exact hP2)
    freqList hne (by
      show ((freqList.map leafOf).flatMap (fun n => leafIds n.addrOf)).Perm
          (freqList.map (fun i : Char × Nat => runeToString i.1))
      rw [flatMap_leafIds_leaves])
  exact ⟨root, h1, by simpa using h2⟩

theorem freqListOf_keys_perm (s : List Char) :
    ((freqListOf s).map Prod.fst).Perm (mapKeys (getFrequencyTable s)) :=
  List.Perm.map Prod.fst (getSortedFrequencyMap_perm _)

theorem mem_freqListOf_keys (s : List Char) (c : Char) :
    c ∈ (freqListOf s).map Prod.fst ↔ c ∈ s := by
  rw [(freqListOf_keys_perm s).mem_iff, mem_mapKeys_getFrequencyTable]

theorem freqListOf_keys_nodup (s : List Char) : ((freqListOf s).map Prod.fst).Nodup :=
  (freqListOf_keys_perm s).nodup_iff.mpr (getFrequencyTable_nodup s)

theorem getFrequencyTable_ne_nil (s : List Char) (hs : s ≠ []) : getFrequencyTable s ≠ [] := by
  obtain ⟨c, hc⟩ := List.exists_mem_of_ne_nil s hs
  have h := (mem_mapKeys_getFrequencyTable s c).mpr hc
  intro e
  rw [e] at h
  simp [mapKeys] at h

theorem freqListOf_ne_nil (s : List Char) (hs : s ≠ []) : freqListOf s ≠ [] := by
  obtain ⟨c, hc⟩ := List.exists_mem_of_ne_nil s hs
  have h := (mem_freqListOf_keys s c).mpr hc
  intro e
  rw [e] at h
  simp at h

theorem freqListOf_ids (s : List Char) :
    (freqListOf s).map (fun i => runeToString i.1) =
      ((freqListOf s).map Prod.fst).map runeToString := by
  simp

theorem freqListOf_ids_nodup (s : List Char) :
    ((freqListOf s).map (fun i => runeToString i.1)).Nodup := by
  rw [freqListOf_ids]
  exact List.Nodup.map (fun a b h => runeToString_injective a b h) (freqListOf_keys_nodup s)

/-- For a non-empty input the tree builder returns a root; the identifiers of its leaves are
pairwise different and are the UTF-8 forms of the runes of the input. -/
theorem buildTree_input (hp : MinHeap) (hl : hp.Lawful) (s : List Char) (hs : s ≠ []) :
    ∃ root, buildTree hp (freqListOf s) = .ok root ∧
      (leafIds root.addrOf).Perm ((freqListOf s).map (fun i => runeToString i.1)) ∧
      (leafIds root.addrOf).Nodup ∧
      (∀ c, runeToString c ∈ leafIds root.addrOf ↔ c ∈ s) := by
  obtain ⟨root, h1, h2⟩ := buildTree_leafIds hp hl (freqListOf s) (freqListOf_ne_nil s hs)
  refine ⟨root, h1, h2, h2.nodup_iff.mpr (freqListOf_ids_nodup s), ?_⟩
  intro c
  rw [h2.mem_iff, freqListOf_ids, List.mem_map]
  constructor
  · rintro ⟨d, hd, hdc⟩
    have := runeToString_injective d c hdc
    subst this
    exact (mem_freqListOf_keys s d).mp hd
  · intro hc
    exact ⟨c, (mem_freqListOf_keys s c).mpr hc, rfl⟩

/-- Every rune of the input has a code in the table; the code consists of the characters
48 and 49, and it is empty only when the tree is that rune's leaf alone. -/
theorem symbolCode_codeTable (root : HuffmanTreeNode) (c : Char)
    (hc : runeToString c ∈ leafIds root.addrOf) :
    mapGet (codeTable root) (runeToString c) = some (symbolCode (codeTable root) c) ∧
    (∀ b ∈ symbolCode (codeTable root) c, b = 48 ∨ b = 49) ∧
    (symbolCode (codeTable root) c = [] → leafIds root.addrOf = [runeToString c]) := by
  obtain ⟨code, hcode⟩ := codeOf_of_mem root.addrOf [] (runeToString c) hc
  have hget : mapGet (codeTable root) (runeToString c) = some code := by
    rw [codeTable, mapGet_getHuffmanCodePoints]
    exact hcode
  have hsym : symbolCode (codeTable root) c = code := by
    rw [symbolCode, hget]
    rfl
  obtain ⟨q, hq, hb, hl⟩ := codeOf_shape _ _ _ _ hcode
  simp only [List.nil_append] at hq
  subst hq
  rw [hsym]
  exact ⟨hget, hb, hl⟩

/-- No code of the table is a prefix of the code of another rune. -/
theorem symbolCode_prefix_free (root : HuffmanTreeNode) (hn : (leafIds root.addrOf).Nodup)
    (c d : Char) (hc : runeToString c ∈ leafIds root.addrOf)
    (hd : runeToString d ∈ leafIds root.addrOf) (hcd : c ≠ d) :
    ¬ symbolCode (codeTable root) c <+: symbolCode (codeTable root) d := by
  have h1 := (symbolCode_codeTable root c hc).1
  have h2 := (symbolCode_codeTable root d hd).1
  rw [codeTable, mapGet_getHuffmanCodePoints] at h1 h2
  exact codeOf_prefix_free root.addrOf [] _ _ _ _ hn
    (fun e => hcd (runeToString_injective c d e)) h1 h2

/-! ## Packing bits into bytes -/

theorem parseUint2_binaryRepr (l : Bytes) (hlen : l.length = 8)
    (hb : ∀ b ∈ l, b = 48 ∨ b = 49) :
    ∃ x, parseUint2 l = some x ∧ x < 256 ∧ binaryRepr x = l := by
  rcases l with _ | ⟨b7, _ | ⟨b6, _ | ⟨b5, _ | ⟨b4, _ | ⟨b3, _ | ⟨b2, _ | ⟨b1, _ | ⟨b0, _ | ⟨b, t⟩⟩⟩⟩⟩⟩⟩⟩⟩ <;>
    simp only [List.length_cons, List.length_nil] at hlen <;> try omega
  simp only [List.mem_cons, List.mem_singleton, forall_eq_or_imp, forall_eq, List.not_mem_nil,
    false_imp_iff, implies_true, and_true] at hb
  obtain ⟨h7, h6, h5, h4, h3, h2, h1, h0⟩ := hb
  rcases h7 with h7 | h7 <;> rcases h6 with h6 | h6 <;> rcases h5 with h5 | h5 <;>
    rcases h4 with h4 | h4 <;> rcases h3 with h3 | h3 <;> rcases h2 with h2 | h2 <;>
    rcases h1 with h1 | h1 <;> rcases h0 with h0 | h0 <;>
    subst h7 h6 h5 h4 h3 h2 h1 h0 <;> exact ⟨_, rfl, by decide, rfl⟩

theorem transformLoop_ok (n : Nat) (fuel : Nat) (s c : Bytes) (hlen : s.length = 8 * n)
    (hfuel : n ≤ fuel) (hb : ∀ b ∈ s, b = 48 ∨ b = 49) :
    ∃ bs, transformLoop fuel s c = .ok (c ++ bs) ∧ bs.length = n ∧
      bs.flatMap binaryRepr = s := by
  induction n generalizing fuel s c with
  | zero =>
    have hs : s = [] := List.length_eq_zero.mp (by omega)
    subst hs
    refine ⟨[], ?_, rfl, rfl⟩
    cases fuel <;> simp [transformLoop]
  | succ n ih =>
    obtain ⟨f, rfl⟩ : ∃ f, fuel = f + 1 := ⟨fuel - 1, by omega⟩
    have h1 : 0 < s.length := by omega
    have h2 : ¬ s.length < 8 := by omega
    have htake : (s.take 8).length = 8 := by
      rw [List.length_take]
      omega
    obtain ⟨x, hx, hx256, hxr⟩ := parseUint2_binaryRepr (s.take 8) htake
      (fun b hbm => hb b (List.mem_of_mem_take hbm))
    have hdrop : (s.drop 8).length = 8 * n := by
      rw [List.length_drop]
      omega
    obtain ⟨bs, e1, e2, e3⟩ := ih f (s.drop 8) (c ++ [x % 256]) hdrop (by omega)
      (fun b hbm => hb b (List.mem_of_mem_drop hbm))
    refine ⟨x :: bs, ?_, by simp [e2], ?_⟩
    · rw [transformLoop]
      simp only [h1, if_true, h2, if_false, hx]
      rw [e1, Nat.mod_eq_of_lt hx256]
      simp
    · rw [List.flatMap_cons, hxr, e3, List.take_append_drop]

theorem padEncodedText_length (e : Bytes) :
    (padEncodedText e).length = 8 * (e.length / 8 + 1) := by
  simp only [padEncodedText, List.length_append, List.length_replicate]
  omega

theorem padEncodedText_bits (e : Bytes) (hb : ∀ b ∈ e, b = 48 ∨ b = 49) :
    ∀ b ∈ padEncodedText e, b = 48 ∨ b = 49 := by
  intro b hbm
  simp only [padEncodedText, List.mem_append, List.mem_replicate] at hbm
  rcases hbm with h | h
  · exact hb b h
  · exact Or.inl h.2

/-- The packer succeeds on a padded bit string, returns one byte per 8 characters, and the
bytes spell the padded bit string back. -/
theorem transform_pad (e : Bytes) (hb : ∀ b ∈ e, b = 48 ∨ b = 49) :
    ∃ bs, transformEncodedTextToBytes (padEncodedText e) = .ok bs ∧
      bs.length = e.length / 8 + 1 ∧ bs.flatMap binaryRepr = padEncodedText e := by
  obtain ⟨bs, h1, h2, h3⟩ := transformLoop_ok (e.length / 8 + 1) (padEncodedText e).length
    (padEncodedText e) [] (padEncodedText_length e)
    (by rw [padEncodedText_length]; omega) (padEncodedText_bits e hb)
  exact ⟨bs, by simpa [transformEncodedTextToBytes] using h1, h2, h3⟩

theorem encodeText_eq (codeMap : List (Bytes × Bytes)) (s : List Char) :
    encodeText codeMap s = s.flatMap (symbolCode codeMap) := rfl

theorem binaryRepr_length (b : Nat) : (binaryRepr b).length = 8 := by
  simp [binaryRepr]

theorem flatMap_binaryRepr_length (bs : Bytes) :
    (bs.flatMap binaryRepr).length = 8 * bs.length := by
  induction bs with
  | nil => rfl
  | cons b t ih =>
    rw [List.flatMap_cons, List.length_append, ih, binaryRepr_length, List.length_cons]
    omega

/-! ## The bit loop of Decode -/

/-- Reading the rest `suf` of a code word whose part `pre` is accumulated: when no shorter
accumulation is a key of the map, the symbol of the word is emitted at its last bit, and
the loop stops there exactly when the count reaches the data marker. -/
theorem decodeLoop_word (dm : List (Bytes × Bytes)) (D : Nat) (k : Bytes) (suf : Bytes) :
    ∀ (pre rest : Bytes) (st : DecodeState), suf ≠ [] →
      mapGet dm (pre ++ suf) = some k →
      (∀ q, q <+: pre ++ suf → pre.length < q.length → q ≠ pre ++ suf → mapGet dm q = none) →
      st.partialString = pre → st.dataMarkerCount + suf.length ≤ D →
      decodeLoop dm (D : Int) (suf ++ rest) st =
        if st.dataMarkerCount + suf.length = D then
          { dataMarkerCount := D, partialString := [], result := st.result ++ k }
        else decodeLoop dm (D : Int) rest
          { dataMarkerCount := st.dataMarkerCount + suf.length, partialString := [],
            result := st.result ++ k } := by
  induction suf with
  | nil => intro pre rest st h; exact absurd rfl h
  | cons b suf ih =>
    intro pre rest st _ hget hnone hpre hD
    by_cases hsuf : suf = []
    · subst hsuf
      rw [List.cons_append, decodeLoop]
      simp only [hpre, hget, List.length_singleton, List.nil_append]
      by_cases hcnt : st.dataMarkerCount + 1 = D
      · simp [hcnt]
      · have : ¬ ((st.dataMarkerCount : Int) + 1 = (D : Int)) := by omega
        simp [hcnt, this]
    · have hlen : 0 < suf.length := List.length_pos.mpr hsuf
      have hq : mapGet dm (pre ++ [b]) = none := by
        apply hnone
        · exact ⟨suf, by simp⟩
        · simp
        · intro e
          have := congrArg List.length e
          simp only [List.length_append, List.length_cons, List.length_nil] at this
          omega
      have hcnt : ¬ ((st.dataMarkerCount : Int) + 1 = (D : Int)) := by
        simp only [List.length_cons] at hD
        omega
      rw [List.cons_append, decodeLoop]
      simp only [hpre, hq, Nat.cast_add, Nat.cast_one, hcnt, if_false]
      have step := ih (pre ++ [b]) rest
        { dataMarkerCount := st.dataMarkerCount + 1, partialString := pre ++ [b],
          result := st.result } hsuf (by simpa using hget)
        (by
          intro q hq1 hq2 hq3
          apply hnone q
          · simpa using hq1
          · simp at hq2
            omega
          · simpa using hq3)
        rfl (by
          show st.dataMarkerCount + 1 + suf.length ≤ D
          simp only [List.length_cons] at hD
          omega)
      rw [step]
      simp only [List.length_cons]
      have e1 : st.dataMarkerCount + 1 + suf.length = st.dataMarkerCount + (suf.length + 1) := by
        omega
      rw [e1]

/-- Reading the concatenated code words of a non-empty text, from an empty accumulation,
with the data marker at the end of the last word: every symbol is emitted in order, and
what follows the last word is not read. -/
theorem decodeLoop_text (dm : List (Bytes × Bytes)) (code sym : Char → Bytes) (s : List Char) :
    ∀ (rest : Bytes) (st : DecodeState) (D : Nat), s ≠ [] →
      (∀ c ∈ s, code c ≠ [] ∧ mapGet dm (code c) = some (sym c) ∧
        ∀ q, q <+: code c → 0 < q.length → q ≠ code c → mapGet dm q = none) →
      st.partialString = [] → st.dataMarkerCount + (s.flatMap code).length = D →
      decodeLoop dm (D : Int) (s.flatMap code ++ rest) st =
        { dataMarkerCount := D, partialString := [], result := st.result ++ s.flatMap sym } := by
  induction s with
  | nil => intro rest st D h; exact absurd rfl h
  | cons c s ih =>
    intro rest st D _ hall hps hD
    obtain ⟨hne, hget, hnone⟩ := hall c (List.mem_cons_self c s)
    simp only [List.flatMap_cons, List.length_append] at hD
    rw [List.flatMap_cons, List.append_assoc,
      decodeLoop_word dm D (sym c) (code c) [] _ st hne (by simpa using hget)
        (by simpa using hnone) hps (by omega)]
    by_cases hs : s = []
    · subst hs
      simp only [List.flatMap_nil, List.length_nil, Nat.add_zero] at hD
      simp [hD]
    · have hall2 : ∀ d ∈ s, code d ≠ [] ∧ mapGet dm (code d) = some (sym d) ∧
          ∀ q, q <+: code d → 0 < q.length → q ≠ code d → mapGet dm q = none :=
        fun d hd => hall d (List.mem_cons_of_mem c hd)
      have hpos : 0 < (s.flatMap code).length := by
        obtain ⟨d, t, rfl⟩ := List.exists_cons_of_ne_nil hs
        have := (hall2 d (List.mem_cons_self d t)).1
        have := List.length_pos.mpr this
        simp only [List.flatMap_cons, List.length_append]
        omega
      have hneq : ¬ st.dataMarkerCount + (code c).length = D := by omega
      simp only [hneq, if_false]
      rw [ih rest _ D hs hall2 rfl (by simp only []; omega)]
      simp [List.flatMap_cons]

/-! ## Reading the frame -/

theorem leBytes_length (k n : Nat) : (leBytes k n).length = k := by
  induction k generalizing n with
  | zero => rfl
  | succ k ih => simp [leBytes, ih]

theorem leValue_leBytes (k n : Nat) : leValue (leBytes k n) = n % 256 ^ k := by
  induction k generalizing n with
  | zero => simp [leBytes, leValue, Nat.mod_one]
  | succ k ih =>
    simp only [leBytes, leValue, ih, Nat.mod_mod]
    rw [pow_succ, Nat.mul_comm (256 ^ k) 256, Nat.mod_mul]

theorem uint64LE_length (n : Nat) : (uint64LE n).length = 8 := leBytes_length 8 n

theorem leUint64_uint64LE (n : Nat) (rest : Bytes) :
    leUint64 (uint64LE n ++ rest) = n % 2 ^ 64 := by
  have h : (uint64LE n ++ rest).take 8 = uint64LE n := by
    rw [List.take_append_of_le_length (by rw [uint64LE_length])]
    exact List.take_of_length_le (by rw [uint64LE_length])
  rw [leUint64, h, uint64LE, leValue_leBytes]
  norm_num

theorem leUint64_lt (b : Bytes) : leUint64 b < 2 ^ 64 := by
  have key : ∀ l : Bytes, leValue l < 256 ^ l.length := by
    intro l
    induction l with
    | nil => simp [leValue]
    | cons x t ih =>
      simp only [leValue, List.length_cons, pow_succ]
      have := Nat.mod_lt x (show 0 < 256 by norm_num)
      omega
  have h1 := key (b.take 8)
  have h2 : (b.take 8).length ≤ 8 := by
    rw [List.length_take]
    omega
  have h3 : 256 ^ (b.take 8).length ≤ 256 ^ 8 := Nat.pow_le_pow_right (by norm_num) h2
  rw [leUint64]
  have h4 : (256 : Nat) ^ 8 = 2 ^ 64 := by norm_num
  omega

theorem toInt_of_lt (n : Nat) (h : n < 2 ^ 63) : toInt n = (n : Int) := by
  have h1 : n % 2 ^ 64 = n := Nat.mod_eq_of_lt (by omega)
  unfold toInt
  rw [h1, if_pos h]

/-- Decode on a buffer that starts with a length marker and a metadata blob of that length:
the marker and the blob are read back, and what remains is read as the bit count and the
payload. -/
theorem Decode_frame (gob : Gob) (slack : Nat) (metadata tail : Bytes)
    (hM : metadata.length < 2 ^ 63) :
    Decode gob slack ((uint64LE metadata.length ++ metadata) ++ tail) =
      match gob.decode metadata with
      | none => .err
      | some md =>
        if tail.length + slack < 8 then .panic
        else if tail.length < 8 then .err
        else
          if ((decodeLoop (buildDecodeMap md) (toInt (leUint64 tail))
              ((tail.drop 8).flatMap binaryRepr)
              { dataMarkerCount := 0, partialString := [], result := [] }).dataMarkerCount : Int)
              ≠ toInt (leUint64 tail) then .err
          else .ok (decodeLoop (buildDecodeMap md) (toInt (leUint64 tail))
              ((tail.drop 8).flatMap binaryRepr)
              { dataMarkerCount := 0, partialString := [], result := [] }).result := by
  have hlen : ((uint64LE metadata.length ++ metadata) ++ tail).length =
      8 + metadata.length + tail.length := by
    simp only [List.length_append, uint64LE_length]
  have htake : ((uint64LE metadata.length ++ metadata) ++ tail).take 8 =
      uint64LE metadata.length := by
    rw [List.append_assoc, List.take_append_of_le_length (by rw [uint64LE_length])]
    exact List.take_of_length_le (by rw [uint64LE_length])
  have hdrop : ((uint64LE metadata.length ++ metadata) ++ tail).drop 8 = metadata ++ tail := by
    rw [List.append_assoc, List.drop_append_of_le_length (by rw [uint64LE_length])]
    rw [List.drop_of_length_le (by rw [uint64LE_length])]
    rfl
  have hmark : leUint64 (uint64LE metadata.length) = metadata.length := by
    have := leUint64_uint64LE metadata.length []
    rw [List.append_nil] at this
    rw [this]
    exact Nat.mod_eq_of_lt (by omega)
  have hint : toInt metadata.length = (metadata.length : Int) := toInt_of_lt _ hM
  have hmeta : (metadata ++ tail).take metadata.length = metadata := by
    rw [List.take_append_of_le_length (Nat.le_refl _)]
    exact List.take_of_length_le (Nat.le_refl _)
  have hrest : (metadata ++ tail).drop metadata.length = tail := by
    rw [List.drop_append_of_le_length (Nat.le_refl _), List.drop_of_length_le (Nat.le_refl _)]
    rfl
  have h1 : ¬ ((uint64LE metadata.length ++ metadata) ++ tail).length = 0 := by omega
  have h2 : ¬ ((uint64LE metadata.length ++ metadata) ++ tail).length < 8 := by omega
  have h3 : ¬ (((metadata ++ tail).length : Int) < (metadata.length : Int)) := by
    simp only [List.length_append]
    omega
  have h4 : ¬ ((metadata ++ tail).length + slack < metadata.length) := by
    simp only [List.length_append]
    omega
  have h4b : ¬ ((metadata ++ tail).length < metadata.length) := by
    simp only [List.length_append]
    omega
  unfold Decode
  simp only [h1, h2, if_false, htake, hdrop, hmark, hint, h3, h4, h4b, hmeta, hrest]
  cases gob.decode metadata with
  | none => rfl
  | some md =>
    simp only []
    by_cases h5 : tail.length + slack < 8
    · simp [h5]
    · simp only [h5, if_false]
      by_cases h6 : tail.length < 8
      · simp [h6]
      · simp only [h6, if_false]
        have h7 : leUint64 (tail.take 8) = leUint64 tail := by
          rw [leUint64, leUint64, List.take_take, Nat.min_self]
        rw [h7]

/-! ## The frame that Encode returns -/

theorem encodeText_bits (root : HuffmanTreeNode) (s : List Char)
    (hs : ∀ c ∈ s, runeToString c ∈ leafIds root.addrOf) :
    ∀ b ∈ encodeText (codeTable root) s, b = 48 ∨ b = 49 := by
  intro b hb
  rw [encodeText_eq, List.mem_flatMap] at hb
  obtain ⟨c, hc, hbc⟩ := hb
  exact (symbolCode_codeTable root c (hs c hc)).2.1 b hbc

theorem codesInList_singletons (codeMap : List (Bytes × Bytes)) (freqList : List (Char × Nat)) :
    ∀ m ∈ codesInList codeMap freqList, m.length = 1 := by
  intro m hm
  simp only [codesInList, List.mem_map] at hm
  obtain ⟨v, _, rfl⟩ := hm
  rfl

/-- For a non-empty input and lawful parameters Encode returns a frame: the length marker
of the metadata, the metadata (which decodes to the list of code pairs), the marker of the
bit count, and the packed padded bit string. -/
theorem Encode_frame (hp : MinHeap) (gob : Gob) (hl : hp.Lawful) (hg : gob.Lawful)
    (s : List Char) (hs : s ≠ []) :
    ∃ root metadata payload,
      buildTree hp (freqListOf s) = .ok root ∧
      (leafIds root.addrOf).Nodup ∧
      (∀ c, runeToString c ∈ leafIds root.addrOf ↔ c ∈ s) ∧
      gob.encode (codesInList (codeTable root) (freqListOf s)) = some metadata ∧
      gob.decode metadata = some (codesInList (codeTable root) (freqListOf s)) ∧
      transformEncodedTextToBytes (padEncodedText (encodeText (codeTable root) s)) =
        .ok payload ∧
      payload.length = (encodeText (codeTable root) s).length / 8 + 1 ∧
      payload.flatMap binaryRepr = padEncodedText (encodeText (codeTable root) s) ∧
      Encode hp gob s = .ok ((uint64LE metadata.length ++ metadata) ++
        (uint64LE (encodeText (codeTable root) s).length ++ payload)) := by
  obtain ⟨root, hroot, _, hnodup, hmem⟩ := buildTree_input hp hl s hs
  obtain ⟨metadata, henc, hdec⟩ := hg (codesInList (codeTable root) (freqListOf s))
    (codesInList_singletons _ _)
  obtain ⟨payload, hpay, hpaylen, hpaybits⟩ := transform_pad (encodeText (codeTable root) s)
    (encodeText_bits root s (fun c hc => (hmem c).mpr hc))
  refine ⟨root, metadata, payload, hroot, hnodup, hmem, henc, hdec, hpay, hpaylen, hpaybits, ?_⟩
  have hm : ¬ (getFrequencyTable s).length = 0 := fun e =>
    getFrequencyTable_ne_nil s hs (List.length_eq_zero.mp e)
  have hroot2 : buildTree hp (getSortedFrequencyMap (getFrequencyTable s)) = .ok root := hroot
  have hpay2 : transformEncodedTextToBytes
      (padEncodedText (encodeText (getHuffmanCodePoints root.addrOf []) s)) = .ok payload := hpay
  have henc2 : gob.encode (codesInList (getHuffmanCodePoints root.addrOf [])
      (getSortedFrequencyMap (getFrequencyTable s))) = some metadata := henc
  unfold Encode
  simp only [hm, if_false, hroot2, GoResult.andThen, hpay2, henc2]
  rfl

/-! ## The decode map of a frame of Encode -/

theorem buildDecodeMap_codesInList (codeMap : List (Bytes × Bytes))
    (freqList : List (Char × Nat)) :
    buildDecodeMap (codesInList codeMap freqList) =
      mapCopy [] (freqList.map (fun v => (symbolCode codeMap v.1, runeToString v.1))) := by
  have key : ∀ (l : List (Char × Nat)) (acc : List (Bytes × Bytes)),
      (codesInList codeMap l).foldl (fun dm i => i.foldl (fun dm e => mapSet dm e.2 e.1) dm) acc =
        mapCopy acc (l.map (fun v => (symbolCode codeMap v.1, runeToString v.1))) := by
    intro l
    induction l with
    | nil => intro acc; rfl
    | cons v t ih =>
      intro acc
      simp only [codesInList, List.map_cons, List.foldl_cons, List.foldl_nil, mapCopy] at ih ⊢
      exact ih _
  exact key freqList []

/-- The decode map of a frame of Encode for an input with at least two different runes:
the code of every rune of the input is a key that maps to the rune, and no non-empty proper
prefix of such a code is a key. -/
theorem decodeMap_input (root : HuffmanTreeNode) (s : List Char)
    (hnodup : (leafIds root.addrOf).Nodup)
    (hmem : ∀ c, runeToString c ∈ leafIds root.addrOf ↔ c ∈ s)
    (h2 : ∃ c ∈ s, ∃ d ∈ s, c ≠ d) :
    ∀ c ∈ s, symbolCode (codeTable root) c ≠ [] ∧
      mapGet (buildDecodeMap (codesInList (codeTable root) (freqListOf s)))
        (symbolCode (codeTable root) c) = some (runeToString c) ∧
      ∀ q, q <+: symbolCode (codeTable root) c → 0 < q.length →
        q ≠ symbolCode (codeTable root) c →
        mapGet (buildDecodeMap (codesInList (codeTable root) (freqListOf s))) q = none := by
  have hnonempty : ∀ c ∈ s, symbolCode (codeTable root) c ≠ [] := by
    intro c hc e
    have hle := (symbolCode_codeTable root c ((hmem c).mpr hc)).2.2 e
    obtain ⟨a, ha, b, hb, hab⟩ := h2
    have ha2 := (hmem a).mpr ha
    have hb2 := (hmem b).mpr hb
    rw [hle, List.mem_singleton] at ha2 hb2
    exact hab (runeToString_injective a b (ha2.trans hb2.symm))
  have hinj : ∀ c ∈ s, ∀ d ∈ s, symbolCode (codeTable root) c = symbolCode (codeTable root) d →
      c = d := by
    intro c hc d hd e
    by_contra hne
    exact symbolCode_prefix_free root hnodup c d ((hmem c).mpr hc) ((hmem d).mpr hd) hne
      (e ▸ List.prefix_refl _)
  have hkeys : (mapKeys ((freqListOf s).map
      (fun v => (symbolCode (codeTable root) v.1, runeToString v.1)))).Nodup := by
    have e : mapKeys ((freqListOf s).map
        (fun v => (symbolCode (codeTable root) v.1, runeToString v.1))) =
        ((freqListOf s).map Prod.fst).map (symbolCode (codeTable root)) := by
      simp [mapKeys]
    rw [e]
    apply List.Nodup.map_on _ (freqListOf_keys_nodup s)
    intro c hc d hd hcd
    exact hinj c ((mem_freqListOf_keys s c).mp hc) d ((mem_freqListOf_keys s d).mp hd) hcd
  intro c hc
  refine ⟨hnonempty c hc, ?_, ?_⟩
  · rw [buildDecodeMap_codesInList, mapGet_mapCopy _ _ _ hkeys]
    have hin : (symbolCode (codeTable root) c, runeToString c) ∈ (freqListOf s).map
        (fun v => (symbolCode (codeTable root) v.1, runeToString v.1)) := by
      obtain ⟨v, hv, hvc⟩ := List.mem_map.mp ((mem_freqListOf_keys s c).mpr hc)
      exact List.mem_map.mpr ⟨v, hv, by rw [hvc]⟩
    rw [mapGet_of_mem _ _ _ hkeys hin]
    rfl
  · intro q hq hpos hne
    rw [buildDecodeMap_codesInList, mapGet_mapCopy _ _ _ hkeys]
    have hnone : mapGet ((freqListOf s).map
        (fun v => (symbolCode (codeTable root) v.1, runeToString v.1))) q = none := by
      rw [mapGet_eq_none_iff]
      intro hqk
      simp only [mapKeys, List.map_map, List.mem_map, Function.comp] at hqk
      obtain ⟨v, hv, hvq⟩ := hqk
      have hvs : v.1 ∈ s := (mem_freqListOf_keys s v.1).mp (List.mem_map.mpr ⟨v, hv, rfl⟩)
      by_cases hvc : v.1 = c
      · rw [hvc] at hvq
        exact hne hvq.symm
      · exact symbolCode_prefix_free root hnodup v.1 c ((hmem v.1).mpr hvs) ((hmem c).mpr hc)
          hvc (hvq ▸ hq)
    rw [hnone]
    rfl

/-! ## The reference parameters are lawful -/

theorem decLen_encLen (n : Nat) (rest : Bytes) : decLen (encLen n ++ rest) = some (n, rest) := by
  have key : ∀ q r : Nat, r < 255 →
      decLen (List.replicate q 255 ++ [r] ++ rest) = some (255 * q + r, rest) := by
    intro q r hr
    induction q with
    | zero =>
      have : ¬ r = 255 := by omega
      simp [decLen, this]
    | succ q ih =>
      rw [List.replicate_succ, List.cons_append, List.cons_append, decLen, ih]
      simp only [if_true]
      congr 2
      omega
  have h := key (n / 255) (n % 255) (Nat.mod_lt _ (by norm_num))
  rw [encLen, h]
  congr 2
  omega

theorem decStr_encStr (b rest : Bytes) : decStr (encStr b ++ rest) = some (b, rest) := by
  rw [decStr, encStr, List.append_assoc, decLen_encLen]
  simp

theorem decEntries_encEntries (m : List (Bytes × Bytes)) (rest : Bytes) :
    decEntries m.length (encEntries m ++ rest) = some (m, rest) := by
  induction m with
  | nil => rfl
  | cons e t ih =>
    obtain ⟨k, v⟩ := e
    simp only [encEntries, List.flatMap_cons, List.length_cons, List.append_assoc] at ih ⊢
    simp only [decEntries, decStr_encStr, ih]

theorem decMaps_encMaps (l : List (List (Bytes × Bytes))) (rest : Bytes) :
    decMaps l.length (encMaps l ++ rest) = some (l, rest) := by
  induction l with
  | nil => rfl
  | cons m t ih =>
    simp only [encMaps, List.flatMap_cons, List.length_cons, List.append_assoc] at ih ⊢
    simp only [decMaps, decLen_encLen, decEntries_encEntries, ih]

theorem refGob_lawful : refGob.Lawful := by
  intro l _
  refine ⟨encLen l.length ++ encMaps l, rfl, ?_⟩
  have h := decMaps_encMaps l []
  rw [List.append_nil] at h
  simp only [refGob, decLen_encLen, h]

/-! ## Claims -/

/-- Decode on a frame of Encode: the bit loop runs on the padded bit string with the bit
count as data marker. -/
theorem Decode_Encode_frame (gob : Gob) (slack : Nat) (metadata payload : Bytes) (bitCount : Nat)
    (md : List (List (Bytes × Bytes))) (hdec : gob.decode metadata = some md)
    (hM : metadata.length < 2 ^ 63) (hB : bitCount < 2 ^ 63) :
    Decode gob slack ((uint64LE metadata.length ++ metadata) ++ (uint64LE bitCount ++ payload)) =
      if (decodeLoop (buildDecodeMap md) (bitCount : Int) (payload.flatMap binaryRepr)
          { dataMarkerCount := 0, partialString := [], result := [] }).dataMarkerCount = bitCount
      then .ok (decodeLoop (buildDecodeMap md) (bitCount : Int) (payload.flatMap binaryRepr)
          { dataMarkerCount := 0, partialString := [], result := [] }).result
      else .err := by
  have h1 : leUint64 (uint64LE bitCount ++ payload) = bitCount := by
    rw [leUint64_uint64LE]
    exact Nat.mod_eq_of_lt (by omega)
  have h2 : (uint64LE bitCount ++ payload).drop 8 = payload := by
    rw [List.drop_append_of_le_length (by rw [uint64LE_length]),
      List.drop_of_length_le (by rw [uint64LE_length])]
    rfl
  have h3 : (uint64LE bitCount ++ payload).length = 8 + payload.length := by
    simp only [List.length_append, uint64LE_length]
  have h4 : ¬ (uint64LE bitCount ++ payload).length + slack < 8 := by omega
  have h5 : ¬ (uint64LE bitCount ++ payload).length < 8 := by omega
  rw [Decode_frame gob slack metadata _ hM, hdec]
  simp only [h4, h5, if_false, h1, h2, toInt_of_lt bitCount hB]
  by_cases h6 : (decodeLoop (buildDecodeMap md) (bitCount : Int) (payload.flatMap binaryRepr)
      { dataMarkerCount := 0, partialString := [], result := [] }).dataMarkerCount = bitCount
  · simp [h6]
  · have h7 : ¬ (((decodeLoop (buildDecodeMap md) (bitCount : Int) (payload.flatMap binaryRepr)
        { dataMarkerCount := 0, partialString := [], result := [] }).dataMarkerCount : Int) =
        (bitCount : Int)) := by
      intro e
      exact h6 (by exact_mod_cast e)
    simp [h6, h7]

/-- The sizes inside a frame of fewer than `2 ^ 60` bytes fit the type `int`. -/
theorem frame_sizes (metadata payload : Bytes) (bitCount : Nat)
    (hp : payload.length = bitCount / 8 + 1)
    (hsize : ((uint64LE metadata.length ++ metadata) ++
      (uint64LE bitCount ++ payload)).length < 2 ^ 60) :
    metadata.length < 2 ^ 63 ∧ bitCount < 2 ^ 63 := by
  simp only [List.length_append, uint64LE_length] at hsize
  omega

/-- C4. Empty input: Encode of the empty string returns the empty byte slice with no error,
and Decode of the empty string returns the empty byte slice with no error. -/
theorem empty_input (hp : MinHeap) (gob : Gob) (slack : Nat) :
    Encode hp gob [] = .ok [] ∧ Decode gob slack [] = .ok [] := by
  constructor
  · simp [Encode, getFrequencyTable]
  · simp [Decode]

/-- C2. Round trip on multi-symbol input: for every symbol sequence with at least two
distinct symbols, with a lawful min-heap and a metadata serialisation that round-trips,
Encode returns a frame and Decode of that frame returns, without error, exactly the UTF-8
bytes of the sequence (the frame being shorter than `2 ^ 60` bytes, so that its length
fields are Go `int`s). -/
theorem roundtrip_multi_symbol (hp : MinHeap) (gob : Gob) (hl : hp.Lawful) (hg : gob.Lawful)
    (s : List Char) (h2 : ∃ c ∈ s, ∃ d ∈ s, c ≠ d) (slack : Nat)
    (hsize : ∀ frame, Encode hp gob s = .ok frame → frame.length < 2 ^ 60) :
    ∃ frame, Encode hp gob s = .ok frame ∧ Decode gob slack frame = .ok (utf8 s) := by
  have hs : s ≠ [] := by
    obtain ⟨c, hc, _⟩ := h2
    exact List.ne_nil_of_mem hc
  obtain ⟨root, metadata, payload, _, hnodup, hmem, _, hdec, _, hlen, hbits, henc⟩ :=
    Encode_frame hp gob hl hg s hs
  refine ⟨_, henc, ?_⟩
  obtain ⟨hM, hB⟩ := frame_sizes metadata payload _ hlen (hsize _ henc)
  rw [Decode_Encode_frame gob slack metadata payload _ _ hdec hM hB, hbits]
  have hloop := decodeLoop_text (buildDecodeMap (codesInList (codeTable root) (freqListOf s)))
    (symbolCode (codeTable root)) runeToString s
    (List.replicate (8 - (encodeText (codeTable root) s).length % 8) 48)
    { dataMarkerCount := 0, partialString := [], result := [] }
    (encodeText (codeTable root) s).length hs
    (decodeMap_input root s hnodup hmem h2) rfl
    (by simp [encodeText_eq])
  have hpad : padEncodedText (encodeText (codeTable root) s) =
      s.flatMap (symbolCode (codeTable root)) ++
        List.replicate (8 - (encodeText (codeTable root) s).length % 8) 48 := rfl
  rw [hpad, hloop]
  simp [utf8]

/-- C5. Prefix-free codes: for every input with at least two distinct symbols the tree
builder of Encode returns a root, and in the code table that getHuffmanCodePoints derives
from it every symbol of the input has a code, every code is non-empty, and the code of one
key is never a prefix of the code of another key; in particular different symbols have
different codes. -/
theorem codes_prefix_free (hp : MinHeap) (hl : hp.Lawful) (s : List Char)
    (h2 : ∃ c ∈ s, ∃ d ∈ s, c ≠ d) :
    ∃ root, buildTree hp (getSortedFrequencyMap (getFrequencyTable s)) = .ok root ∧
      (∀ c ∈ s, ∃ code, mapGet (getHuffmanCodePoints root.addrOf []) (runeToString c) =
        some code) ∧
      ∀ k1 k2 c1 c2, k1 ≠ k2 →
        mapGet (getHuffmanCodePoints root.addrOf []) k1 = some c1 →
        mapGet (getHuffmanCodePoints root.addrOf []) k2 = some c2 →
        c1 ≠ [] ∧ ¬ c1 <+: c2 ∧ c1 ≠ c2 := by
  have hs : s ≠ [] := by
    obtain ⟨c, hc, _⟩ := h2
    exact List.ne_nil_of_mem hc
  obtain ⟨root, hroot, _, hnodup, hmem⟩ := buildTree_input hp hl s hs
  refine ⟨root, hroot, ?_, ?_⟩
  · intro c hc
    exact ⟨_, (symbolCode_codeTable root c ((hmem c).mpr hc)).1⟩
  · intro k1 k2 c1 c2 hne h1 h2
    rw [mapGet_getHuffmanCodePoints] at h1 h2
    have hpf := codeOf_prefix_free root.addrOf [] k1 k2 c1 c2 hnodup hne h1 h2
    refine ⟨?_, hpf, ?_⟩
    · intro e
      apply hpf
      rw [e]
      exact List.nil_prefix
    · intro e
      apply hpf
      rw [e]

/-- The count the bit loop ends with: the data marker when it lies ahead within the
characters to read, and otherwise the count of all characters. -/
theorem decodeLoop_count (dm : List (Bytes × Bytes)) (D : Nat) (bits : Bytes) :
    ∀ st : DecodeState,
      (decodeLoop dm (D : Int) bits st).dataMarkerCount =
        if st.dataMarkerCount < D ∧ D ≤ st.dataMarkerCount + bits.length then D
        else st.dataMarkerCount + bits.length := by
  induction bits with
  | nil =>
    intro st
    have h : ¬ (st.dataMarkerCount < D ∧ D ≤ st.dataMarkerCount + 0) := by omega
    rw [decodeLoop, List.length_nil, if_neg h]
    rfl
  | cons b t ih =>
    intro st
    rw [decodeLoop]
    generalize hst1 : (match mapGet dm (st.partialString ++ [b]) with
      | some decodedValue =>
        ({ dataMarkerCount := st.dataMarkerCount + 1, partialString := [],
           result := st.result ++ decodedValue } : DecodeState)
      | none =>
        { dataMarkerCount := st.dataMarkerCount + 1, partialString := st.partialString ++ [b],
          result := st.result }) = st1
    have hcnt : st1.dataMarkerCount = st.dataMarkerCount + 1 := by
      rw [← hst1]
      split <;> rfl
    by_cases hc : st.dataMarkerCount + 1 = D
    · have hc2 : ((st.dataMarkerCount + 1 : Nat) : Int) = (D : Int) := by exact_mod_cast hc
      have h : st.dataMarkerCount < D ∧ D ≤ st.dataMarkerCount + (b :: t).length := by
        simp only [List.length_cons]
        omega
      rw [if_pos hc2, if_pos h, hcnt, hc]
    · have hc2 : ¬ (((st.dataMarkerCount + 1 : Nat) : Int) = (D : Int)) := by
        intro e
        exact hc (by exact_mod_cast e)
      rw [if_neg hc2, ih, hcnt]
      simp only [List.length_cons]
      by_cases h1 : st.dataMarkerCount + 1 < D ∧ D ≤ st.dataMarkerCount + 1 + t.length
      · have h2 : st.dataMarkerCount < D ∧ D ≤ st.dataMarkerCount + (t.length + 1) := by omega
        rw [if_pos h1, if_pos h2]
      · have h2 : ¬ (st.dataMarkerCount < D ∧ D ≤ st.dataMarkerCount + (t.length + 1)) := by
          omega
        rw [if_neg h1, if_neg h2]
        omega

/-- C7. Frame layout: for every non-empty input, with a lawful heap and serialisation,
Encode returns the concatenation of the 8 little-endian bytes of the length of the
serialised code table, the serialised code table, the 8 little-endian bytes of the bit
count, and the packed payload, where the bit count is the sum over the symbols of the input,
in order and with repetition, of the length of each symbol's code. -/
theorem frame_layout (hp : MinHeap) (gob : Gob) (hl : hp.Lawful) (hg : gob.Lawful)
    (s : List Char) (hs : s ≠ []) :
    ∃ root codeMap metadata bitCount packedData,
      buildTree hp (getSortedFrequencyMap (getFrequencyTable s)) = .ok root ∧
      codeMap = getHuffmanCodePoints root.addrOf [] ∧
      gob.encode (codesInList codeMap (getSortedFrequencyMap (getFrequencyTable s))) =
        some metadata ∧
      (∀ c ∈ s, ∃ code, mapGet codeMap (runeToString c) = some code) ∧
      bitCount = (s.map (fun c => ((mapGet codeMap (runeToString c)).getD []).length)).sum ∧
      transformEncodedTextToBytes (padEncodedText (encodeText codeMap s)) = .ok packedData ∧
      Encode hp gob s =
        .ok (uint64LE metadata.length ++ metadata ++ uint64LE bitCount ++ packedData) ∧
      (uint64LE metadata.length).length = 8 ∧
      leValue (uint64LE metadata.length) = metadata.length % 2 ^ 64 ∧
      (uint64LE bitCount).length = 8 ∧
      leValue (uint64LE bitCount) = bitCount % 2 ^ 64 := by
  obtain ⟨root, metadata, payload, hroot, _, hmem, henc, _, hpay, _, _, hE⟩ :=
    Encode_frame hp gob hl hg s hs
  have hsum : (encodeText (codeTable root) s).length =
      (s.map (fun c => ((mapGet (codeTable root) (runeToString c)).getD []).length)).sum := by
    rw [encodeText_eq, List.length_flatMap]
    rfl
  have h256 : (256 : Nat) ^ 8 = 2 ^ 64 := by norm_num
  refine ⟨root, codeTable root, metadata, (encodeText (codeTable root) s).length, payload,
    hroot, rfl, henc, ?_, hsum, hpay, ?_, uint64LE_length _, ?_, uint64LE_length _, ?_⟩
  · intro c hc
    exact ⟨_, (symbolCode_codeTable root c ((hmem c).mpr hc)).1⟩
  · rw [hE]
    simp only [List.append_assoc]
  · rw [uint64LE, leValue_leBytes, h256]
  · rw [uint64LE, leValue_leBytes, h256]

/-- C8, as amended. Packed payload size: for every non-empty input the packed payload of
the frame of Encode has exactly `bitCount / 8 + 1` bytes and spells the code bits followed
by `8 - bitCount % 8` characters 48; this is `ceil(bitCount / 8)` bytes when the bit count
is not a multiple of 8, and one byte more, a byte of 8 padding bits, when it is. -/
theorem packed_payload_size (hp : MinHeap) (gob : Gob) (hl : hp.Lawful) (hg : gob.Lawful)
    (s : List Char) (hs : s ≠ []) :
    ∃ root metadata packedData,
      buildTree hp (getSortedFrequencyMap (getFrequencyTable s)) = .ok root ∧
      Encode hp gob s =
        .ok ((uint64LE metadata.length ++ metadata) ++
          (uint64LE (encodeText (getHuffmanCodePoints root.addrOf []) s).length ++
            packedData)) ∧
      packedData.length = (encodeText (getHuffmanCodePoints root.addrOf []) s).length / 8 + 1 ∧
      packedData.flatMap binaryRepr = encodeText (getHuffmanCodePoints root.addrOf []) s ++
        List.replicate (8 - (encodeText (getHuffmanCodePoints root.addrOf []) s).length % 8) 48 ∧
      ((encodeText (getHuffmanCodePoints root.addrOf []) s).length % 8 ≠ 0 →
        packedData.length =
          ((encodeText (getHuffmanCodePoints root.addrOf []) s).length + 7) / 8) ∧
      ((encodeText (getHuffmanCodePoints root.addrOf []) s).length % 8 = 0 →
        packedData.length =
          ((encodeText (getHuffmanCodePoints root.addrOf []) s).length + 7) / 8 + 1) := by
  obtain ⟨root, metadata, payload, hroot, _, _, _, _, _, hlen, hbits, hE⟩ :=
    Encode_frame hp gob hl hg s hs
  have hlen2 : payload.length =
      (encodeText (getHuffmanCodePoints root.addrOf []) s).length / 8 + 1 := hlen
  refine ⟨root, metadata, payload, hroot, hE, hlen, hbits, ?_, ?_⟩
  · intro h
    rw [hlen2]
    omega
  · intro h
    rw [hlen2]
    omega

/-- C8, witness of the amended claim on the input "aaabbc". -/
theorem packed_payload_size_witness :
    refHeap.Lawful ∧ refGob.Lawful ∧ "aaabbc".toList ≠ [] ∧
    ∃ root metadata packedData,
      buildTree refHeap (getSortedFrequencyMap (getFrequencyTable "aaabbc".toList)) = .ok root ∧
      Encode refHeap refGob "aaabbc".toList =
        .ok ((uint64LE metadata.length ++ metadata) ++
          (uint64LE (encodeText (getHuffmanCodePoints root.addrOf []) "aaabbc".toList).length ++
            packedData)) ∧
      packedData.length =
        (encodeText (getHuffmanCodePoints root.addrOf []) "aaabbc".toList).length / 8 + 1 :=
  ⟨refHeap_lawful, refGob_lawful, by decide, by
    obtain ⟨root, metadata, packedData, h1, h2, h3, _⟩ :=
      packed_payload_size refHeap refGob refHeap_lawful refGob_lawful "aaabbc".toList (by decide)
    exact ⟨root, metadata, packedData, h1, h2, h3⟩⟩

/-- C8, counterexample. On the input "aaaabbbb" the bit count is 8, a multiple of 8, and
the packed payload of the frame has 2 bytes, not `ceil(8 / 8) = 1`. -/
theorem packed_payload_not_ceil :
    buildTree refHeap (getSortedFrequencyMap (getFrequencyTable "aaaabbbb".toList)) =
      .ok { id := [], weight := 8, left := .addr [97] 4 .nil .nil,
            right := .addr [98] 4 .nil .nil } ∧
    encodeText (getHuffmanCodePoints (.addr [] 8 (.addr [97] 4 .nil .nil)
      (.addr [98] 4 .nil .nil)) []) "aaaabbbb".toList = [48, 48, 48, 48, 49, 49, 49, 49] ∧
    Encode refHeap refGob "aaaabbbb".toList =
      .ok (uint64LE 11 ++ [2, 1, 1, 97, 1, 48, 1, 1, 98, 1, 49] ++ uint64LE 8 ++ [15, 0]) ∧
    ¬ (([15, 0] : Bytes).length = (([48, 48, 48, 48, 49, 49, 49, 49] : Bytes).length + 7) / 8) := by
  refine ⟨by decide, by decide, by decide, by decide⟩

/-- C2, witness on the input "aaabbc" with the reference heap and serialisation. -/
theorem roundtrip_multi_symbol_witness :
    refHeap.Lawful ∧ refGob.Lawful ∧ (∃ c ∈ "aaabbc".toList, ∃ d ∈ "aaabbc".toList, c ≠ d) ∧
    ∃ frame, Encode refHeap refGob "aaabbc".toList = .ok frame ∧
      Decode refGob 0 frame = .ok (utf8 "aaabbc".toList) :=
  ⟨refHeap_lawful, refGob_lawful, ⟨'a', by decide, 'b', by decide, by decide⟩,
    roundtrip_multi_symbol refHeap refGob refHeap_lawful refGob_lawful "aaabbc".toList
      ⟨'a', by decide, 'b', by decide, by decide⟩ 0
      (fun frame h => by
        have e : Encode refHeap refGob "aaabbc".toList =
            .ok [18, 0, 0, 0, 0, 0, 0, 0, 3, 1, 1, 99, 2, 49, 48, 1, 1, 98, 2, 49, 49, 1, 1, 97,
              1, 48, 9, 0, 0, 0, 0, 0, 0, 0, 31, 0] := by decide
        rw [e] at h
        cases h
        decide)⟩

/-- C5, witness on the input "aaabbc" with the reference heap. -/
theorem codes_prefix_free_witness :
    refHeap.Lawful ∧ (∃ c ∈ "aaabbc".toList, ∃ d ∈ "aaabbc".toList, c ≠ d) ∧
    ∃ root, buildTree refHeap (getSortedFrequencyMap (getFrequencyTable "aaabbc".toList)) =
        .ok root ∧
      ∀ k1 k2 c1 c2, k1 ≠ k2 →
        mapGet (getHuffmanCodePoints root.addrOf []) k1 = some c1 →
        mapGet (getHuffmanCodePoints root.addrOf []) k2 = some c2 →
        c1 ≠ [] ∧ ¬ c1 <+: c2 ∧ c1 ≠ c2 :=
  ⟨refHeap_lawful, ⟨'a', by decide, 'b', by decide, by decide⟩, by
    obtain ⟨root, h1, _, h3⟩ := codes_prefix_free refHeap refHeap_lawful "aaabbc".toList
      ⟨'a', by decide, 'b', by decide, by decide⟩
    exact ⟨root, h1, h3⟩⟩

/-- C7, witness on the input "aaabbc" with the reference heap and serialisation. -/
theorem frame_layout_witness :
    refHeap.Lawful ∧ refGob.Lawful ∧ "aaabbc".toList ≠ [] ∧
    ∃ metadata bitCount packedData,
      Encode refHeap refGob "aaabbc".toList =
        .ok (uint64LE metadata.length ++ metadata ++ uint64LE bitCount ++ packedData) :=
  ⟨refHeap_lawful, refGob_lawful, by decide, by
    obtain ⟨_, _, metadata, bitCount, packedData, _, _, _, _, _, _, h, _⟩ :=
      frame_layout refHeap refGob refHeap_lawful refGob_lawful "aaabbc".toList (by decide)
    exact ⟨metadata, bitCount, packedData, h⟩⟩

/-- C9, counterexample. The frame of "aaabbc" with the bit count 8 in place of 9: after 8
bits the symbols "aaabb" are matched and the non-empty bitstring "1", which is no code of
the table, is left accumulated, and Decode returns "aaabb" with no error. -/
theorem unmatched_partial_accepted :
    refGob.decode [3, 1, 1, 99, 2, 49, 48, 1, 1, 98, 2, 49, 49, 1, 1, 97, 1, 48] =
      some [[([99], [49, 48])], [([98], [49, 49])], [([97], [48])]] ∧
    decodeLoop (buildDecodeMap [[([99], [49, 48])], [([98], [49, 49])], [([97], [48])]]) 8
      (([31, 0] : Bytes).flatMap binaryRepr)
      { dataMarkerCount := 0, partialString := [], result := [] } =
      { dataMarkerCount := 8, partialString := [49], result := [97, 97, 97, 98, 98] } ∧
    mapGet (buildDecodeMap [[([99], [49, 48])], [([98], [49, 49])], [([97], [48])]]) [49] =
      none ∧
    Decode refGob 0 (uint64LE 18 ++ [3, 1, 1, 99, 2, 49, 48, 1, 1, 98, 2, 49, 49, 1, 1, 97, 1, 48]
      ++ (uint64LE 8 ++ [31, 0])) = .ok [97, 97, 97, 98, 98] := by
  refine ⟨by decide, by decide, by decide, by decide⟩

/-! ## Single-symbol input -/

theorem freqListOf_single (c : Char) (n : Nat) :
    ∃ w, freqListOf (List.replicate (n + 1) c) = [(c, w)] := by
  have hnodup := freqListOf_keys_nodup (List.replicate (n + 1) c)
  have hmem : ∀ x, x ∈ (freqListOf (List.replicate (n + 1) c)).map Prod.fst ↔ x = c := by
    intro x
    rw [mem_freqListOf_keys, List.mem_replicate]
    simp
  generalize freqListOf (List.replicate (n + 1) c) = l at hnodup hmem
  match l, hnodup, hmem with
  | [], _, hmem =>
    have := (hmem c).mpr rfl
    simp at this
  | [e], _, hmem =>
    obtain ⟨a, w⟩ := e
    have : a = c := (hmem a).mp (by simp)
    subst this
    exact ⟨w, rfl⟩
  | e1 :: e2 :: t, hnodup, hmem =>
    have h1 : e1.1 = c := (hmem e1.1).mp (by simp)
    have h2 : e2.1 = c := (hmem e2.1).mp (by simp)
    simp only [List.map_cons, List.nodup_cons, List.mem_cons] at hnodup
    exact absurd (Or.inl (h1.trans h2.symm)) hnodup.1

theorem buildTree_single (hp : MinHeap) (hl : hp.Lawful) (i : Char × Nat) :
    buildTree hp [i] = .ok (leafOf i) := by
  obtain ⟨root, h1, h2⟩ := buildTree_inv hp hl (fun h => h = [leafOf i])
    (fun h h' hperm hP => by
      have hP2 : h = [leafOf i] := hP
      subst hP2
      exact (List.singleton_perm.mp hperm).symm)
    (fun a b h _ _ hP => by
      have hP2 : a :: b :: h = [leafOf i] := hP
      simp at hP2)
    [i] (by simp) rfl
  have h3 : [root] = [leafOf i] := h2
  rw [h1]
  simp only [List.cons.injEq, and_true] at h3
  rw [h3]

theorem encodeText_single (i : Char × Nat) (n : Nat) :
    encodeText (codeTable (leafOf i)) (List.replicate n i.1) = [] := by
  have h : symbolCode (codeTable (leafOf i)) i.1 = [] := by
    simp [symbolCode, codeTable, leafOf, HuffmanTreeNode.addrOf, getHuffmanCodePoints, mapGet]
  rw [encodeText_eq]
  induction n with
  | zero => rfl
  | succ n ih => rw [List.replicate_succ, List.flatMap_cons, h, ih]; rfl

/-- C3, on the code. Degenerate single-symbol input: for every input made of `n + 1`
repetitions of one symbol, Encode succeeds, with the empty code for the symbol and the bit
count 0, and Decode applied to the frame returns an error: after the 8 padding bits of the
one payload byte the count is 8, not the data marker 0. -/
theorem single_symbol_not_decoded (hp : MinHeap) (gob : Gob) (hl : hp.Lawful) (hg : gob.Lawful)
    (c : Char) (n : Nat) (slack : Nat)
    (hsize : ∀ frame, Encode hp gob (List.replicate (n + 1) c) = .ok frame →
      frame.length < 2 ^ 60) :
    ∃ frame, Encode hp gob (List.replicate (n + 1) c) = .ok frame ∧
      Decode gob slack frame = .err := by
  obtain ⟨root, metadata, payload, hroot, _, _, _, hdec, _, hlen, _, henc⟩ :=
    Encode_frame hp gob hl hg (List.replicate (n + 1) c) (by simp)
  obtain ⟨w, hw⟩ := freqListOf_single c n
  rw [hw, buildTree_single hp hl (c, w)] at hroot
  cases hroot
  have htext := encodeText_single (c, w) (n + 1)
  simp only [] at htext
  rw [htext] at henc hlen
  simp only [List.length_nil, Nat.zero_div, Nat.zero_add] at henc hlen
  refine ⟨_, henc, ?_⟩
  obtain ⟨hM, _⟩ := frame_sizes metadata payload 0 (by simpa using hlen) (hsize _ henc)
  rw [Decode_Encode_frame gob slack metadata payload 0 _ hdec hM (by norm_num),
    decodeLoop_count, flatMap_binaryRepr_length, hlen]
  simp

/-- C3, witness on the input "aaaaa" with the reference heap and serialisation. -/
theorem single_symbol_not_decoded_witness :
    refHeap.Lawful ∧ refGob.Lawful ∧
    ∃ frame, Encode refHeap refGob (List.replicate (4 + 1) 'a') = .ok frame ∧
      Decode refGob 0 frame = .err :=
  ⟨refHeap_lawful, refGob_lawful,
    single_symbol_not_decoded refHeap refGob refHeap_lawful refGob_lawful 'a' 4 0
      (fun frame h => by
        have e : Encode refHeap refGob (List.replicate (4 + 1) 'a') =
            .ok [5, 0, 0, 0, 0, 0, 0, 0, 1, 1, 1, 97, 0, 0, 0, 0, 0, 0, 0, 0, 0, 0] := by decide
        rw [e] at h
        cases h
        decide)⟩

/-- C1, on the code. The round trip fails on the input "aaaaa": Encode returns a frame with
the empty code for the symbol, the bit count 0 and one payload byte, and Decode of that
frame returns an error. -/
theorem roundtrip_fails_single_symbol :
    Encode refHeap refGob "aaaaa".toList =
      .ok (uint64LE 5 ++ [1, 1, 1, 97, 0] ++ uint64LE 0 ++ [0]) ∧
    refGob.decode [1, 1, 1, 97, 0] = some [[([97], [])]] ∧
    Decode refGob 0 (uint64LE 5 ++ [1, 1, 1, 97, 0] ++ uint64LE 0 ++ [0]) = .err := by
  refine ⟨by decide, by decide, by decide⟩

/-- C6, on the code. For every non-empty input, Decode applied to the frame of Encode
without its last 3 bytes never succeeds: it returns an error, except that it panics in the
slice expression of line 254 when the frame has fewer than 3 payload bytes (bit count below
16), so that the bit count field is cut, and the byte slice has less than 8 bytes of
capacity left there. -/
theorem truncated_frame_decode (hp : MinHeap) (gob : Gob) (hl : hp.Lawful) (hg : gob.Lawful)
    (s : List Char) (hs : s ≠ []) (slack : Nat)
    (hsize : ∀ frame, Encode hp gob s = .ok frame → frame.length < 2 ^ 60) :
    ∃ root frame,
      buildTree hp (getSortedFrequencyMap (getFrequencyTable s)) = .ok root ∧
      Encode hp gob s = .ok frame ∧
      Decode gob slack (dropLast3 frame) =
        if (encodeText (getHuffmanCodePoints root.addrOf []) s).length / 8 + slack < 2
        then .panic else .err := by
  obtain ⟨root, metadata, payload, hroot, _, _, _, hdec, _, hlen, _, henc⟩ :=
    Encode_frame hp gob hl hg s hs
  refine ⟨root, _, hroot, henc, ?_⟩
  obtain ⟨hM, hB⟩ := frame_sizes metadata payload _ hlen (hsize _ henc)
  have hlen2 : payload.length =
      (encodeText (getHuffmanCodePoints root.addrOf []) s).length / 8 + 1 := hlen
  generalize (encodeText (codeTable root) s).length = bc at hlen hB henc
  generalize (encodeText (getHuffmanCodePoints root.addrOf []) s).length = bc2 at hlen2
  have hbc : bc2 / 8 = bc / 8 := by omega
  rw [hbc]
  have hA : (uint64LE metadata.length ++ metadata).length = 8 + metadata.length := by
    simp only [List.length_append, uint64LE_length]
  have hdrop : dropLast3 ((uint64LE metadata.length ++ metadata) ++ (uint64LE bc ++ payload)) =
      (uint64LE metadata.length ++ metadata) ++ (uint64LE bc ++ payload).take (5 + payload.length) := by
    rw [dropLast3, List.take_append_eq_append_take, List.take_of_length_le]
    · congr 2
      simp only [List.length_append, uint64LE_length]
      omega
    · simp only [List.length_append, uint64LE_length]
      omega
  rw [hdrop]
  by_cases hP : payload.length < 3
  · have htl : ((uint64LE bc ++ payload).take (5 + payload.length)).length =
        5 + payload.length := by
      rw [List.length_take, List.length_append, uint64LE_length]
      omega
    rw [Decode_frame gob slack metadata _ hM, hdec]
    simp only [htl]
    by_cases hs2 : bc / 8 + slack < 2
    · have : 5 + payload.length + slack < 8 := by omega
      simp [this, hs2]
    · have h1 : ¬ (5 + payload.length + slack < 8) := by omega
      have h2 : 5 + payload.length < 8 := by omega
      simp [h1, h2, hs2]
  · have htake : (uint64LE bc ++ payload).take (5 + payload.length) =
        uint64LE bc ++ payload.take (payload.length - 3) := by
      rw [List.take_append_eq_append_take, List.take_of_length_le, uint64LE_length]
      · congr 2
        omega
      · rw [uint64LE_length]
        omega
    have hs2 : ¬ (bc / 8 + slack < 2) := by omega
    rw [htake, Decode_Encode_frame gob slack metadata _ bc _ hdec hM hB, decodeLoop_count,
      flatMap_binaryRepr_length, List.length_take, if_neg hs2]
    simp only [Nat.zero_add]
    have h3 : ¬ (0 < bc ∧ bc ≤ 8 * min (payload.length - 3) payload.length) := by omega
    have h4 : ¬ (8 * min (payload.length - 3) payload.length = bc) := by omega
    rw [if_neg h3, if_neg h4]

/-- C6, witness on the input "ab" with a slice without spare capacity: Decode panics. -/
theorem truncated_frame_decode_witness :
    refHeap.Lawful ∧ refGob.Lawful ∧ "ab".toList ≠ [] ∧
    Encode refHeap refGob "ab".toList =
      .ok (uint64LE 11 ++ [2, 1, 1, 97, 1, 48, 1, 1, 98, 1, 49] ++ uint64LE 2 ++ [64]) ∧
    Decode refGob 0
      (dropLast3 (uint64LE 11 ++ [2, 1, 1, 97, 1, 48, 1, 1, 98, 1, 49] ++ uint64LE 2 ++ [64])) =
      .panic := by
  have e : Encode refHeap refGob "ab".toList =
      .ok (uint64LE 11 ++ [2, 1, 1, 97, 1, 48, 1, 1, 98, 1, 49] ++ uint64LE 2 ++ [64]) := by
    decide
  refine ⟨refHeap_lawful, refGob_lawful, by decide, e, ?_⟩
  obtain ⟨root, frame, h1, h2, h3⟩ :=
    truncated_frame_decode refHeap refGob refHeap_lawful refGob_lawful "ab".toList (by decide) 0
      (fun frame h => by
        rw [e] at h
        cases h
        decide)
  have hroot : buildTree refHeap (getSortedFrequencyMap (getFrequencyTable "ab".toList)) =
      .ok { id := [], weight := 2, left := .addr [97] 1 .nil .nil,
            right := .addr [98] 1 .nil .nil } := by decide
  rw [hroot] at h1
  cases h1
  rw [e] at h2
  cases h2
  exact h3.trans (by decide)

/-- C10, on the code. A metadata length marker of `2 ^ 64 - 1` becomes -1 as an `int`, so
the length check of line 236 passes and the slice expressions of lines 239 and 240 panic,
whatever the capacity of the slice; and when fewer than 8 bytes (capacity included) remain
after the metadata, the slice expression of line 254 panics before the length check of
line 255. -/
theorem length_marker_panics (gob : Gob) (slack : Nat) :
    Decode gob slack [255, 255, 255, 255, 255, 255, 255, 255] = .panic ∧
    ∀ metadata md tail, gob.decode metadata = some md → metadata.length < 2 ^ 63 →
      tail.length + slack < 8 →
      Decode gob slack (uint64LE metadata.length ++ metadata ++ tail) = .panic := by
  constructor
  · have h1 : leUint64 (List.take 8 [255, 255, 255, 255, 255, 255, 255, 255]) =
        18446744073709551615 := by decide
    have h2 : toInt 18446744073709551615 = -1 := by decide
    unfold Decode
    simp only [h1, h2]
    simp only [List.length_cons, List.length_nil, List.drop_succ_cons, List.drop_zero]
    rw [if_neg (by omega), if_neg (by omega), if_neg (by omega)]
    by_cases h3 : 0 + slack < 18446744073709551615
    · rw [if_pos h3]
    · rw [if_neg h3, if_pos (by omega)]
  · intro metadata md tail hdec hM htail
    rw [Decode_frame gob slack metadata tail hM, hdec]
    simp [htail]

/-- C10, witness of the second part with the reference serialisation: the frame of "ab"
cut after 6 bytes of the bit count, in a slice without spare capacity. -/
theorem length_marker_panics_witness :
    refGob.decode [2, 1, 1, 97, 1, 48, 1, 1, 98, 1, 49] =
      some [[([97], [48])], [([98], [49])]] ∧
    Decode refGob 0 (uint64LE 11 ++ [2, 1, 1, 97, 1, 48, 1, 1, 98, 1, 49] ++ [2, 0, 0, 0, 0, 0]) =
      .panic :=
  ⟨by decide, (length_marker_panics refGob 0).2 [2, 1, 1, 97, 1, 48, 1, 1, 98, 1, 49]
    [[([97], [48])], [([98], [49])]] [2, 0, 0, 0, 0, 0] (by decide) (by decide) (by decide)⟩

/-! ## The frequency table and its canonical order -/

theorem mapSet_sum {κ : Type} [DecidableEq κ] (m : List (κ × Nat)) (k : κ) (v : Nat) :
    ((mapSet m k v).map Prod.snd).sum + (mapGet m k).getD 0 = (m.map Prod.snd).sum + v := by
  induction m with
  | nil => simp [mapSet, mapGet]
  | cons e t ih =>
    obtain ⟨a, b⟩ := e
    by_cases h : a = k
    · subst h
      simp only [mapSet, mapGet, if_true, List.map_cons, List.sum_cons, Option.getD_some]
      omega
    · simp only [mapSet, mapGet, h, if_false, List.map_cons, List.sum_cons]
      omega

theorem getFrequencyTable_sum (s : List Char) :
    ((getFrequencyTable s).map Prod.snd).sum = s.length := by
  induction s using List.reverseRecOn with
  | nil => rfl
  | append_singleton s c ih =>
    rw [getFrequencyTable_snoc, List.length_append, List.length_singleton, ← ih]
    cases hget : mapGet (getFrequencyTable s) c with
    | some n =>
      simp only [hget, Option.getD_some]
      have h := mapSet_sum (getFrequencyTable s) c (n + 1)
      rw [hget] at h
      simp only [Option.getD_some] at h
      omega
    | none =>
      simp only []
      have h1 := mapSet_sum (getFrequencyTable s) c 0
      rw [hget] at h1
      have h2 := mapSet_sum (mapSet (getFrequencyTable s) c 0) c
        ((mapGet (mapSet (getFrequencyTable s) c 0) c).getD 0 + 1)
      rw [mapGet_mapSet] at h2 ⊢
      simp only [if_true, Option.getD_some, Option.getD_none] at h1 h2 ⊢
      omega

/-- C13. Frequency analysis: for every symbol sequence the keys of getFrequencyTable are
pairwise different and are exactly the symbols that occur in it, every symbol is mapped to
its number of occurrences, every count is positive, the counts sum to the number of
symbols, and the table is empty exactly when the sequence is empty. -/
theorem frequency_table (s : List Char) :
    (mapKeys (getFrequencyTable s)).Nodup ∧
    (∀ c, c ∈ mapKeys (getFrequencyTable s) ↔ c ∈ s) ∧
    (∀ c, mapGet (getFrequencyTable s) c = if c ∈ s then some (s.count c) else none) ∧
    (∀ c n, (c, n) ∈ getFrequencyTable s → 0 < n ∧ n = s.count c) ∧
    ((getFrequencyTable s).map Prod.snd).sum = s.length ∧
    (getFrequencyTable s = [] ↔ s = []) := by
  refine ⟨getFrequencyTable_nodup s, mem_mapKeys_getFrequencyTable s,
    mapGet_getFrequencyTable s, ?_, getFrequencyTable_sum s, ?_⟩
  · intro c n hcn
    have h := mapGet_of_mem _ c n (getFrequencyTable_nodup s) hcn
    rw [mapGet_getFrequencyTable] at h
    by_cases hc : c ∈ s
    · rw [if_pos hc] at h
      cases h
      exact ⟨List.count_pos_iff.mpr hc, rfl⟩
    · rw [if_neg hc] at h
      cases h
  · constructor
    · intro h
      by_contra hs
      exact getFrequencyTable_ne_nil s hs h
    · intro h
      rw [h]
      rfl

theorem freqLess_iff (a b : Char × Nat) :
    freqLess a b ↔ a.2 < b.2 ∨ (a.2 = b.2 ∧ a.1 < b.1) := by
  unfold freqLess
  by_cases h : a.2 = b.2
  · simp [h]
  · simp only [ne_eq, h, not_false_eq_true, if_true, false_and, or_false]

theorem freqLess_asymm (a b : Char × Nat) (h : freqLess a b) : ¬ freqLess b a := by
  rw [freqLess_iff] at h ⊢
  rintro (h2 | ⟨h2, h3⟩)
  · rcases h with h | ⟨h, _⟩ <;> omega
  · rcases h with h | ⟨_, h⟩
    · omega
    · exact lt_asymm h h3

theorem freqLess_trichotomy (a b : Char × Nat) : freqLess a b ∨ a = b ∨ freqLess b a := by
  rw [freqLess_iff, freqLess_iff]
  obtain ⟨c1, n1⟩ := a
  obtain ⟨c2, n2⟩ := b
  simp only [Prod.mk.injEq]
  rcases Nat.lt_trichotomy n1 n2 with h | h | h
  · exact Or.inl (Or.inl h)
  · rcases lt_trichotomy c1 c2 with h2 | h2 | h2
    · exact Or.inl (Or.inr ⟨h, h2⟩)
    · exact Or.inr (Or.inl ⟨h2, h⟩)
    · exact Or.inr (Or.inr (Or.inr ⟨h.symm, h2⟩))
  · exact Or.inr (Or.inr (Or.inl h))

theorem freqLess_trans (a b c : Char × Nat) (h1 : freqLess a b) (h2 : freqLess b c) :
    freqLess a c := by
  rw [freqLess_iff] at h1 h2 ⊢
  rcases h1 with h1 | ⟨h1, h1'⟩ <;> rcases h2 with h2 | ⟨h2, h2'⟩
  · exact Or.inl (by omega)
  · exact Or.inl (by omega)
  · exact Or.inl (by omega)
  · exact Or.inr ⟨by omega, lt_trans h1' h2'⟩

theorem freqLE_total : IsTotal (Char × Nat) (fun a b => ¬ freqLess b a) :=
  ⟨fun a b => by
    by_cases h : freqLess b a
    · exact Or.inr (freqLess_asymm b a h)
    · exact Or.inl h⟩

theorem freqLE_trans : IsTrans (Char × Nat) (fun a b => ¬ freqLess b a) :=
  ⟨fun a b c h1 h2 h3 => by
    rcases freqLess_trichotomy a b with h | h | h
    · exact h2 (freqLess_trans c a b h3 h)
    · subst h
      exact h2 h3
    · exact h1 h⟩

theorem freqLE_antisymm : IsAntisymm (Char × Nat) (fun a b => ¬ freqLess b a) :=
  ⟨fun a b h1 h2 => by
    rcases freqLess_trichotomy a b with h | h | h
    · exact absurd h h2
    · exact h
    · exact absurd h h1⟩

theorem getSortedFrequencyMap_sorted (m : List (Char × Nat)) :
    (getSortedFrequencyMap m).Sorted (fun a b => ¬ freqLess b a) := by
  haveI := freqLE_total
  haveI := freqLE_trans
  exact List.sorted_insertionSort _ m

/-- The sorted frequency list does not depend on the order in which the entries of the map
are visited. -/
theorem getSortedFrequencyMap_perm_eq (m m' : List (Char × Nat)) (h : m'.Perm m) :
    getSortedFrequencyMap m' = getSortedFrequencyMap m := by
  haveI := freqLE_antisymm
  exact List.eq_of_perm_of_sorted
    ((getSortedFrequencyMap_perm m').trans (h.trans (getSortedFrequencyMap_perm m).symm))
    (getSortedFrequencyMap_sorted m') (getSortedFrequencyMap_sorted m)

theorem getSortedFrequencyMap_strict (m : List (Char × Nat)) (hm : (mapKeys m).Nodup) :
    (getSortedFrequencyMap m).Pairwise freqLess := by
  have hk : ((getSortedFrequencyMap m).map Prod.fst).Nodup :=
    (List.Perm.map Prod.fst (getSortedFrequencyMap_perm m)).nodup_iff.mpr hm
  have hne : (getSortedFrequencyMap m).Pairwise (fun a b => a.1 ≠ b.1) :=
    List.pairwise_map.mp hk
  refine List.Pairwise.imp ?_ (List.Pairwise.and (getSortedFrequencyMap_sorted m) hne)
  intro a b hab
  obtain ⟨h1, h2⟩ := hab
  rcases freqLess_trichotomy a b with h | h | h
  · exact h
  · exact absurd (congrArg Prod.fst h) h2
  · exact absurd h h1

/-- C12. Canonical frequency order: for every frequency map, getSortedFrequencyMap returns
a list with exactly the entries of the map, each once, strictly ascending in the
lexicographic order of count and symbol value; the tree builder of Encode inserts one leaf
per entry into the heap in the order of this list (with the reference heap, which appends,
the array is the list of leaves in this order), and the metadata list of Encode has one
pair per entry in the same order. -/
theorem canonical_frequency_order (m : List (Char × Nat)) (hm : (mapKeys m).Nodup) :
    (getSortedFrequencyMap m).Perm m ∧
    (getSortedFrequencyMap m).Nodup ∧
    (getSortedFrequencyMap m).Pairwise (fun a b => a.2 < b.2 ∨ (a.2 = b.2 ∧ a.1 < b.1)) ∧
    (∀ hp : MinHeap, buildTree hp (getSortedFrequencyMap m) =
      (mergeLoop hp
        ((getSortedFrequencyMap m).foldl (fun h i => hp.insert h (leafOf i)) []).length
        ((getSortedFrequencyMap m).foldl (fun h i => hp.insert h (leafOf i)) [])).andThen
        fun mHeap =>
          match hp.extract mHeap with
          | none => .panic
          | some (rootNode, _) => .ok rootNode) ∧
    (getSortedFrequencyMap m).foldl (fun h i => refHeap.insert h (leafOf i)) [] =
      (getSortedFrequencyMap m).map leafOf ∧
    (∀ codeMap : List (Bytes × Bytes),
      (codesInList codeMap (getSortedFrequencyMap m)).map (fun p => p.map Prod.fst) =
        (getSortedFrequencyMap m).map (fun v => [runeToString v.1])) := by
  have hperm := getSortedFrequencyMap_perm m
  have hnodup : m.Nodup := List.Nodup.of_map Prod.fst hm
  refine ⟨hperm, hperm.nodup_iff.mpr hnodup, ?_, fun hp => rfl, ?_, ?_⟩
  · exact List.Pairwise.imp (fun {a b} h => (freqLess_iff a b).mp h)
      (getSortedFrequencyMap_strict m hm)
  · have key : ∀ (l : List (Char × Nat)) (h0 : List HuffmanTreeNode),
        l.foldl (fun h i => refHeap.insert h (leafOf i)) h0 = h0 ++ l.map leafOf := by
      intro l
      induction l with
      | nil => intro h0; simp
      | cons i t ih =>
        intro h0
        rw [List.foldl_cons, ih]
        simp [refHeap]
    simpa using key (getSortedFrequencyMap m) []
  · intro codeMap
    simp [codesInList]

/-- C12, witness on the frequency map of "aaabbc". -/
theorem canonical_frequency_order_witness :
    (mapKeys [('a', 3), ('b', 2), ('c', 1)]).Nodup ∧
    getSortedFrequencyMap [('a', 3), ('b', 2), ('c', 1)] = [('c', 1), ('b', 2), ('a', 3)] ∧
    (getSortedFrequencyMap [('a', 3), ('b', 2), ('c', 1)]).Pairwise
      (fun a b => a.2 < b.2 ∨ (a.2 = b.2 ∧ a.1 < b.1)) :=
  ⟨by decide, by decide,
    (canonical_frequency_order [('a', 3), ('b', 2), ('c', 1)] (by decide)).2.2.1⟩

/-! ## Padding and packing -/

theorem parseUint2_binValue (l : Bytes) (hlen : l.length = 8)
    (hb : ∀ b ∈ l, b = 48 ∨ b = 49) :
    parseUint2 l = some (binValue l) ∧ binValue l < 256 ∧ binaryRepr (binValue l) = l := by
  rcases l with _ | ⟨b7, _ | ⟨b6, _ | ⟨b5, _ | ⟨b4, _ | ⟨b3, _ | ⟨b2, _ | ⟨b1, _ | ⟨b0, _ | ⟨b, t⟩⟩⟩⟩⟩⟩⟩⟩⟩ <;>
    simp only [List.length_cons, List.length_nil] at hlen <;> try omega
  simp only [List.mem_cons, List.mem_singleton, forall_eq_or_imp, forall_eq, List.not_mem_nil,
    false_imp_iff, implies_true, and_true] at hb
  obtain ⟨h7, h6, h5, h4, h3, h2, h1, h0⟩ := hb
  rcases h7 with h7 | h7 <;> rcases h6 with h6 | h6 <;> rcases h5 with h5 | h5 <;>
    rcases h4 with h4 | h4 <;> rcases h3 with h3 | h3 <;> rcases h2 with h2 | h2 <;>
    rcases h1 with h1 | h1 <;> rcases h0 with h0 | h0 <;>
    subst h7 h6 h5 h4 h3 h2 h1 h0 <;> exact ⟨rfl, by decide, rfl⟩

theorem groupValues_succ (n : Nat) (s : Bytes) :
    groupValues (n + 1) s = binValue (s.take 8) :: groupValues n (s.drop 8) := by
  simp only [groupValues, List.range_succ_eq_map, List.map_cons, List.map_map, Nat.mul_zero,
    List.drop_zero, List.cons.injEq, true_and]
  apply List.map_congr_left
  intro k _
  simp only [Function.comp, List.drop_drop]
  congr 3
  omega

theorem transformLoop_values (n : Nat) (fuel : Nat) (s c : Bytes) (hlen : s.length = 8 * n)
    (hfuel : n ≤ fuel) (hb : ∀ b ∈ s, b = 48 ∨ b = 49) :
    transformLoop fuel s c = .ok (c ++ groupValues n s) ∧
      (groupValues n s).flatMap binaryRepr = s := by
  induction n generalizing fuel s c with
  | zero =>
    have hs : s = [] := List.length_eq_zero.mp (by omega)
    subst hs
    refine ⟨?_, rfl⟩
    cases fuel <;> simp [transformLoop, groupValues]
  | succ n ih =>
    obtain ⟨f, rfl⟩ : ∃ f, fuel = f + 1 := ⟨fuel - 1, by omega⟩
    have h1 : 0 < s.length := by omega
    have h2 : ¬ s.length < 8 := by omega
    have htake : (s.take 8).length = 8 := by
      rw [List.length_take]
      omega
    obtain ⟨hx, hx256, hxr⟩ := parseUint2_binValue (s.take 8) htake
      (fun b hbm => hb b (List.mem_of_mem_take hbm))
    have hdrop : (s.drop 8).length = 8 * n := by
      rw [List.length_drop]
      omega
    obtain ⟨e1, e3⟩ := ih f (s.drop 8) (c ++ [binValue (s.take 8) % 256]) hdrop (by omega)
      (fun b hbm => hb b (List.mem_of_mem_drop hbm))
    rw [groupValues_succ]
    constructor
    · rw [transformLoop]
      simp only [h1, if_true, h2, if_false, hx]
      rw [e1, Nat.mod_eq_of_lt hx256]
      simp
    · rw [List.flatMap_cons, hxr, e3, List.take_append_drop]

/-- C17. MSB-first packing round trip: for every string of characters '0' and '1' whose
length is a multiple of 8, transformEncodedTextToBytes returns no error and one byte per
group of 8 characters, the k-th byte being the k-th group read as a binary number with its
first character as most significant bit, and the 8-character binary forms of the returned
bytes, concatenated, give the string back. -/
theorem packing_roundtrip (s : Bytes) (hlen : s.length % 8 = 0)
    (hb : ∀ b ∈ s, b = 48 ∨ b = 49) :
    ∃ bs, transformEncodedTextToBytes s = .ok bs ∧
      bs.length = s.length / 8 ∧
      bs = (List.range (s.length / 8)).map (fun k => binValue ((s.drop (8 * k)).take 8)) ∧
      (∀ b ∈ bs, b < 256) ∧
      bs.flatMap binaryRepr = s := by
  obtain ⟨h1, h2⟩ := transformLoop_values (s.length / 8) s.length s [] (by omega)
    (Nat.div_le_self _ _) hb
  refine ⟨groupValues (s.length / 8) s, by simpa [transformEncodedTextToBytes] using h1,
    by simp [groupValues], rfl, ?_, h2⟩
  intro b hbm
  simp only [groupValues, List.mem_map, List.mem_range] at hbm
  obtain ⟨k, hk, rfl⟩ := hbm
  have hl : ((s.drop (8 * k)).take 8).length = 8 := by
    rw [List.length_take, List.length_drop]
    omega
  exact (parseUint2_binValue _ hl
    (fun b hbm => hb b (List.mem_of_mem_drop (List.mem_of_mem_take hbm)))).2.1

/-- C17, witness on a string of two groups. -/
theorem packing_roundtrip_witness :
    transformEncodedTextToBytes
      [48, 48, 48, 49, 49, 49, 49, 49, 49, 48, 48, 48, 48, 48, 48, 48] = .ok [31, 128] ∧
    ∃ bs, transformEncodedTextToBytes
        [48, 48, 48, 49, 49, 49, 49, 49, 49, 48, 48, 48, 48, 48, 48, 48] = .ok bs ∧
      bs.flatMap binaryRepr = [48, 48, 48, 49, 49, 49, 49, 49, 49, 48, 48, 48, 48, 48, 48, 48] :=
  ⟨by decide, by
    obtain ⟨bs, h1, _, _, _, h2⟩ := packing_roundtrip
      [48, 48, 48, 49, 49, 49, 49, 49, 49, 48, 48, 48, 48, 48, 48, 48] (by decide) (by decide)
    exact ⟨bs, h1, h2⟩⟩

/-- C20. Padding shape and packing safety: for every string, padEncodedText returns the
string followed by `8 - len mod 8` characters '0', between 1 and 8 of them and 8 when the
length is a multiple of 8, so that the result has a positive length that is a multiple of
8; on a padded string of characters '0' and '1' the packer reads every 8-character slice
in range, parses it, and returns `len / 8 + 1` bytes; and this is the case inside Encode,
whose packed payload has `bitCount / 8 + 1` bytes. -/
theorem padding_shape (e : Bytes) :
    padEncodedText e = e ++ List.replicate (8 - e.length % 8) 48 ∧
    1 ≤ 8 - e.length % 8 ∧ 8 - e.length % 8 ≤ 8 ∧
    (e.length % 8 = 0 → 8 - e.length % 8 = 8) ∧
    0 < (padEncodedText e).length ∧ (padEncodedText e).length % 8 = 0 ∧
    ((∀ b ∈ e, b = 48 ∨ b = 49) →
      ∃ bs, transformEncodedTextToBytes (padEncodedText e) = .ok bs ∧
        bs.length = e.length / 8 + 1) ∧
    (∀ (hp : MinHeap) (s : List Char), hp.Lawful → s ≠ [] →
      ∃ root bs, buildTree hp (getSortedFrequencyMap (getFrequencyTable s)) = .ok root ∧
        (∀ b ∈ encodeText (getHuffmanCodePoints root.addrOf []) s, b = 48 ∨ b = 49) ∧
        transformEncodedTextToBytes
          (padEncodedText (encodeText (getHuffmanCodePoints root.addrOf []) s)) = .ok bs ∧
        bs.length = (encodeText (getHuffmanCodePoints root.addrOf []) s).length / 8 + 1) := by
  have hl := padEncodedText_length e
  refine ⟨rfl, by omega, by omega, by omega, by omega, by omega, ?_, ?_⟩
  · intro hb
    obtain ⟨bs, h1, h2, _⟩ := transform_pad e hb
    exact ⟨bs, h1, h2⟩
  · intro hp s hlaw hs
    obtain ⟨root, hroot, _, _, hmem⟩ := buildTree_input hp hlaw s hs
    have hbits := encodeText_bits root s (fun c hc => (hmem c).mpr hc)
    obtain ⟨bs, h1, h2, _⟩ := transform_pad (encodeText (codeTable root) s) hbits
    exact ⟨root, bs, hroot, hbits, h1, h2⟩

/-- C15, on the code. Single-leaf code: for every input with exactly one distinct symbol
the root of the tree is that symbol's leaf and the code table of Encode holds the single
pair of the symbol and the empty code, the code prefix that getHuffmanCodePoints was called
with; the symbol is not given the code "0". -/
theorem single_leaf_code_empty (hp : MinHeap) (hl : hp.Lawful) (c : Char) (n : Nat) :
    ∃ root, buildTree hp (getSortedFrequencyMap (getFrequencyTable (List.replicate (n + 1) c))) =
        .ok root ∧
      root.left = .nil ∧ root.right = .nil ∧
      getHuffmanCodePoints root.addrOf [] = [(runeToString c, [])] ∧
      mapGet (getHuffmanCodePoints root.addrOf []) (runeToString c) ≠ some [48] := by
  obtain ⟨w, hw⟩ := freqListOf_single c n
  have hw2 : getSortedFrequencyMap (getFrequencyTable (List.replicate (n + 1) c)) = [(c, w)] := hw
  rw [hw2, buildTree_single hp hl (c, w)]
  refine ⟨leafOf (c, w), rfl, rfl, rfl, ?_, ?_⟩
  · simp [leafOf, HuffmanTreeNode.addrOf, getHuffmanCodePoints]
  · simp [leafOf, HuffmanTreeNode.addrOf, getHuffmanCodePoints, mapGet]

/-- C15, witness on the input "aaaaa" with the reference heap. -/
theorem single_leaf_code_empty_witness :
    refHeap.Lawful ∧
    ∃ root, buildTree refHeap
        (getSortedFrequencyMap (getFrequencyTable (List.replicate (4 + 1) 'a'))) = .ok root ∧
      getHuffmanCodePoints root.addrOf [] = [(runeToString 'a', [])] := by
  refine ⟨refHeap_lawful, ?_⟩
  obtain ⟨root, h1, _, _, h2, _⟩ := single_leaf_code_empty refHeap refHeap_lawful 'a' 4
  exact ⟨root, h1, h2⟩

/-! ## Determinism -/

theorem encodeResults_snd (codeMap : List (Bytes × Bytes)) (s : List Char) (idx : Nat) :
    (encodeResults codeMap idx s).flatMap Prod.snd = encodeText codeMap s := by
  induction s generalizing idx with
  | nil => rfl
  | cons c t ih =>
    rw [encodeResults, List.flatMap_cons, ih]
    rfl

theorem encodeResults_ge (codeMap : List (Bytes × Bytes)) (s : List Char) (idx : Nat) :
    ∀ r ∈ encodeResults codeMap idx s, idx ≤ r.1 := by
  induction s generalizing idx with
  | nil => intro r hr; simp [encodeResults] at hr
  | cons c t ih =>
    intro r hr
    rw [encodeResults] at hr
    rcases List.mem_cons.mp hr with h | h
    · rw [h]
    · have := ih _ r h
      omega

theorem encodeResults_sorted (codeMap : List (Bytes × Bytes)) (s : List Char) (idx : Nat) :
    (encodeResults codeMap idx s).Pairwise (fun a b => a.1 < b.1) := by
  induction s generalizing idx with
  | nil => simp [encodeResults]
  | cons c t ih =>
    rw [encodeResults]
    refine List.pairwise_cons.mpr ⟨?_, ih _⟩
    intro r hr
    have h1 := encodeResults_ge codeMap t _ r hr
    have h2 : 0 < (runeToString c).length := List.length_pos.mpr (runeToString_ne_nil c)
    show idx < r.1
    omega

theorem pairwise_lt_unique (l : List (Nat × Bytes)) (h : l.Pairwise (fun a b => a.1 < b.1))
    (a b : Nat × Bytes) (ha : a ∈ l) (hb : b ∈ l) (hab : a.1 = b.1) : a = b := by
  induction l with
  | nil => simp at ha
  | cons x t ih =>
    obtain ⟨hx, ht⟩ := List.pairwise_cons.mp h
    rcases List.mem_cons.mp ha with ha | ha <;> rcases List.mem_cons.mp hb with hb | hb
    · rw [ha, hb]
    · have := hx b hb
      rw [ha] at hab
      omega
    · have := hx a ha
      rw [hb] at hab
      omega
    · exact ih ht ha hb

/-- The text that `encodeText` assembles does not depend on the order in which the results
are received. -/
theorem collectResults_perm (codeMap : List (Bytes × Bytes)) (s : List Char)
    (received : List (Nat × Bytes)) (h : received.Perm (encodeResults codeMap 0 s)) :
    collectResults received = encodeText codeMap s := by
  haveI : IsTotal (Nat × Bytes) (fun a b => ¬ b.1 < a.1) := ⟨fun a b => by omega⟩
  haveI : IsTrans (Nat × Bytes) (fun a b => ¬ b.1 < a.1) := ⟨fun a b c h1 h2 => by omega⟩
  have hsorted : (received.insertionSort (fun a b => ¬ b.1 < a.1)).Pairwise
      (fun a b => ¬ b.1 < a.1) := List.sorted_insertionSort _ received
  have hperm : (received.insertionSort (fun a b => ¬ b.1 < a.1)).Perm
      (encodeResults codeMap 0 s) := (List.perm_insertionSort _ received).trans h
  have hstrict := encodeResults_sorted codeMap s 0
  have hsorted2 : (encodeResults codeMap 0 s).Pairwise (fun a b => ¬ b.1 < a.1) :=
    List.Pairwise.imp (fun {a b} hab => by omega) hstrict
  have heq : received.insertionSort (fun a b => ¬ b.1 < a.1) = encodeResults codeMap 0 s := by
    refine List.Perm.eq_of_sorted ?_ hsorted hsorted2 hperm
    intro a b ha hb h1 h2
    exact pairwise_lt_unique _ hstrict a b (hperm.subset ha) hb (by omega)
  rw [collectResults, heq, encodeResults_snd]

theorem mapGet_perm {κ ν : Type} [DecidableEq κ] (m m' : List (κ × ν)) (k : κ)
    (hn : (mapKeys m).Nodup) (h : m'.Perm m) : mapGet m' k = mapGet m k := by
  have hn' : (mapKeys m').Nodup := (List.Perm.map Prod.fst h).nodup_iff.mpr hn
  cases hg : mapGet m k with
  | some v =>
    exact mapGet_of_mem m' k v hn' (h.symm.subset (mapGet_some_mem m k v hg))
  | none =>
    rw [mapGet_eq_none_iff] at hg ⊢
    intro hk
    exact hg ((List.Perm.map Prod.fst h).subset hk)

/-- C11. Determinism: whatever the order in which the entries of the frequency map are
visited and whatever the order in which the goroutines of encodeText deliver their
results, Encode returns the same outcome, so that two calls on the same input yield
byte-identical output; the sorted frequency list does not depend on the visiting order,
encodeText equals the concatenation in source order of the codes of the symbols, and the
lookups in the map built by the copy loops of getHuffmanCodePoints do not depend on the
visiting order either. -/
theorem encode_deterministic (hp : MinHeap) (gob : Gob) (s : List Char) :
    (∀ iterate deliver iterate' deliver',
      (∀ l, (iterate l).Perm l) → (∀ l, (deliver l).Perm l) →
      (∀ l, (iterate' l).Perm l) → (∀ l, (deliver' l).Perm l) →
      EncodeSched hp gob iterate deliver s = EncodeSched hp gob iterate' deliver' s ∧
      EncodeSched hp gob iterate deliver s = Encode hp gob s) ∧
    (∀ m', m'.Perm (getFrequencyTable s) →
      getSortedFrequencyMap m' = getSortedFrequencyMap (getFrequencyTable s)) ∧
    (∀ codeMap received, received.Perm (encodeResults codeMap 0 s) →
      collectResults received =
        s.flatMap (fun i => (mapGet codeMap (runeToString i)).getD [])) ∧
    (∀ (dst src src' : List (Bytes × Bytes)) (k : Bytes), (mapKeys src).Nodup → src'.Perm src →
      mapGet (mapCopy dst src') k = mapGet (mapCopy dst src) k) := by
  have key : ∀ iterate deliver, (∀ l, (iterate l).Perm l) → (∀ l, (deliver l).Perm l) →
      EncodeSched hp gob iterate deliver s = Encode hp gob s := by
    intro iterate deliver hi hd
    unfold EncodeSched Encode
    simp only [getSortedFrequencyMap_perm_eq _ _ (hi _)]
    have hc : ∀ codeMap, collectResults (deliver (encodeResults codeMap 0 s)) =
        encodeText codeMap s := fun codeMap => collectResults_perm codeMap s _ (hd _)
    simp only [hc]
  refine ⟨?_, fun m' h => getSortedFrequencyMap_perm_eq _ _ h,
    fun codeMap received h => collectResults_perm codeMap s received h, ?_⟩
  · intro iterate deliver iterate' deliver' h1 h2 h3 h4
    exact ⟨(key iterate deliver h1 h2).trans (key iterate' deliver' h3 h4).symm,
      key iterate deliver h1 h2⟩
  · intro dst src src' k hn hperm
    have hn' : (mapKeys src').Nodup := (List.Perm.map Prod.fst hperm).nodup_iff.mpr hn
    rw [mapGet_mapCopy _ _ _ hn', mapGet_mapCopy _ _ _ hn, mapGet_perm src src' k hn hperm]

/-- C11, witness: on "aaabbc", visiting the map and receiving the results in reverse order
gives the frame of Encode. -/
theorem encode_deterministic_witness :
    EncodeSched refHeap refGob List.reverse List.reverse "aaabbc".toList =
      Encode refHeap refGob "aaabbc".toList ∧
    Encode refHeap refGob "aaabbc".toList =
      .ok [18, 0, 0, 0, 0, 0, 0, 0, 3, 1, 1, 99, 2, 49, 48, 1, 1, 98, 2, 49, 49, 1, 1, 97,
        1, 48, 9, 0, 0, 0, 0, 0, 0, 0, 31, 0] :=
  ⟨((encode_deterministic refHeap refGob "aaabbc".toList).1 List.reverse List.reverse
      List.reverse List.reverse (fun l => List.reverse_perm l) (fun l => List.reverse_perm l)
      (fun l => List.reverse_perm l) (fun l => List.reverse_perm l)).2, by decide⟩

/-! ## The decoder and the bit count -/

/-- The bit loop reads no character after the one at which the count reaches the data
marker. -/
theorem decodeLoop_take (dm : List (Bytes × Bytes)) (D : Nat) (bits : Bytes) :
    ∀ st : DecodeState, st.dataMarkerCount < D → D ≤ st.dataMarkerCount + bits.length →
      decodeLoop dm (D : Int) bits st =
        decodeLoop dm (D : Int) (bits.take (D - st.dataMarkerCount)) st := by
  induction bits with
  | nil => intro st h1 h2; simp
  | cons b t ih =>
    intro st h1 h2
    obtain ⟨k, hk⟩ : ∃ k, D - st.dataMarkerCount = k + 1 := ⟨D - st.dataMarkerCount - 1, by omega⟩
    rw [hk, List.take_succ_cons]
    simp only [List.length_cons] at h2
    by_cases hc : ((st.dataMarkerCount + 1 : Nat) : Int) = (D : Int)
    · cases hget : mapGet dm (st.partialString ++ [b]) <;>
        simp only [decodeLoop, hget, hc, if_true]
    · have hc2 : st.dataMarkerCount + 1 ≠ D := fun e => hc (by exact_mod_cast e)
      have step : ∀ st1 : DecodeState, st1.dataMarkerCount = st.dataMarkerCount + 1 →
          decodeLoop dm (D : Int) t st1 = decodeLoop dm (D : Int) (t.take k) st1 := by
        intro st1 hcnt
        have h3 := ih st1 (by omega) (by omega)
        have h4 : D - st1.dataMarkerCount = k := by omega
        rw [h3, h4]
      cases hget : mapGet dm (st.partialString ++ [b]) <;>
        simp only [decodeLoop, hget, hc, if_false] <;> exact step _ rfl

/-- C18, on the code. Decoder bounded by the bit count: for two well-framed inputs with the
same metadata and the same bit count of at least 1, whose payloads hold at least that many
bits and agree on them, Decode returns the same outcome. With the bit count 0 it does not:
on an empty payload Decode returns the empty result, on a payload of one padding byte it
returns an error, because the count is compared with the data marker only after a bit has
been read. -/
theorem decode_bounded_by_bitCount (gob : Gob) (slack : Nat) :
    (∀ (metadata p1 p2 : Bytes) (bitCount : Nat),
      metadata.length < 2 ^ 63 → bitCount < 2 ^ 63 → 1 ≤ bitCount →
      bitCount ≤ 8 * p1.length → bitCount ≤ 8 * p2.length →
      (p1.flatMap binaryRepr).take bitCount = (p2.flatMap binaryRepr).take bitCount →
      Decode gob slack (uint64LE metadata.length ++ metadata ++ (uint64LE bitCount ++ p1)) =
        Decode gob slack (uint64LE metadata.length ++ metadata ++ (uint64LE bitCount ++ p2))) ∧
    (∀ (metadata : Bytes) (md : List (List (Bytes × Bytes))),
      gob.decode metadata = some md → metadata.length < 2 ^ 63 →
      Decode gob slack (uint64LE metadata.length ++ metadata ++ (uint64LE 0 ++ [])) = .ok [] ∧
      Decode gob slack (uint64LE metadata.length ++ metadata ++ (uint64LE 0 ++ [0])) = .err) := by
  constructor
  · intro metadata p1 p2 bitCount hM hB h1 hp1 hp2 heq
    cases hdec : gob.decode metadata with
    | none =>
      rw [Decode_frame gob slack metadata _ hM, Decode_frame gob slack metadata _ hM, hdec]
    | some md =>
      have hloop : ∀ p : Bytes, bitCount ≤ 8 * p.length →
          decodeLoop (buildDecodeMap md) (bitCount : Int) (p.flatMap binaryRepr)
            { dataMarkerCount := 0, partialString := [], result := [] } =
          decodeLoop (buildDecodeMap md) (bitCount : Int) ((p.flatMap binaryRepr).take bitCount)
            { dataMarkerCount := 0, partialString := [], result := [] } := by
        intro p hp
        have := decodeLoop_take (buildDecodeMap md) bitCount (p.flatMap binaryRepr)
          { dataMarkerCount := 0, partialString := [], result := [] } (by simpa using h1)
          (by rw [flatMap_binaryRepr_length]; simpa using hp)
        simpa using this
      rw [Decode_Encode_frame gob slack metadata p1 bitCount md hdec hM hB,
        Decode_Encode_frame gob slack metadata p2 bitCount md hdec hM hB,
        hloop p1 hp1, hloop p2 hp2, heq]
  · intro metadata md hdec hM
    constructor
    · rw [Decode_Encode_frame gob slack metadata [] 0 md hdec hM (by norm_num)]
      simp [decodeLoop]
    · rw [Decode_Encode_frame gob slack metadata [0] 0 md hdec hM (by norm_num),
        decodeLoop_count, flatMap_binaryRepr_length]
      simp

/-- C18, witness: the frame that Encode returns for "aaaaa" has the bit count 0 and one
payload byte and is rejected; without the payload byte it is accepted. -/
theorem decode_bounded_by_bitCount_witness :
    Encode refHeap refGob "aaaaa".toList =
      .ok (uint64LE 5 ++ [1, 1, 1, 97, 0] ++ (uint64LE 0 ++ [0])) ∧
    Decode refGob 0 (uint64LE 5 ++ [1, 1, 1, 97, 0] ++ (uint64LE 0 ++ [])) = .ok [] ∧
    Decode refGob 0 (uint64LE 5 ++ [1, 1, 1, 97, 0] ++ (uint64LE 0 ++ [0])) = .err :=
  ⟨by decide,
    (decode_bounded_by_bitCount refGob 0).2 [1, 1, 1, 97, 0] [[([97], [])]] (by decide)
      (by decide)⟩

/-! ## Invariants of the tree -/

theorem leaves_leaf (id : Bytes) (w : Nat) : leaves (.addr id w .nil .nil) = [(id, w)] := by
  simp [leaves]

theorem leaves_inner (id : Bytes) (w : Nat) (l r : NodePtr) (h : ¬ (l = .nil ∧ r = .nil)) :
    leaves (.addr id w l r) = leaves l ++ leaves r := by
  cases l <;> cases r <;> simp_all [leaves]

theorem wellFormed_inner (id : Bytes) (w : Nat) (l r : NodePtr) (h : ¬ (l = .nil ∧ r = .nil)) :
    wellFormed (.addr id w l r) =
      (wellFormed l && wellFormed r && decide (w = weightOf l + weightOf r)) := by
  cases l <;> cases r <;> simp_all [wellFormed]

/-- What `wellFormed` says of a node: it has no child, or it has two children, both well
formed, and its weight is the sum of their weights. -/
theorem wellFormed_iff (id : Bytes) (w : Nat) (l r : NodePtr) :
    wellFormed (.addr id w l r) = true ↔
      (l = .nil ∧ r = .nil) ∨
      (l ≠ .nil ∧ r ≠ .nil ∧ wellFormed l = true ∧ wellFormed r = true ∧
        w = weightOf l + weightOf r) := by
  by_cases h : l = .nil ∧ r = .nil
  · obtain ⟨hl, hr⟩ := h
    subst hl hr
    simp [wellFormed]
  · rw [wellFormed_inner id w l r h]
    simp only [Bool.and_eq_true, decide_eq_true_eq]
    constructor
    · rintro ⟨⟨h1, h2⟩, h3⟩
      refine Or.inr ⟨?_, ?_, h1, h2, h3⟩
      · intro e
        rw [e] at h1
        simp [wellFormed] at h1
      · intro e
        rw [e] at h2
        simp [wellFormed] at h2
    · rintro (h1 | ⟨_, _, h1, h2, h3⟩)
      · exact absurd h1 h
      · exact ⟨⟨h1, h2⟩, h3⟩

theorem weightOf_eq_sum (t : NodePtr) (h : wellFormed t = true) :
    weightOf t = ((leaves t).map Prod.snd).sum := by
  induction t with
  | nil => simp [wellFormed] at h
  | addr id w l r ihl ihr =>
    by_cases hleaf : l = .nil ∧ r = .nil
    · obtain ⟨hl, hr⟩ := hleaf
      subst hl hr
      simp [leaves_leaf, weightOf]
    · rw [wellFormed_inner id w l r hleaf] at h
      simp only [Bool.and_eq_true, decide_eq_true_eq] at h
      rw [leaves_inner id w l r hleaf, List.map_append, List.sum_append, ← ihl h.1.1,
        ← ihr h.1.2]
      exact h.2

theorem leaves_ids (t : NodePtr) : (leaves t).map Prod.fst = leafIds t := by
  induction t with
  | nil => rfl
  | addr id w l r ihl ihr =>
    by_cases hleaf : l = .nil ∧ r = .nil
    · obtain ⟨hl, hr⟩ := hleaf
      subst hl hr
      simp [leaves_leaf, leafIds_leaf]
    · rw [leaves_inner id w l r hleaf, leafIds_inner id w l r hleaf, List.map_append, ihl, ihr]

theorem leaves_addrOf_mergeNodes (a b : HuffmanTreeNode) :
    leaves (mergeNodes a b).addrOf = leaves a.addrOf ++ leaves b.addrOf := by
  simp only [mergeNodes, HuffmanTreeNode.addrOf]
  rw [leaves_inner]
  simp

theorem wellFormed_addrOf_mergeNodes (a b : HuffmanTreeNode)
    (ha : wellFormed a.addrOf = true) (hb : wellFormed b.addrOf = true) :
    wellFormed (mergeNodes a b).addrOf = true := by
  simp only [mergeNodes, HuffmanTreeNode.addrOf] at ha hb ⊢
  rw [wellFormed_inner _ _ _ _ (by simp), ha, hb]
  simp [weightOf, HuffmanTreeNode.Val]

theorem flatMap_leaves_leaves (freqList : List (Char × Nat)) :
    (freqList.map leafOf).flatMap (fun n => leaves n.addrOf) = freqList.map leafPair := by
  induction freqList with
  | nil => rfl
  | cons i t ih =>
    simp only [List.map_cons, List.flatMap_cons, ih]
    simp [leafOf, HuffmanTreeNode.addrOf, leaves, leafPair]

/-- The tree builder returns a well-formed tree whose leaves are, up to order, the entries
of the frequency list. -/
theorem buildTree_wellFormed (hp : MinHeap) (hl : hp.Lawful) (freqList : List (Char × Nat))
    (hne : freqList ≠ []) :
    ∃ root, buildTree hp freqList = .ok root ∧ wellFormed root.addrOf = true ∧
      (leaves root.addrOf).Perm (freqList.map leafPair) := by
  obtain ⟨root, h1, h2⟩ := buildTree_inv hp hl
    (fun h => (∀ n ∈ h, wellFormed n.addrOf = true) ∧
      (h.flatMap (fun n => leaves n.addrOf)).Perm (freqList.map leafPair))
    (fun h h' hperm hP => by
      have hP2 : (∀ n ∈ h, wellFormed n.addrOf = true) ∧
          (h.flatMap (fun n => leaves n.addrOf)).Perm (freqList.map leafPair) := hP
      exact ⟨fun n hn => hP2.1 n (hperm.symm.subset hn),
        (List.Perm.flatMap_right _ hperm.symm).trans hP2.2⟩)
    (fun a b h _ _ hP => by
      have hP2 : (∀ n ∈ a :: b :: h, wellFormed n.addrOf = true) ∧
          ((a :: b :: h).flatMap (fun n => leaves n.addrOf)).Perm (freqList.map leafPair) := hP
      refine ⟨?_, ?_⟩
      · intro n hn
        rcases List.mem_cons.mp hn with e | e
        · rw [e]
          exact wellFormed_addrOf_mergeNodes a b (hP2.1 a (by simp)) (hP2.1 b (by simp))
        · exact hP2.1 n (by simp [e])
      · have := hP2.2
        simp only [List.flatMap_cons, leaves_addrOf_mergeNodes, List.append_assoc] at this ⊢
        exact this)
    freqList hne (by
      refine ⟨?_, ?_⟩
      · intro n hn
        obtain ⟨i, _, rfl⟩ := List.mem_map.mp hn
        rfl
      · rw [flatMap_leaves_leaves])
  refine ⟨root, h1, h2.1 root (by simp), ?_⟩
  simpa using h2.2

theorem getFrequencyTable_perm_dedup (s : List Char) :
    (getFrequencyTable s).Perm (s.dedup.map (fun c => (c, s.count c))) := by
  have hn1 : (getFrequencyTable s).Nodup := List.Nodup.of_map Prod.fst (getFrequencyTable_nodup s)
  have hn2 : (s.dedup.map (fun c => (c, s.count c))).Nodup :=
    List.Nodup.map (fun a b h => (Prod.mk.inj h).1) (List.nodup_dedup s)
  rw [List.perm_ext_iff_of_nodup hn1 hn2]
  intro e
  obtain ⟨c, n⟩ := e
  simp only [List.mem_map, List.mem_dedup, Prod.mk.injEq]
  constructor
  · intro h
    have hget := mapGet_of_mem _ c n (getFrequencyTable_nodup s) h
    rw [mapGet_getFrequencyTable] at hget
    by_cases hc : c ∈ s
    · rw [if_pos hc] at hget
      cases hget
      exact ⟨c, hc, rfl, rfl⟩
    · rw [if_neg hc] at hget
      cases hget
  · rintro ⟨d, hd, rfl, rfl⟩
    apply mapGet_some_mem
    rw [mapGet_getFrequencyTable, if_pos hd]

/-- C14. Tree invariants: for every non-empty input and lawful heap the tree that Encode
builds is well formed (every node is a leaf or has exactly two children and the sum of
their weights as weight), its leaves are exactly one per distinct symbol of the input,
with the UTF-8 form of the symbol as identifier and the symbol's count as weight, and the
weight of the root is the number of symbols of the input. -/
theorem tree_invariants (hp : MinHeap) (hl : hp.Lawful) (s : List Char) (hs : s ≠ []) :
    ∃ root, buildTree hp (getSortedFrequencyMap (getFrequencyTable s)) = .ok root ∧
      wellFormed root.addrOf = true ∧
      (leaves root.addrOf).Perm (s.dedup.map (fun c => (runeToString c, s.count c))) ∧
      (leaves root.addrOf).length = s.dedup.length ∧
      root.weight = s.length := by
  obtain ⟨root, h1, h2, h3⟩ := buildTree_wellFormed hp hl (freqListOf s) (freqListOf_ne_nil s hs)
  have hperm : (leaves root.addrOf).Perm (s.dedup.map (fun c => (runeToString c, s.count c))) := by
    have h4 : (freqListOf s).Perm (s.dedup.map (fun c => (c, s.count c))) :=
      (getSortedFrequencyMap_perm _).trans (getFrequencyTable_perm_dedup s)
    have h5 := List.Perm.map leafPair h4
    simp only [List.map_map] at h5
    exact h3.trans h5
  refine ⟨root, h1, h2, hperm, by simpa using hperm.length_eq, ?_⟩
  have hw := weightOf_eq_sum root.addrOf h2
  have hsum : ((leaves root.addrOf).map Prod.snd).sum = s.length := by
    rw [(List.Perm.map Prod.snd h3).sum_eq, ← getFrequencyTable_sum s]
    have h6 : (List.map Prod.snd (List.map leafPair (freqListOf s))) =
        (freqListOf s).map Prod.snd := by
      simp [leafPair]
    rw [h6]
    exact (List.Perm.map Prod.snd (getSortedFrequencyMap_perm _)).sum_eq
  rw [hsum] at hw
  exact hw

/-- C14, witness on the input "aaabbc" with the reference heap. -/
theorem tree_invariants_witness :
    refHeap.Lawful ∧ "aaabbc".toList ≠ [] ∧
    ∃ root, buildTree refHeap (getSortedFrequencyMap (getFrequencyTable "aaabbc".toList)) =
        .ok root ∧
      wellFormed root.addrOf = true ∧ root.weight = 6 := by
  refine ⟨refHeap_lawful, by decide, ?_⟩
  obtain ⟨root, h1, h2, _, _, h3⟩ := tree_invariants refHeap refHeap_lawful "aaabbc".toList
    (by decide)
  exact ⟨root, h1, h2, h3⟩

/-! ## The merge order on three symbols -/

/-- The element extracted first from an array whose lightest element is strictly lighter
than the others is that element. -/
theorem perm_min_head (a m : HuffmanTreeNode) (rest others : List HuffmanTreeNode)
    (hperm : (a :: rest).Perm (m :: others))
    (hmin : ∀ y ∈ rest, a.weight ≤ y.weight) (hm : ∀ y ∈ others, m.weight < y.weight) :
    a = m ∧ rest.Perm others := by
  have ha : a ∈ m :: others := hperm.subset (List.mem_cons_self a rest)
  by_cases e : a = m
  · subst e
    exact ⟨rfl, hperm.cons_inv⟩
  · exfalso
    have ha2 : a ∈ others := by
      rcases List.mem_cons.mp ha with h | h
      · exact absurd h e
      · exact h
    have hm2 : m ∈ a :: rest := hperm.symm.subset (List.mem_cons_self m others)
    have hm3 : m ∈ rest := by
      rcases List.mem_cons.mp hm2 with h | h
      · exact absurd h.symm e
      · exact h
    have h1 := hmin m hm3
    have h2 := hm a ha2
    omega

theorem freqListOf_three (s : List Char) (x y z : Char)
    (hs : ∀ c ∈ s, c = x ∨ c = y ∨ c = z) (hz : 0 < s.count z)
    (hzy : s.count z < s.count y) (hyx : s.count y < s.count x) :
    freqListOf s = [(z, s.count z), (y, s.count y), (x, s.count x)] := by
  have hzy2 : z ≠ y := fun e => by rw [e] at hzy; omega
  have hyx2 : y ≠ x := fun e => by rw [e] at hyx; omega
  have hzx2 : z ≠ x := fun e => by rw [e] at hzy; omega
  have hzs : z ∈ s := List.count_pos_iff.mp hz
  have hys : y ∈ s := List.count_pos_iff.mp (by omega)
  have hxs : x ∈ s := List.count_pos_iff.mp (by omega)
  have hn1 : (getFrequencyTable s).Nodup := List.Nodup.of_map Prod.fst (getFrequencyTable_nodup s)
  have hn2 : [(z, s.count z), (y, s.count y), (x, s.count x)].Nodup := by
    simp [hzy2, hyx2, hzx2]
  have hperm : (getFrequencyTable s).Perm [(z, s.count z), (y, s.count y), (x, s.count x)] := by
    rw [List.perm_ext_iff_of_nodup hn1 hn2]
    intro e
    obtain ⟨c, n⟩ := e
    constructor
    · intro h
      have hget := mapGet_of_mem _ c n (getFrequencyTable_nodup s) h
      rw [mapGet_getFrequencyTable] at hget
      by_cases hc : c ∈ s
      · rw [if_pos hc] at hget
        cases hget
        rcases hs c hc with e | e | e <;> subst e <;> simp
      · rw [if_neg hc] at hget
        cases hget
    · intro h
      simp only [List.mem_cons, Prod.mk.injEq, List.mem_singleton, List.not_mem_nil,
        or_false] at h
      apply mapGet_some_mem
      rw [mapGet_getFrequencyTable]
      rcases h with ⟨rfl, rfl⟩ | ⟨rfl, rfl⟩ | ⟨rfl, rfl⟩
      · rw [if_pos hzs]
      · rw [if_pos hys]
      · rw [if_pos hxs]
  have hsorted : [(z, s.count z), (y, s.count y), (x, s.count x)].Sorted
      (fun a b => ¬ freqLess b a) := by
    have h1 : freqLess (z, s.count z) (y, s.count y) := (freqLess_iff _ _).mpr (Or.inl hzy)
    have h2 : freqLess (y, s.count y) (x, s.count x) := (freqLess_iff _ _).mpr (Or.inl hyx)
    have h3 : freqLess (z, s.count z) (x, s.count x) :=
      (freqLess_iff _ _).mpr (Or.inl (by show s.count z < s.count x; omega))
    simp only [List.Sorted, List.pairwise_cons, List.mem_cons, List.mem_singleton,
      List.not_mem_nil, forall_eq_or_imp, forall_eq, false_imp_iff, implies_true,
      List.Pairwise.nil, and_true]
    exact ⟨⟨freqLess_asymm _ _ h1, freqLess_asymm _ _ h3⟩, freqLess_asymm _ _ h2⟩
  rw [freqListOf, getSortedFrequencyMap_perm_eq _ _ hperm.symm.symm]
  exact List.Sorted.insertionSort_eq hsorted

/-- The tree of three leaves of strictly ascending weights: the two lightest are merged
first, the lightest to the left, and their node is merged with the third leaf, in either
order. -/
theorem buildTree_three (hp : MinHeap) (hl : hp.Lawful) (i1 i2 i3 : Char × Nat)
    (h12 : i1.2 < i2.2) (h23 : i2.2 < i3.2) :
    ∃ root, buildTree hp [i1, i2, i3] = .ok root ∧
      (root = mergeNodes (mergeNodes (leafOf i1) (leafOf i2)) (leafOf i3) ∨
        root = mergeNodes (leafOf i3) (mergeNodes (leafOf i1) (leafOf i2))) := by
  obtain ⟨root, h1, h2⟩ := buildTree_inv hp hl
    (fun h => h.Perm [leafOf i1, leafOf i2, leafOf i3] ∨
      h.Perm [mergeNodes (leafOf i1) (leafOf i2), leafOf i3] ∨
      h = [mergeNodes (mergeNodes (leafOf i1) (leafOf i2)) (leafOf i3)] ∨
      h = [mergeNodes (leafOf i3) (mergeNodes (leafOf i1) (leafOf i2))])
    (fun h h' hperm hP => by
      have hP2 : h.Perm [leafOf i1, leafOf i2, leafOf i3] ∨
          h.Perm [mergeNodes (leafOf i1) (leafOf i2), leafOf i3] ∨
          h = [mergeNodes (mergeNodes (leafOf i1) (leafOf i2)) (leafOf i3)] ∨
          h = [mergeNodes (leafOf i3) (mergeNodes (leafOf i1) (leafOf i2))] := hP
      rcases hP2 with e | e | e | e
      · exact Or.inl (hperm.symm.trans e)
      · exact Or.inr (Or.inl (hperm.symm.trans e))
      · subst e
        exact Or.inr (Or.inr (Or.inl (List.singleton_perm.mp hperm).symm))
      · subst e
        exact Or.inr (Or.inr (Or.inr (List.singleton_perm.mp hperm).symm)))
    (fun a b h hmina hminb hP => by
      have hP2 : (a :: b :: h).Perm [leafOf i1, leafOf i2, leafOf i3] ∨
          (a :: b :: h).Perm [mergeNodes (leafOf i1) (leafOf i2), leafOf i3] ∨
          a :: b :: h = [mergeNodes (mergeNodes (leafOf i1) (leafOf i2)) (leafOf i3)] ∨
          a :: b :: h = [mergeNodes (leafOf i3) (mergeNodes (leafOf i1) (leafOf i2))] := hP
      show (mergeNodes a b :: h).Perm [leafOf i1, leafOf i2, leafOf i3] ∨
          (mergeNodes a b :: h).Perm [mergeNodes (leafOf i1) (leafOf i2), leafOf i3] ∨
          mergeNodes a b :: h = [mergeNodes (mergeNodes (leafOf i1) (leafOf i2)) (leafOf i3)] ∨
          mergeNodes a b :: h = [mergeNodes (leafOf i3) (mergeNodes (leafOf i1) (leafOf i2))]
      rcases hP2 with e | e | e | e
      · obtain ⟨ea, e2⟩ := perm_min_head a (leafOf i1) (b :: h) [leafOf i2, leafOf i3] e hmina
          (by
            intro y hy
            simp only [List.mem_cons, List.mem_singleton, List.not_mem_nil, or_false] at hy
            rcases hy with rfl | rfl
            · exact h12
            · exact Nat.lt_trans h12 h23)
        obtain ⟨eb, e3⟩ := perm_min_head b (leafOf i2) h [leafOf i3] e2 hminb
          (by
            intro y hy
            simp only [List.mem_singleton] at hy
            subst hy
            exact h23)
        have e4 : h = [leafOf i3] := List.perm_singleton.mp e3
        subst ea eb e4
        exact Or.inr (Or.inl (List.Perm.refl _))
      · have ha : a ∈ [mergeNodes (leafOf i1) (leafOf i2), leafOf i3] :=
          e.subset (List.mem_cons_self a _)
        simp only [List.mem_cons, List.mem_singleton, List.not_mem_nil, or_false] at ha
        rcases ha with rfl | rfl
        · have e2 := e.cons_inv
          have e3 : b :: h = [leafOf i3] := List.perm_singleton.mp e2
          simp only [List.cons.injEq] at e3
          obtain ⟨rfl, rfl⟩ := e3
          exact Or.inr (Or.inr (Or.inl rfl))
        · have e2 := (e.trans (List.Perm.swap _ _ [])).cons_inv
          have e3 : b :: h = [mergeNodes (leafOf i1) (leafOf i2)] := List.perm_singleton.mp e2
          simp only [List.cons.injEq] at e3
          obtain ⟨rfl, rfl⟩ := e3
          exact Or.inr (Or.inr (Or.inr rfl))
      · simp at e
      · simp at e)
    [i1, i2, i3] (by simp) (Or.inl (List.Perm.refl _))
  refine ⟨root, h1, ?_⟩
  have h3 : [root].Perm [leafOf i1, leafOf i2, leafOf i3] ∨
      [root].Perm [mergeNodes (leafOf i1) (leafOf i2), leafOf i3] ∨
      [root] = [mergeNodes (mergeNodes (leafOf i1) (leafOf i2)) (leafOf i3)] ∨
      [root] = [mergeNodes (leafOf i3) (mergeNodes (leafOf i1) (leafOf i2))] := h2
  rcases h3 with e | e | e | e
  · have := e.length_eq
    simp at this
  · have := e.length_eq
    simp at this
  · simp only [List.cons.injEq, and_true] at e
    exact Or.inl e
  · simp only [List.cons.injEq, and_true] at e
    exact Or.inr e

/-- C16. Merge order fixes the bits: for every input with exactly three distinct symbols
whose counts are pairwise different, `count z < count y < count x`, and every lawful
min-heap, the two least frequent symbols are merged first with `z` as left child and `y` as
right child, and their node is merged with the leaf of `x`; the code of `x` has length 1,
the codes of `z` and `y` have length 2 and share their first bit, the code of `z` ends in
'0' and the code of `y` ends in '1'. -/
theorem merge_order_three_symbols (hp : MinHeap) (hl : hp.Lawful) (s : List Char)
    (x y z : Char) (hs : ∀ c ∈ s, c = x ∨ c = y ∨ c = z) (hz : 0 < s.count z)
    (hzy : s.count z < s.count y) (hyx : s.count y < s.count x) :
    ∃ root, buildTree hp (getSortedFrequencyMap (getFrequencyTable s)) = .ok root ∧
      (root = mergeNodes (mergeNodes (leafOf (z, s.count z)) (leafOf (y, s.count y)))
          (leafOf (x, s.count x)) ∨
        root = mergeNodes (leafOf (x, s.count x))
          (mergeNodes (leafOf (z, s.count z)) (leafOf (y, s.count y)))) ∧
      ∃ b b', (b = 48 ∧ b' = 49 ∨ b = 49 ∧ b' = 48) ∧
        mapGet (getHuffmanCodePoints root.addrOf []) (runeToString x) = some [b'] ∧
        mapGet (getHuffmanCodePoints root.addrOf []) (runeToString z) = some [b, 48] ∧
        mapGet (getHuffmanCodePoints root.addrOf []) (runeToString y) = some [b, 49] := by
  have hzy2 : runeToString z ≠ runeToString y := fun e => by
    have := runeToString_injective z y e
    rw [this] at hzy
    omega
  have hyx2 : runeToString y ≠ runeToString x := fun e => by
    have := runeToString_injective y x e
    rw [this] at hyx
    omega
  have hzx2 : runeToString z ≠ runeToString x := fun e => by
    have := runeToString_injective z x e
    rw [this] at hzy
    omega
  have hfl : getSortedFrequencyMap (getFrequencyTable s) =
      [(z, s.count z), (y, s.count y), (x, s.count x)] := freqListOf_three s x y z hs hz hzy hyx
  obtain ⟨root, h1, h2⟩ := buildTree_three hp hl (z, s.count z) (y, s.count y) (x, s.count x)
    hzy hyx
  rw [hfl]
  refine ⟨root, h1, h2, ?_⟩
  rcases h2 with e | e
  · refine ⟨48, 49, Or.inl ⟨rfl, rfl⟩, ?_, ?_, ?_⟩ <;>
      simp [e, mapGet_getHuffmanCodePoints, mergeNodes, leafOf, HuffmanTreeNode.addrOf, codeOf,
        hzy2, hyx2, hzx2, hzy2.symm, hyx2.symm, hzx2.symm, Option.orElse]
  · refine ⟨49, 48, Or.inr ⟨rfl, rfl⟩, ?_, ?_, ?_⟩ <;>
      simp [e, mapGet_getHuffmanCodePoints, mergeNodes, leafOf, HuffmanTreeNode.addrOf, codeOf,
        hzy2, hyx2, hzx2, hzy2.symm, hyx2.symm, hzx2.symm, Option.orElse]

/-- C16, witness on the input "aaabbc" with the reference heap. -/
theorem merge_order_three_symbols_witness :
    refHeap.Lawful ∧ "aaabbc".toList.count 'c' < "aaabbc".toList.count 'b' ∧
    "aaabbc".toList.count 'b' < "aaabbc".toList.count 'a' ∧
    ∃ root, buildTree refHeap (getSortedFrequencyMap (getFrequencyTable "aaabbc".toList)) =
        .ok root ∧
      ∃ b b', mapGet (getHuffmanCodePoints root.addrOf []) (runeToString 'a') = some [b'] ∧
        mapGet (getHuffmanCodePoints root.addrOf []) (runeToString 'c') = some [b, 48] ∧
        mapGet (getHuffmanCodePoints root.addrOf []) (runeToString 'b') = some [b, 49] := by
  refine ⟨refHeap_lawful, by decide, by decide, ?_⟩
  obtain ⟨root, h1, _, b, b', _, h2, h3, h4⟩ :=
    merge_order_three_symbols refHeap refHeap_lawful "aaabbc".toList 'a' 'b' 'c'
      (by decide) (by decide) (by decide) (by decide)
  exact ⟨root, h1, b, b', h2, h3, h4⟩

/-! ## Weights and depths in the tree -/

theorem records_inner (id : Bytes) (w : Nat) (l r : NodePtr) (h : ¬ (l = .nil ∧ r = .nil)) :
    records (.addr id w l r) = (weightOf l, weightOf r, w) :: (records l ++ records r) := by
  cases l <;> cases r <;> simp_all [records]

theorem records_leaf (id : Bytes) (w : Nat) : records (.addr id w .nil .nil) = [] := by
  simp [records]

theorem recordAt_nil_inner (id : Bytes) (w : Nat) (l r : NodePtr)
    (h : ¬ (l = .nil ∧ r = .nil)) :
    recordAt (.addr id w l r) [] = some (weightOf l, weightOf r, w) := by
  cases l <;> cases r <;> simp_all [recordAt]

theorem recordAt_none_of_nil (q : Bytes) : recordAt .nil q = none := by
  cases q <;> rfl

theorem weightAt_none_of_nil (q : Bytes) : weightAt .nil q = none := by
  cases q <;> rfl

theorem weightAt_nil_path (t : NodePtr) (w : Nat) (h : weightAt t [] = some w) :
    t ≠ .nil ∧ weightOf t = w := by
  cases t with
  | nil => simp [weightAt] at h
  | addr id w0 l r =>
    simp only [weightAt, Option.some.injEq] at h
    exact ⟨by simp, h⟩

/-- A node reached by a non-empty path is a child of the inner node reached by the path
without its last step. -/
theorem weightAt_snoc (t : NodePtr) (q : Bytes) (b w : Nat)
    (h : weightAt t (q ++ [b]) = some w) :
    ∃ r, recordAt t q = some r ∧ (w = r.1 ∨ w = r.2.1) := by
  induction t generalizing q with
  | nil => rw [weightAt_none_of_nil] at h; cases h
  | addr id w0 l r ihl ihr =>
    cases q with
    | nil =>
      simp only [List.nil_append, weightAt] at h
      by_cases hb : b = 48
      · rw [if_pos hb] at h
        obtain ⟨hl, hw⟩ := weightAt_nil_path l w h
        exact ⟨_, recordAt_nil_inner id w0 l r (fun e => hl e.1), Or.inl hw.symm⟩
      · rw [if_neg hb] at h
        by_cases hb2 : b = 49
        · rw [if_pos hb2] at h
          obtain ⟨hr, hw⟩ := weightAt_nil_path r w h
          exact ⟨_, recordAt_nil_inner id w0 l r (fun e => hr e.2), Or.inr hw.symm⟩
        · rw [if_neg hb2] at h
          cases h
    | cons b' q' =>
      simp only [List.cons_append, weightAt] at h
      simp only [recordAt]
      by_cases hb : b' = 48
      · rw [if_pos hb] at h ⊢
        exact ihl q' h
      · rw [if_neg hb] at h ⊢
        by_cases hb2 : b' = 49
        · rw [if_pos hb2] at h ⊢
          exact ihr q' h
        · rw [if_neg hb2] at h
          cases h

theorem recordAt_weightAt (t : NodePtr) (q : Bytes) (r : Nat × Nat × Nat)
    (h : recordAt t q = some r) : weightAt t q = some r.2.2 := by
  induction t generalizing q with
  | nil => rw [recordAt_none_of_nil] at h; cases h
  | addr id w0 l r0 ihl ihr =>
    cases q with
    | nil =>
      by_cases hleaf : l = .nil ∧ r0 = .nil
      · obtain ⟨hl, hr⟩ := hleaf
        subst hl hr
        simp [recordAt] at h
      · rw [recordAt_nil_inner id w0 l r0 hleaf] at h
        cases h
        rfl
    | cons b' q' =>
      simp only [recordAt] at h
      simp only [weightAt]
      by_cases hb : b' = 48
      · rw [if_pos hb] at h ⊢
        exact ihl q' h
      · rw [if_neg hb] at h ⊢
        by_cases hb2 : b' = 49
        · rw [if_pos hb2] at h ⊢
          exact ihr q' h
        · rw [if_neg hb2] at h
          cases h

theorem recordAt_mem (t : NodePtr) (q : Bytes) (r : Nat × Nat × Nat)
    (h : recordAt t q = some r) : r ∈ records t := by
  induction t generalizing q with
  | nil => rw [recordAt_none_of_nil] at h; cases h
  | addr id w0 l r0 ihl ihr =>
    by_cases hleaf : l = .nil ∧ r0 = .nil
    · obtain ⟨hl, hr⟩ := hleaf
      subst hl hr
      cases q with
      | nil => simp [recordAt] at h
      | cons b' q' =>
        simp only [recordAt, recordAt_none_of_nil, ite_self] at h
        cases h
    · rw [records_inner id w0 l r0 hleaf]
      cases q with
      | nil =>
        rw [recordAt_nil_inner id w0 l r0 hleaf] at h
        cases h
        exact List.mem_cons_self _ _
      | cons b' q' =>
        simp only [recordAt] at h
        by_cases hb : b' = 48
        · rw [if_pos hb] at h
          exact List.mem_cons_of_mem _ (List.mem_append_left _ (ihl q' h))
        · rw [if_neg hb] at h
          by_cases hb2 : b' = 49
          · rw [if_pos hb2] at h
            exact List.mem_cons_of_mem _ (List.mem_append_right _ (ihr q' h))
          · rw [if_neg hb2] at h
            cases h

/-- A symmetric relation that holds pairwise on the records of a tree holds between the
records of the inner nodes at two different paths. -/
theorem records_pairwise_at (R : Nat × Nat × Nat → Nat × Nat × Nat → Prop)
    (hsymm : ∀ a b, R a b → R b a) (t : NodePtr) (hpw : (records t).Pairwise R)
    (q1 q2 : Bytes) (r1 r2 : Nat × Nat × Nat) (hne : q1 ≠ q2)
    (h1 : recordAt t q1 = some r1) (h2 : recordAt t q2 = some r2) : R r1 r2 := by
  induction t generalizing q1 q2 with
  | nil => rw [recordAt_none_of_nil] at h1; cases h1
  | addr id w0 l r0 ihl ihr =>
    by_cases hleaf : l = .nil ∧ r0 = .nil
    · have := recordAt_mem _ _ _ h1
      obtain ⟨hl, hr⟩ := hleaf
      subst hl hr
      rw [records_leaf] at this
      cases this
    · rw [records_inner id w0 l r0 hleaf] at hpw
      obtain ⟨hhead, htail⟩ := List.pairwise_cons.mp hpw
      obtain ⟨hpl, hpr, hcross⟩ := List.pairwise_append.mp htail
      have sub : ∀ (b : Nat) (q : Bytes) (r : Nat × Nat × Nat),
          recordAt (.addr id w0 l r0) (b :: q) = some r →
          (b = 48 ∧ recordAt l q = some r) ∨ (b = 49 ∧ recordAt r0 q = some r) := by
        intro b q r h
        simp only [recordAt] at h
        by_cases hb : b = 48
        · rw [if_pos hb] at h
          exact Or.inl ⟨hb, h⟩
        · rw [if_neg hb] at h
          by_cases hb2 : b = 49
          · rw [if_pos hb2] at h
            exact Or.inr ⟨hb2, h⟩
          · rw [if_neg hb2] at h
            cases h
      cases q1 with
      | nil =>
        cases q2 with
        | nil => exact absurd rfl hne
        | cons b2 q2' =>
          rw [recordAt_nil_inner id w0 l r0 hleaf] at h1
          cases h1
          apply hhead
          rcases sub b2 q2' r2 h2 with ⟨_, h⟩ | ⟨_, h⟩
          · exact List.mem_append_left _ (recordAt_mem _ _ _ h)
          · exact List.mem_append_right _ (recordAt_mem _ _ _ h)
      | cons b1 q1' =>
        cases q2 with
        | nil =>
          rw [recordAt_nil_inner id w0 l r0 hleaf] at h2
          cases h2
          apply hsymm
          apply hhead
          rcases sub b1 q1' r1 h1 with ⟨_, h⟩ | ⟨_, h⟩
          · exact List.mem_append_left _ (recordAt_mem _ _ _ h)
          · exact List.mem_append_right _ (recordAt_mem _ _ _ h)
        | cons b2 q2' =>
          rcases sub b1 q1' r1 h1 with ⟨e1, h1'⟩ | ⟨e1, h1'⟩ <;>
            rcases sub b2 q2' r2 h2 with ⟨e2, h2'⟩ | ⟨e2, h2'⟩
          · exact ihl hpl q1' q2' (fun e => hne (by rw [e1, e2, e])) h1' h2'
          · exact hcross r1 (recordAt_mem _ _ _ h1') r2 (recordAt_mem _ _ _ h2')
          · exact hsymm _ _ (hcross r2 (recordAt_mem _ _ _ h2') r1 (recordAt_mem _ _ _ h1'))
          · exact ihr hpr q1' q2' (fun e => hne (by rw [e1, e2, e])) h1' h2'

/-- In a tree whose inner nodes are pairwise ordered like their children, and whose root
is at least as heavy as every child, a lighter node is at least as deep as a heavier
one. -/
theorem lighter_is_deeper (t : NodePtr)
    (hpw : (records t).Pairwise (fun a b => lighterFirst a b ∧ lighterFirst b a))
    (hroot : ∀ r ∈ records t, r.1 ≤ weightOf t ∧ r.2.1 ≤ weightOf t) :
    ∀ (q2 q1 : Bytes) (w1 w2 : Nat), weightAt t q1 = some w1 → weightAt t q2 = some w2 →
      w1 < w2 → q2.length ≤ q1.length := by
  intro q2
  induction q2 using List.reverseRecOn with
  | nil => intro q1 w1 w2 _ _ _; simp
  | append_singleton q2' b2 ih =>
    intro q1 w1 w2 h1 h2 hlt
    obtain ⟨r2, hr2, hw2⟩ := weightAt_snoc t q2' b2 w2 h2
    rcases List.eq_nil_or_concat q1 with e | ⟨q1', b1, e⟩
    · subst e
      exfalso
      obtain ⟨_, hw1⟩ := weightAt_nil_path t w1 h1
      have hb := hroot r2 (recordAt_mem _ _ _ hr2)
      rcases hw2 with e | e <;> omega
    · rw [List.concat_eq_append] at e
      subst e
      obtain ⟨r1, hr1, hw1⟩ := weightAt_snoc t q1' b1 w1 h1
      simp only [List.length_append, List.length_singleton]
      by_cases hq : q1' = q2'
      · rw [hq]
      · have hrel := records_pairwise_at _ (fun a b h => ⟨h.2, h.1⟩) t hpw q1' q2' r1 r2 hq hr1 hr2
        have hlt2 : r1.2.2 < r2.2.2 := hrel.1 w1 hw1 w2 hw2 hlt
        have := ih q1' r1.2.2 r2.2.2 (recordAt_weightAt _ _ _ hr1) (recordAt_weightAt _ _ _ hr2)
          hlt2
        omega

theorem records_addrOf_mergeNodes (a b : HuffmanTreeNode) :
    records (mergeNodes a b).addrOf =
      (a.weight, b.weight, a.weight + b.weight) :: (records a.addrOf ++ records b.addrOf) := by
  simp only [mergeNodes, HuffmanTreeNode.addrOf]
  rw [records_inner _ _ _ _ (by simp)]
  rfl

theorem records_addrOf_leafOf (i : Char × Nat) : records (leafOf i).addrOf = [] := by
  simp [leafOf, HuffmanTreeNode.addrOf, records]

theorem mem_getFrequencyTable (s : List Char) (c : Char) (n : Nat)
    (h : (c, n) ∈ getFrequencyTable s) : c ∈ s ∧ n = s.count c := by
  have hget := mapGet_of_mem _ c n (getFrequencyTable_nodup s) h
  rw [mapGet_getFrequencyTable] at hget
  by_cases hc : c ∈ s
  · rw [if_pos hc] at hget
    cases hget
    exact ⟨hc, rfl⟩
  · rw [if_neg hc] at hget
    cases hget

/-- The tree builder with a lawful min-heap returns a tree whose leaves are the entries of
the frequency list, whose inner nodes are pairwise ordered like their children, and whose
root is at least as heavy as every child of an inner node. -/
theorem buildTree_records (hp : MinHeap) (hl : hp.Lawful) (freqList : List (Char × Nat))
    (hne : freqList ≠ []) :
    ∃ root, buildTree hp freqList = .ok root ∧
      (leaves root.addrOf).Perm (freqList.map leafPair) ∧
      (records root.addrOf).Pairwise (fun a b => lighterFirst a b ∧ lighterFirst b a) ∧
      (∀ r ∈ records root.addrOf, r.1 ≤ weightOf root.addrOf ∧ r.2.1 ≤ weightOf root.addrOf) := by
  obtain ⟨root, h1, h2⟩ := buildTree_inv hp hl
    (fun h => (h.flatMap (fun n => leaves n.addrOf)).Perm (freqList.map leafPair) ∧
      (h.flatMap (fun n => records n.addrOf)).Pairwise
        (fun a b => lighterFirst a b ∧ lighterFirst b a) ∧
      (∀ r ∈ h.flatMap (fun n => records n.addrOf), r.2.2 = r.1 + r.2.1 ∧
        ∀ n ∈ h, r.1 ≤ n.weight ∧ r.2.1 ≤ n.weight))
    (fun h h' hperm hP => by
      have hP2 : (h.flatMap (fun n => leaves n.addrOf)).Perm (freqList.map leafPair) ∧
          (h.flatMap (fun n => records n.addrOf)).Pairwise
            (fun a b => lighterFirst a b ∧ lighterFirst b a) ∧
          (∀ r ∈ h.flatMap (fun n => records n.addrOf), r.2.2 = r.1 + r.2.1 ∧
            ∀ n ∈ h, r.1 ≤ n.weight ∧ r.2.1 ≤ n.weight) := hP
      obtain ⟨p1, p2, p3⟩ := hP2
      have hrec : (h'.flatMap (fun n => records n.addrOf)).Perm
          (h.flatMap (fun n => records n.addrOf)) := List.Perm.flatMap_right _ hperm.symm
      refine ⟨(List.Perm.flatMap_right _ hperm.symm).trans p1, ?_, ?_⟩
      · exact (List.Perm.pairwise_iff (fun {a b} hab => ⟨hab.2, hab.1⟩) hrec).mpr p2
      · intro r hr
        obtain ⟨q1, q2⟩ := p3 r (hrec.subset hr)
        exact ⟨q1, fun n hn => q2 n (hperm.symm.subset hn)⟩)
    (fun a b h hmina hminb hP => by
      have hP2 : ((a :: b :: h).flatMap (fun n => leaves n.addrOf)).Perm
            (freqList.map leafPair) ∧
          ((a :: b :: h).flatMap (fun n => records n.addrOf)).Pairwise
            (fun a b => lighterFirst a b ∧ lighterFirst b a) ∧
          (∀ r ∈ (a :: b :: h).flatMap (fun n => records n.addrOf), r.2.2 = r.1 + r.2.1 ∧
            ∀ n ∈ a :: b :: h, r.1 ≤ n.weight ∧ r.2.1 ≤ n.weight) := hP
      obtain ⟨p1, p2, p3⟩ := hP2
      show ((mergeNodes a b :: h).flatMap (fun n => leaves n.addrOf)).Perm
            (freqList.map leafPair) ∧
          ((mergeNodes a b :: h).flatMap (fun n => records n.addrOf)).Pairwise
            (fun a b => lighterFirst a b ∧ lighterFirst b a) ∧
          (∀ r ∈ (mergeNodes a b :: h).flatMap (fun n => records n.addrOf),
            r.2.2 = r.1 + r.2.1 ∧
            ∀ n ∈ mergeNodes a b :: h, r.1 ≤ n.weight ∧ r.2.1 ≤ n.weight)
      have hflat : (mergeNodes a b :: h).flatMap (fun n => records n.addrOf) =
          (a.weight, b.weight, a.weight + b.weight) ::
            (a :: b :: h).flatMap (fun n => records n.addrOf) := by
        simp only [List.flatMap_cons, records_addrOf_mergeNodes, List.cons_append,
          List.append_assoc]
      have hab : a.weight ≤ b.weight := hmina b (List.mem_cons_self b h)
      have hmw : (mergeNodes a b).weight = a.weight + b.weight := rfl
      refine ⟨?_, ?_, ?_⟩
      · simp only [List.flatMap_cons, leaves_addrOf_mergeNodes, List.append_assoc] at p1 ⊢
        exact p1
      · rw [hflat]
        refine List.pairwise_cons.mpr ⟨?_, p2⟩
        intro r hr
        obtain ⟨q1, q2⟩ := p3 r hr
        have qa := q2 a (List.mem_cons_self a _)
        have qb := q2 b (List.mem_cons_of_mem a (List.mem_cons_self b h))
        constructor
        · intro u hu v hv huv
          simp only at hu
          rcases hu with rfl | rfl <;> rcases hv with rfl | rfl <;> omega
        · intro u hu v hv huv
          simp only at hv ⊢
          rcases hu with rfl | rfl <;> rcases hv with rfl | rfl <;> omega
      · rw [hflat]
        intro r hr
        rcases List.mem_cons.mp hr with e | e
        · subst e
          refine ⟨rfl, ?_⟩
          intro n hn
          rcases List.mem_cons.mp hn with e2 | e2
          · subst e2
            simp only [hmw]
            omega
          · have := hmina n (List.mem_cons_of_mem b e2)
            have := hminb n e2
            simp only
            omega
        · obtain ⟨q1, q2⟩ := p3 r e
          refine ⟨q1, ?_⟩
          intro n hn
          rcases List.mem_cons.mp hn with e2 | e2
          · subst e2
            have qa := q2 a (List.mem_cons_self a _)
            simp only [hmw]
            omega
          · exact q2 n (List.mem_cons_of_mem a (List.mem_cons_of_mem b e2)))
    freqList hne (by
      have hrec : (freqList.map leafOf).flatMap (fun n => records n.addrOf) = [] := by
        induction freqList with
        | nil => rfl
        | cons i t ih =>
          simp only [List.map_cons, List.flatMap_cons, records_addrOf_leafOf, List.nil_append]
          by_cases ht : t = []
          · subst ht
            rfl
          · exact ih ht
      refine ⟨by rw [flatMap_leaves_leaves], ?_, ?_⟩
      · rw [hrec]
        exact List.Pairwise.nil
      · rw [hrec]
        intro r hr
        cases hr)
  obtain ⟨p1, p2, p3⟩ := h2
  refine ⟨root, h1, by simpa using p1, by simpa using p2, ?_⟩
  intro r hr
  have := (p3 r (by simpa using hr)).2 root (List.mem_singleton_self root)
  exact this

/-- The code of an identifier is a path to a leaf that holds the identifier. -/
theorem codeOf_weightAt (t : NodePtr) (p k c : Bytes) (h : codeOf t p k = some c) :
    ∃ q w, c = p ++ q ∧ weightAt t q = some w ∧ (k, w) ∈ leaves t := by
  induction t generalizing p c with
  | nil => simp [codeOf] at h
  | addr id w0 l r ihl ihr =>
    by_cases hleaf : l = .nil ∧ r = .nil
    · obtain ⟨hl, hr⟩ := hleaf
      subst hl hr
      rw [codeOf_leaf] at h
      split_ifs at h with hk
      cases h
      exact ⟨[], w0, by simp, rfl, by rw [leaves_leaf, hk]; simp⟩
    · rw [codeOf_inner id w0 l r p k hleaf] at h
      rw [leaves_inner id w0 l r hleaf]
      cases hr : codeOf r (p ++ [49]) k with
      | some c2 =>
        rw [hr] at h
        simp only [Option.orElse, Option.some.injEq] at h
        subst h
        obtain ⟨q, w, hq, hw, hm⟩ := ihr _ _ hr
        exact ⟨49 :: q, w, by simp [hq], by simpa [weightAt] using hw,
          List.mem_append_right _ hm⟩
      | none =>
        rw [hr] at h
        simp only [Option.orElse] at h
        obtain ⟨q, w, hq, hw, hm⟩ := ihl _ _ h
        exact ⟨48 :: q, w, by simp [hq], by simpa [weightAt] using hw,
          List.mem_append_left _ hm⟩

/-- C19. More frequent symbols never get longer codes: for every input, every lawful
min-heap and every two symbols of the input of which the first occurs more often than the
second, both symbols have a code in the table of Encode and the code of the first is no
longer than the code of the second. -/
theorem frequent_symbols_shorter (hp : MinHeap) (hl : hp.Lawful) (s : List Char)
    (x y : Char) (hx : x ∈ s) (hy : y ∈ s) (hxy : s.count y < s.count x) :
    ∃ root cx cy, buildTree hp (getSortedFrequencyMap (getFrequencyTable s)) = .ok root ∧
      mapGet (getHuffmanCodePoints root.addrOf []) (runeToString x) = some cx ∧
      mapGet (getHuffmanCodePoints root.addrOf []) (runeToString y) = some cy ∧
      cx.length ≤ cy.length := by
  have hs : s ≠ [] := List.ne_nil_of_mem hx
  obtain ⟨root, hroot, hleaves, hpw, hbound⟩ :=
    buildTree_records hp hl (freqListOf s) (freqListOf_ne_nil s hs)
  have hweight : ∀ (c : Char) (w : Nat), (runeToString c, w) ∈ leaves root.addrOf →
      w = s.count c := by
    intro c w hm
    obtain ⟨i, hi, hip⟩ := List.mem_map.mp (hleaves.subset hm)
    simp only [leafPair, Prod.mk.injEq] at hip
    have hic : i.1 = c := runeToString_injective _ _ hip.1
    have hi2 : (i.1, i.2) ∈ getFrequencyTable s := (getSortedFrequencyMap_perm _).subset hi
    have := (mem_getFrequencyTable s i.1 i.2 hi2).2
    rw [← hip.2, this, hic]
  have hcode : ∀ c ∈ s, ∃ code, codeOf root.addrOf [] (runeToString c) = some code ∧
      weightAt root.addrOf code = some (s.count c) := by
    intro c hc
    have hmem : runeToString c ∈ leafIds root.addrOf := by
      rw [← leaves_ids, (List.Perm.map Prod.fst hleaves).mem_iff]
      obtain ⟨i, hi, hic⟩ := List.mem_map.mp ((mem_freqListOf_keys s c).mpr hc)
      exact List.mem_map.mpr ⟨leafPair i, List.mem_map.mpr ⟨i, hi, rfl⟩, by
        show runeToString i.1 = runeToString c
        rw [hic]⟩
    obtain ⟨code, hcode⟩ := codeOf_of_mem root.addrOf [] (runeToString c) hmem
    obtain ⟨q, w, hq, hw, hm⟩ := codeOf_weightAt _ _ _ _ hcode
    simp only [List.nil_append] at hq
    subst hq
    rw [hweight c w hm] at hw
    exact ⟨code, hcode, hw⟩
  obtain ⟨cx, hcx, hwx⟩ := hcode x hx
  obtain ⟨cy, hcy, hwy⟩ := hcode y hy
  refine ⟨root, cx, cy, hroot, by rw [mapGet_getHuffmanCodePoints]; exact hcx,
    by rw [mapGet_getHuffmanCodePoints]; exact hcy, ?_⟩
  exact lighter_is_deeper root.addrOf hpw hbound cx cy (s.count y) (s.count x) hwy hwx hxy

/-- C19, witness on the input "aaabbc" with the reference heap, for the symbols a and c. -/
theorem frequent_symbols_shorter_witness :
    refHeap.Lawful ∧ "aaabbc".toList.count 'c' < "aaabbc".toList.count 'a' ∧
    ∃ root cx cy, buildTree refHeap
        (getSortedFrequencyMap (getFrequencyTable "aaabbc".toList)) = .ok root ∧
      mapGet (getHuffmanCodePoints root.addrOf []) (runeToString 'a') = some cx ∧
      mapGet (getHuffmanCodePoints root.addrOf []) (runeToString 'c') = some cy ∧
      cx.length ≤ cy.length :=
  ⟨refHeap_lawful, by decide,
    frequent_symbols_shorter refHeap refHeap_lawful "aaabbc".toList 'a' 'c' (by decide)
      (by decide) (by decide)⟩

/-! ## The bitstring left accumulated -/

/-- When the data marker is the count after the last of the characters to read, the bit
loop of Decode ends with the accumulated bitstring and the symbols of the unpacker of the
specification. -/
theorem decodeLoop_specUnpack (dm : List (Bytes × Bytes)) (D : Nat) (bits : Bytes) :
    ∀ st : DecodeState, bits ≠ [] → st.dataMarkerCount + bits.length = D →
      decodeLoop dm (D : Int) bits st =
        { dataMarkerCount := D,
          partialString := (specUnpack dm bits st.partialString st.result).1,
          result := (specUnpack dm bits st.partialString st.result).2 } := by
  induction bits with
  | nil => intro st h; exact absurd rfl h
  | cons b t ih =>
    intro st _ hD
    simp only [List.length_cons] at hD
    by_cases ht : t = []
    · subst ht
      simp only [List.length_nil, Nat.zero_add] at hD
      have hc : ((st.dataMarkerCount + 1 : Nat) : Int) = (D : Int) := by exact_mod_cast hD
      cases hget : mapGet dm (st.partialString ++ [b]) <;>
        simp only [decodeLoop, specUnpack, hget, hc, if_true, hD]
    · have hpos : 0 < t.length := List.length_pos.mpr ht
      have hc : ¬ (((st.dataMarkerCount + 1 : Nat) : Int) = (D : Int)) := by
        intro e
        have : st.dataMarkerCount + 1 = D := by exact_mod_cast e
        omega
      cases hget : mapGet dm (st.partialString ++ [b]) with
      | none =>
        simp only [decodeLoop, specUnpack, hget, hc, if_false]
        exact ih _ ht (by simp only []; omega)
      | some v =>
        simp only [decodeLoop, specUnpack, hget, hc, if_false]
        exact ih _ ht (by simp only []; omega)

/-- Decode on a well-framed input whose payload holds the `bitCount >= 1` bits returns the
symbols that the unpacker of the specification emits on the first `bitCount` bits,
whatever bitstring is left accumulated. -/
theorem Decode_specUnpack (gob : Gob) (slack : Nat) (metadata payload : Bytes)
    (bitCount : Nat) (md : List (List (Bytes × Bytes)))
    (hdec : gob.decode metadata = some md)
    (hsize : (uint64LE metadata.length ++ metadata ++ (uint64LE bitCount ++ payload)).length <
      2 ^ 60)
    (h1 : 1 ≤ bitCount) (h2 : bitCount ≤ 8 * payload.length) :
    Decode gob slack (uint64LE metadata.length ++ metadata ++ (uint64LE bitCount ++ payload)) =
      .ok (specUnpack (buildDecodeMap md) ((payload.flatMap binaryRepr).take bitCount)
        [] []).2 := by
  have hlen : (uint64LE metadata.length ++ metadata ++ (uint64LE bitCount ++ payload)).length =
      8 + metadata.length + (8 + payload.length) := by
    simp only [List.length_append, uint64LE_length]
  rw [hlen] at hsize
  have hM : metadata.length < 2 ^ 63 := by omega
  have hB : bitCount < 2 ^ 63 := by omega
  have hbits : (payload.flatMap binaryRepr).length = 8 * payload.length :=
    flatMap_binaryRepr_length payload
  have htake : ((payload.flatMap binaryRepr).take bitCount).length = bitCount := by
    rw [List.length_take, hbits]
    omega
  have hne : (payload.flatMap binaryRepr).take bitCount ≠ [] := by
    intro e
    rw [e] at htake
    simp at htake
    omega
  have hloop : decodeLoop (buildDecodeMap md) (bitCount : Int) (payload.flatMap binaryRepr)
      { dataMarkerCount := 0, partialString := [], result := [] } =
      { dataMarkerCount := bitCount,
        partialString := (specUnpack (buildDecodeMap md)
          ((payload.flatMap binaryRepr).take bitCount) [] []).1,
        result := (specUnpack (buildDecodeMap md)
          ((payload.flatMap binaryRepr).take bitCount) [] []).2 } := by
    have e1 := decodeLoop_take (buildDecodeMap md) bitCount (payload.flatMap binaryRepr)
      { dataMarkerCount := 0, partialString := [], result := [] } (by simpa using h1)
      (by rw [hbits]; simpa using h2)
    simp only [Nat.sub_zero] at e1
    rw [e1]
    exact decodeLoop_specUnpack (buildDecodeMap md) bitCount _
      { dataMarkerCount := 0, partialString := [], result := [] } hne
      (by simp only [htake, Nat.zero_add])
  rw [Decode_Encode_frame gob slack metadata payload bitCount md hdec hM hB, hloop]
  simp

/-- C9, as amended. Unmatched partial code is dropped, not rejected: for every well-framed
input to Decode (valid length markers, a code table that deserialises, a payload that
holds the `bitCount >= 1` bits, a frame shorter than `2 ^ 60` bytes), if after consuming
exactly `bitCount` bits the accumulated bitstring is non-empty and matches no code-table
entry, Decode returns no error: it returns the symbols matched within the first `bitCount`
bits, as the unpacker of the specification emits them, and the accumulated bitstring is
dropped. -/
theorem unmatched_partial_dropped (gob : Gob) (slack : Nat) (metadata payload : Bytes)
    (bitCount : Nat) (md : List (List (Bytes × Bytes)))
    (hdec : gob.decode metadata = some md)
    (hsize : (uint64LE metadata.length ++ metadata ++ (uint64LE bitCount ++ payload)).length <
      2 ^ 60)
    (h1 : 1 ≤ bitCount) (h2 : bitCount ≤ 8 * payload.length) :
    (specUnpack (buildDecodeMap md) ((payload.flatMap binaryRepr).take bitCount) [] []).1 ≠ [] →
    mapGet (buildDecodeMap md)
      (specUnpack (buildDecodeMap md) ((payload.flatMap binaryRepr).take bitCount) [] []).1 =
        none →
    Decode gob slack (uint64LE metadata.length ++ metadata ++ (uint64LE bitCount ++ payload)) =
      .ok (specUnpack (buildDecodeMap md) ((payload.flatMap binaryRepr).take bitCount)
        [] []).2 :=
  fun _ _ => Decode_specUnpack gob slack metadata payload bitCount md hdec hsize h1 h2

/-- C9, witness: the frame of "aaabbc" with the bit count 4 in place of 9; after 4 bits the
bitstring "1" is left accumulated and Decode returns "aaa". -/
theorem unmatched_partial_dropped_witness :
    refGob.decode [3, 1, 1, 99, 2, 49, 48, 1, 1, 98, 2, 49, 49, 1, 1, 97, 1, 48] =
      some [[([99], [49, 48])], [([98], [49, 49])], [([97], [48])]] ∧
    specUnpack (buildDecodeMap [[([99], [49, 48])], [([98], [49, 49])], [([97], [48])]])
      ((([31, 0] : Bytes).flatMap binaryRepr).take 4) [] [] = ([49], [97, 97, 97]) ∧
    Decode refGob 0 (uint64LE 18 ++ [3, 1, 1, 99, 2, 49, 48, 1, 1, 98, 2, 49, 49, 1, 1, 97, 1, 48]
      ++ (uint64LE 4 ++ [31, 0])) = .ok [97, 97, 97] := by
  refine ⟨by decide, by decide, ?_⟩
  have h := unmatched_partial_dropped refGob 0
    [3, 1, 1, 99, 2, 49, 48, 1, 1, 98, 2, 49, 49, 1, 1, 97, 1, 48] [31, 0] 4
    [[([99], [49, 48])], [([98], [49, 49])], [([97], [48])]] (by decide) (by decide) (by decide)
    (by decide) (by decide) (by decide)
  exact h.trans (by decide)

end Compress
